import Mathlib

/-!
# Revision trees of `rev_tree.c` and `RawRevTree.cc`

A shallow embedding of `src/CBForest/rev_tree.c`: revision identifiers
(`ParseRevID`, `compareRevIDs`), the in-memory tree (`RevTreeInsert`,
`RevTreeSort`, `RevTreeGetCurrentNode`, `RevTreeHasConflict`) and the packed
encoding (`RevTreeEncode`, `RevTreeDecode`, `RevTreeRawFindNode`), of the
packed encoding of `src/LiteCore/RevTrees/RawRevTree.cc`
(`RawRevision.encodeTree`, `RawRevision.decodeTree`), and of the pull
replicator of `src/Replicator/Puller.cc` (`Puller.handleChanges`,
`Puller.handleRev`, `Puller.markComplete`, `Puller.computeActivityLevel`),
followed by the properties proved about them.

Conventions of the embedding:
* a byte is a natural number below 256 and a `sized_buf` is the list of its bytes;
* `unsigned`, `uint32_t`, `uint16_t`, `uint8_t` and `size_t` values are natural
  numbers, reduced modulo `2^32`, `2^16`, `2^8`, `2^64` where the C code converts;
* a `RevTree*` is a value of `RevTree`; functions that mutate their argument
  return the new value; a failed `assert` and a loop that never exits give `none`.
-/

namespace CBForest

/-! ## Buffers and revision identifiers -/

/-- The C `sized_buf` (pointer and size), as the list of the bytes it designates. -/
abbrev sized_buf := List Nat

/-- The C library's `memcmp(a, b, n)`, read as a sign: the first `n` bytes are
compared pairwise as unsigned values. The callers pass `n` no larger than both
lengths, so the last case is not reached. -/
def memcmp : List Nat → List Nat → Nat → Int
  | _, _, 0 => 0
  | a :: as, b :: bs, n + 1 =>
    if a < b then -1 else if b < a then 1 else memcmp as bs n
  | _, _, _ + 1 => 0

/-- Function `buf_cmp` of rev_tree.c, lines 63-73. -/
def buf_cmp (a b : sized_buf) : Int :=
  let minSize := if a.length < b.length then a.length else b.length
  let result := memcmp a b minSize
  if result = 0 then
    if a.length < b.length then -1
    else if a.length > b.length then 1
    else result
  else result

/-- The C library's `isdigit` on a byte: true on `'0'..'9'` (48..57). -/
def isdigit (c : Nat) : Bool := 48 ≤ c && c ≤ 57

/-- The loop of `parseDigits`, lines 507-512, with `result` a `uint32_t`. -/
def parseDigitsLoop : List Nat → Nat → Nat
  | [], result => result
  | c :: str, result =>
    if !isdigit c then 0
    else parseDigitsLoop str ((10 * result + (c - 48)) % 2 ^ 32)

/-- Function `parseDigits(str, end)` of rev_tree.c, lines 504-513; the argument is the
byte range `[str, end)`. -/
def parseDigits (str : List Nat) : Nat := parseDigitsLoop str 0

/-- The C library's `memchr(buf, c, size)`: the offset of the first byte equal
to `c`, or `none` (NULL). -/
def memchr : List Nat → Nat → Option Nat
  | [], _ => none
  | x :: xs, c => if x = c then some 0 else (memchr xs c).map (· + 1)

/-- Function `ParseRevID` of rev_tree.c, lines 516-534: `none` for `false`, otherwise
the values stored through `sequence` and `digest`. Where `dashPos` is compared
with `rev.size - 1` a dash has been found, so `rev.size ≥ 1` and the unsigned
subtraction does not wrap. -/
def ParseRevID (rev : sized_buf) : Option (Nat × sized_buf) :=
  match memchr rev 45 with
  | none => none
  | some dashPos =>
    if dashPos = 0 then none
    else if dashPos > 8 ∨ dashPos ≥ rev.length - 1 then none
    else
      let sequence := parseDigits (rev.take dashPos)
      if sequence = 0 then none
      else some (sequence, rev.drop (dashPos + 1))

/-- Function `compareRevIDs` of rev_tree.c, lines 540-555. -/
def compareRevIDs (rev1 rev2 : sized_buf) : Int :=
  match ParseRevID rev1, ParseRevID rev2 with
  | some (gen1, digest1), some (gen2, digest2) =>
    if gen1 > gen2 then 1
    else if gen1 < gen2 then -1
    else buf_cmp digest1 digest2
  | _, _ => buf_cmp rev1 rev2

/-- Byte-lexicographic comparison of two byte strings as a sign, stated with
the lexicographic order of lists (a proper prefix is smaller). -/
def lexSign (a b : List Nat) : Int :=
  if List.Lex (· < ·) a b then -1 else if List.Lex (· < ·) b a then 1 else 0

/-- The number written by a string of ASCII decimal digits. -/
def decimalValue (G : List Nat) : Nat :=
  Nat.ofDigits 10 ((G.map (· - 48)).reverse)

/-! ## Revision nodes and trees -/

/-- Modelled from the spec: `rev_tree.h`, which declares `RevNode`,
`RevNodeFlags` and the constants below, is not among the sources. The spec
names the flags `leaf` and `deleted` and the sentinel `0xFFFF` for "no
parent"; the two flags are single bits of the `uint8_t` flags byte, distinct
from the private bit `kRevNodeHasData = 0x80`. This is the `deleted` bit. -/
def kRevNodeIsDeleted : Nat := 0x01

/-- Modelled from the spec: the `leaf` bit of `RevNodeFlags` (declared in the
absent `rev_tree.h`). -/
def kRevNodeIsLeaf : Nat := 0x02

/-- Modelled from the spec: the `parentIndex` value meaning "no parent",
`UINT16_MAX` (declared in the absent `rev_tree.h`). -/
def kRevNodeParentIndexNone : Nat := 0xFFFF

/-- Constant `kRevNodePublicFlags` of rev_tree.c, line 35. -/
def kRevNodePublicFlags : Nat := kRevNodeIsLeaf ||| kRevNodeIsDeleted

/-- Constant `kRevNodeHasData` of rev_tree.c, line 36. -/
def kRevNodeHasData : Nat := 0x80

/-- Modelled from the spec: the in-memory node `RevNode` (declared in the
absent `rev_tree.h`) with the fields rev_tree.c uses: `revID`, `data`,
`parentIndex` (a `uint16_t`) and `flags` (a `uint8_t`). The file-offset field
`bp` belongs to the disabled `REVTREE_USES_FILE_OFFSETS` code and is left out. -/
structure RevNode where
  revID : sized_buf
  data : sized_buf
  parentIndex : Nat
  flags : Nat
  deriving DecidableEq, Repr

/-- The `struct RevTree` of rev_tree.c, lines 25-30. The field `node` holds the
first `count` entries of the C array, and `count` is its length. -/
structure RevTree where
  capacity : Nat
  sorted : Bool
  node : List RevNode
  deriving DecidableEq, Repr

/-- The `count` field of `struct RevTree`. -/
def RevTree.count (tree : RevTree) : Nat := tree.node.length

/-- Macro `nodeIsLeaf`, line 59. -/
def nodeIsLeaf (N : RevNode) : Bool := (N.flags &&& kRevNodeIsLeaf) != 0

/-- Macro `nodeIsDeleted`, line 60. -/
def nodeIsDeleted (N : RevNode) : Bool := (N.flags &&& kRevNodeIsDeleted) != 0

/-- Macro `nodeIsActive`, line 61. -/
def nodeIsActive (N : RevNode) : Bool := nodeIsLeaf N && !nodeIsDeleted N

/-- The C value (0 or 1) of a truth value. -/
def boolToInt (b : Bool) : Int := if b then 1 else 0

/-- Function `compareNodes` of rev_tree.c, lines 559-572. -/
def compareNodes (n1 n2 : RevNode) : Int :=
  let delta := boolToInt (nodeIsLeaf n2) - boolToInt (nodeIsLeaf n1)
  if delta ≠ 0 then delta
  else
    let delta := boolToInt (nodeIsDeleted n1) - boolToInt (nodeIsDeleted n2)
    if delta ≠ 0 then delta
    else compareRevIDs n2.revID n1.revID

/-- The class of a node in the sort order: active leaves, deleted leaves,
interior nodes, deleted interior nodes. -/
def sortClass (n : RevNode) : Nat :=
  (if nodeIsLeaf n then 0 else 2) + (if nodeIsDeleted n then 1 else 0)

/-- Every rev of the list has a proper revision ID. -/
def AllProper (l : List RevNode) : Prop :=
  ∀ n ∈ l, (ParseRevID n.revID).isSome = true

/-- The comparator is transitive on the revs of the list. -/
def TransOn (l : List RevNode) : Prop :=
  ∀ a ∈ l, ∀ b ∈ l, ∀ c ∈ l,
    compareNodes a b ≤ 0 → compareNodes b c ≤ 0 → compareNodes a c ≤ 0

/-- Function `RevTreeNew` of rev_tree.c, lines 101-110 (allocation succeeds). -/
def RevTreeNew (capacity : Nat) : RevTree :=
  { capacity := capacity, sorted := true, node := [] }

/-- Function `RevTreeGetCount`, lines 196-198. -/
def RevTreeGetCount (tree : RevTree) : Nat := tree.count

/-- Function `RevTreeGetNode`, lines 220-225. -/
def RevTreeGetNode (tree : RevTree) (index : Nat) : Option RevNode :=
  if index ≥ tree.count then none else tree.node[index]?

/-- The loop of `RevTreeGetCurrentNode`, lines 210-214, over the nodes from
index 1 on. -/
def currentNodeLoop : List RevNode → RevNode → RevNode
  | [], maxNode => maxNode
  | node :: rest, maxNode =>
    currentNodeLoop rest (if compareNodes node maxNode < 0 then node else maxNode)

/-- Function `RevTreeGetCurrentNode` of rev_tree.c, lines 201-217. -/
def RevTreeGetCurrentNode (tree : RevTree) : Option RevNode :=
  if tree.sorted then RevTreeGetNode tree 0
  else
    match tree.node with
    | [] => none
    | node0 :: rest => some (currentNodeLoop rest node0)

/-- Function `RevTreeFindNode`, lines 228-236. -/
def RevTreeFindNode (tree : RevTree) (revID : sized_buf) : Option RevNode :=
  tree.node.find? (fun node =>
    decide (revID.length = node.revID.length) &&
      decide (memcmp revID node.revID revID.length = 0))

/-- The counting loop of `RevTreeHasConflict`, lines 273-278. -/
def hasConflictLoop : List RevNode → Nat → Bool
  | [], _ => false
  | node :: rest, nActive =>
    if nodeIsActive node then
      if nActive + 1 > 1 then true else hasConflictLoop rest (nActive + 1)
    else hasConflictLoop rest nActive

/-- Function `RevTreeHasConflict` of rev_tree.c, lines 265-281. -/
def RevTreeHasConflict (tree : RevTree) : Bool :=
  if tree.count < 2 then false
  else if tree.sorted then
    match tree.node with
    | _ :: node1 :: _ => nodeIsActive node1
    | _ => false
  else hasConflictLoop tree.node 0

/-- The effect of lines 370-371 on the parent: its leaf bit is cleared. -/
def clearLeaf (parentNode : RevNode) : RevNode :=
  if nodeIsLeaf parentNode then
    { parentNode with flags := parentNode.flags &&& (0xFF ^^^ kRevNodeIsLeaf) }
  else parentNode

/-- Function `RevTreeInsert` of rev_tree.c, lines 344-384. `parentNode` is the index
of the node the C pointer designates (`none` for NULL); the result is `none`
when one of the two assertions fails. -/
def RevTreeInsert (tree : RevTree) (revID data : sized_buf)
    (parentNode : Option Nat) (deleted : Bool) : Option RevTree :=
  if ¬ (tree.count < tree.capacity) then none
  else
    let count := tree.count + 1
    let flags := if deleted then kRevNodeIsLeaf ||| kRevNodeIsDeleted else kRevNodeIsLeaf
    let sorted := if count > 1 then false else tree.sorted
    match parentNode with
    | none =>
      some { tree with
        node := tree.node ++ [{ revID := revID, data := data,
                                parentIndex := kRevNodeParentIndexNone, flags := flags }]
        sorted := sorted }
    | some parentIndex =>
      if ¬ (parentIndex < count - 1) then none
      else
        some { tree with
          node := tree.node.modify clearLeaf parentIndex ++
            [{ revID := revID, data := data,
               parentIndex := parentIndex % 2 ^ 16, flags := flags }]
          sorted := sorted }

/-! ## Sorting -/

/-- One link of the chains of `QsortSpec`: two elements of the array `l`
with `compareNodes x y ≤ 0`. -/
def Link (l : List RevNode) (x y : RevNode) : Prop :=
  x ∈ l ∧ y ∈ l ∧ compareNodes x y ≤ 0

/-- What a rev carries besides its parent link: revID, flags and body. -/
def revContent (n : RevNode) : sized_buf × Nat × sized_buf := (n.revID, n.flags, n.data)

/-- The node array with every `parentIndex` replaced by the node's own index
(the first loop of `RevTreeSort`). -/
def tagNodes (l : List RevNode) : List RevNode :=
  l.mapIdx (fun i node => { node with parentIndex := i })

/-- The loop of lines 486-489: `oldToNew[node[i].parentIndex] = i`. -/
def fillOldToNew : List RevNode → Nat → List Nat → List Nat
  | [], _, oldToNew => oldToNew
  | node :: rest, i, oldToNew => fillOldToNew rest (i + 1) (oldToNew.set node.parentIndex i)

/-- The loop of lines 492-498: every `parentIndex` (which holds the node's
old index) is replaced by the old parent run through `oldToNew`. A read
outside an array gives 0. -/
def fixParents (oldParents oldToNew : List Nat) (nodes : List RevNode) : List RevNode :=
  nodes.map (fun node =>
    let oldIndex := node.parentIndex
    let parent := oldParents.getD oldIndex 0
    { node with parentIndex :=
        if parent ≠ kRevNodeParentIndexNone then oldToNew.getD parent 0 else parent })

/-- Function `RevTreeSort` of rev_tree.c, lines 469-500. The argument `qsort` stands
for the C library's `qsort`, which is applied to the node array with
`compareNodes`. The two loops with a `uint16_t` counter never exit when
`count > 65535`, which gives `none`. The array `oldToNew` starts with zeros
here (it is uninitialised in C). -/
def RevTreeSort (qsort : (RevNode → RevNode → Int) → List RevNode → List RevNode)
    (tree : RevTree) : Option RevTree :=
  if tree.sorted then some tree
  else if tree.count > 65535 then none
  else
    let oldParents := tree.node.map (fun node => node.parentIndex)
    let sortedNodes := qsort compareNodes (tagNodes tree.node)
    let oldToNew := fillOldToNew sortedNodes 0 (List.replicate tree.count 0)
    some { tree with node := fixParents oldParents oldToNew sortedNodes, sorted := true }

/-- The contract assumed of the C library's `qsort` when it is called with
`compareNodes`: the array is rearranged in place (the result is a permutation),
and an element ends up before another only on the evidence of comparisons:
there is a chain of array elements from the first to the second along which
every comparison is `≤ 0`. When `compareNodes` is transitive on the array
this says that the result is in comparator order, which is what the C
standard promises for a consistent comparator; the relative order of
elements that compare equal is not determined. For a comparator that is not
transitive the standard promises nothing; the chains are what a sort that
moves elements only on the outcome of comparisons still provides (insertion
sort does, see `insertionQsort_spec`). -/
def QsortSpec (qsort : (RevNode → RevNode → Int) → List RevNode → List RevNode) : Prop :=
  ∀ l : List RevNode,
    (qsort compareNodes l).Perm l ∧
    (qsort compareNodes l).Pairwise (Relation.ReflTransGen (Link l))

/-- Insertion of one element into a sorted array, after the elements it does
not precede. -/
def insertSorted {α : Type} (cmp : α → α → Int) (x : α) : List α → List α
  | [] => [x]
  | y :: ys => if cmp x y < 0 then x :: y :: ys else y :: insertSorted cmp x ys

/-- A reference sort meeting `QsortSpec`: insertion sort. -/
def insertionQsort {α : Type} (cmp : α → α → Int) : List α → List α
  | [] => []
  | x :: xs => insertSorted cmp x (insertionQsort cmp xs)

/-! ## Concrete trees used in the examples -/

/-- The revID "1-" followed by three bytes that number the rev. -/
def bigRevID (i : Nat) : sized_buf := [49, 45, i / 65536 % 256, i / 256 % 256, i % 256]

/-- A root rev that is an active leaf without body. -/
def rootLeaf (revID : sized_buf) : RevNode :=
  { revID := revID, data := [], parentIndex := kRevNodeParentIndexNone,
    flags := kRevNodeIsLeaf }

/-- The tree of `n` root revisions with the revIDs `bigRevID 0`, ..., in an
array of capacity `n + 1`: what `RevTreeNew(n + 1)` followed by `n` calls of
`RevTreeInsert` without parent builds (`rootsTree_built`). -/
def rootsTree (n : Nat) : RevTree :=
  { capacity := n + 1, sorted := false,
    node := (List.range n).map (fun i => rootLeaf (bigRevID i)) }

/-- A tree of 65537 root revisions in an array of capacity 65538. -/
def bigTree : RevTree := rootsTree 65537

/-- The revs of the list, from the second on, follow the first in comparator
order, and so on: `compareNodes node[i] node[j] ≤ 0` for all `i < j`. -/
def InOrder (l : List RevNode) : Prop :=
  l.Pairwise (fun a b => compareNodes a b ≤ 0)

/-- The invariant the sorted-path shortcuts rely on: when the `sorted` flag is
set the array is in comparator order. -/
def OrderedWhenSorted (tree : RevTree) : Prop :=
  tree.sorted = true → InOrder tree.node

/-- The pair a rev is identified by when two trees are compared: revID and flags. -/
def revKey (n : RevNode) : sized_buf × Nat := (n.revID, n.flags)

/-- Inserts root revs without body, in list order. -/
def insertRoots : List sized_buf → RevTree → Option RevTree
  | [], tree => some tree
  | revID :: rest, tree =>
    (RevTreeInsert tree revID [] none false).bind (insertRoots rest)

/-- The tree built by inserting the roots "10-a", "1z", "2-a" in this order
into `RevTreeNew(3)`. -/
def cycTree : RevTree :=
  { capacity := 3, sorted := false,
    node := [rootLeaf [49, 48, 45, 97], rootLeaf [49, 122], rootLeaf [50, 45, 97]] }

/-- The same three roots inserted in the order "2-a", "10-a", "1z". -/
def cycTree2 : RevTree :=
  { capacity := 3, sorted := false,
    node := [rootLeaf [50, 45, 97], rootLeaf [49, 48, 45, 97], rootLeaf [49, 122]] }

/-- The tree built by inserting the roots "01-a" then "1-a" into `RevTreeNew(2)`. -/
def tieTree : RevTree :=
  { capacity := 2, sorted := false,
    node := [rootLeaf [48, 49, 45, 97], rootLeaf [49, 45, 97]] }

/-- The tree built by inserting the roots "1-a" then "01-a" into `RevTreeNew(2)`. -/
def tieTree2 : RevTree :=
  { capacity := 2, sorted := false,
    node := [rootLeaf [49, 45, 97], rootLeaf [48, 49, 45, 97]] }

/-- The tree of the conflict scenario: "1-a", then "2-b" and "2-c" inserted
under it. -/
def conflictTree : RevTree :=
  { capacity := 3, sorted := false,
    node := [{ revID := [49, 45, 97], data := [], parentIndex := 65535, flags := 0 },
             { revID := [50, 45, 98], data := [], parentIndex := 0, flags := 2 },
             { revID := [50, 45, 99], data := [], parentIndex := 0, flags := 2 }] }

/-- The same revisions with "2-c" inserted before "2-b". -/
def conflictTree2 : RevTree :=
  { capacity := 3, sorted := false,
    node := [{ revID := [49, 45, 97], data := [], parentIndex := 65535, flags := 0 },
             { revID := [50, 45, 99], data := [], parentIndex := 0, flags := 2 },
             { revID := [50, 45, 98], data := [], parentIndex := 0, flags := 2 }] }

/-- The parent relation of `tree` is kept in `t'`: there is a renumbering
`newIndex` of the indices, one-to-one on `[0, count)`, such that the rev of
old index `k` sits at `newIndex k` with the same revID, flags and body, has no
parent iff it had none, and otherwise has as `parentIndex` the new index of
its old parent. -/
def ParentsPreserved (tree t' : RevTree) : Prop :=
  ∃ newIndex : Nat → Nat,
    (∀ k, k < tree.count → newIndex k < tree.count) ∧
    (∀ k1 k2, k1 < tree.count → k2 < tree.count → newIndex k1 = newIndex k2 → k1 = k2) ∧
    ∀ k, k < tree.count → ∃ old new,
      tree.node[k]? = some old ∧ t'.node[newIndex k]? = some new ∧
      revContent new = revContent old ∧
      (old.parentIndex = kRevNodeParentIndexNone →
        new.parentIndex = kRevNodeParentIndexNone) ∧
      (old.parentIndex ≠ kRevNodeParentIndexNone →
        new.parentIndex = newIndex old.parentIndex ∧
        new.parentIndex ≠ kRevNodeParentIndexNone)

/-- Every `parentIndex` of the tree is the sentinel for none or an index of the tree. -/
def ValidParents (tree : RevTree) : Prop :=
  ∀ n ∈ tree.node, n.parentIndex = kRevNodeParentIndexNone ∨ n.parentIndex < tree.count

/-- The tree of the linear scenario: "1-a", then "2-b" inserted under it. -/
def linearTree : RevTree :=
  { capacity := 2, sorted := false,
    node := [{ revID := [49, 45, 97], data := [], parentIndex := 65535, flags := 0 },
             { revID := [50, 45, 98], data := [], parentIndex := 0, flags := 2 }] }

/-- The linear scenario after the sort: "2-b" with parent index 1, then "1-a". -/
def linearTreeSorted : RevTree :=
  { capacity := 2, sorted := true,
    node := [{ revID := [50, 45, 98], data := [], parentIndex := 1, flags := 2 },
             { revID := [49, 45, 97], data := [], parentIndex := 65535, flags := 0 }] }

/-- The trees that can be built from an empty tree (`RevTreeNew`) by calls of
`RevTreeInsert` and `RevTreeSort` that return. -/
inductive Built (qsort : (RevNode → RevNode → Int) → List RevNode → List RevNode) :
    RevTree → Prop
  | new (capacity : Nat) : Built qsort (RevTreeNew capacity)
  | insert {t t' : RevTree} (revID data : sized_buf) (parentNode : Option Nat)
      (deleted : Bool) :
      Built qsort t → RevTreeInsert t revID data parentNode deleted = some t' →
      Built qsort t'
  | sort {t t' : RevTree} :
      Built qsort t → RevTreeSort qsort t = some t' → Built qsort t'

/-- The classes of the revs do not decrease along the array: active leaves,
then deleted leaves, then interior revs. -/
def ClassOrdered (l : List RevNode) : Prop :=
  l.Pairwise (fun a b => sortClass a ≤ sortClass b)

/-- The conflict scenario after `RevTreeSort` with the reference sort. -/
def conflictTreeSorted : RevTree :=
  { capacity := 3, sorted := true,
    node := [{ revID := [50, 45, 99], data := [], parentIndex := 2, flags := 2 },
             { revID := [50, 45, 98], data := [], parentIndex := 2, flags := 2 },
             { revID := [49, 45, 97], data := [], parentIndex := 65535, flags := 0 }] }

/-- The tree `RevTreeNew(3)` after the insertion of the root "1-a". -/
def rootTree3 : RevTree :=
  { capacity := 3, sorted := true,
    node := [{ revID := [49, 45, 97], data := [], parentIndex := 65535, flags := 2 }] }

/-- The tree `rootTree3` after the insertion of "2-b" under "1-a". -/
def linearTree3 : RevTree :=
  { capacity := 3, sorted := false,
    node := [{ revID := [49, 45, 97], data := [], parentIndex := 65535, flags := 0 },
             { revID := [50, 45, 98], data := [], parentIndex := 0, flags := 2 }] }

/-! ## The packed encoding -/

/-- The four bytes that `htonl` stores for a `uint32_t` value (big-endian). -/
def htonl (v : Nat) : List Nat :=
  [v / 2 ^ 24 % 256, v / 2 ^ 16 % 256, v / 2 ^ 8 % 256, v % 256]

/-- The two bytes that `htons` stores for a `uint16_t` value (big-endian). -/
def htons (v : Nat) : List Nat := [v / 2 ^ 8 % 256, v % 256]

/-- A `const RawRevNode*` pointing into a packed tree is modelled by the
bytes from that address to the end of the buffer. `ntohl(rawNode->size)`: -/
def rawSize (rawNode : List Nat) : Nat :=
  rawNode.getD 0 0 * 2 ^ 24 + rawNode.getD 1 0 * 2 ^ 16 + rawNode.getD 2 0 * 2 ^ 8 +
    rawNode.getD 3 0

/-- Field read `ntohs(rawNode->parentIndex)`. -/
def rawParentIndex (rawNode : List Nat) : Nat :=
  rawNode.getD 4 0 * 2 ^ 8 + rawNode.getD 5 0

/-- Field read `rawNode->flags`. -/
def rawFlags (rawNode : List Nat) : Nat := rawNode.getD 6 0

/-- Field read `rawNode->revIDLen`. -/
def rawRevIDLen (rawNode : List Nat) : Nat := rawNode.getD 7 0

/-- Function `validRawNode`, lines 85-88. -/
def validRawNode (rawNode : List Nat) : Bool := rawSize rawNode > 0

/-- Function `nextRawNode`, lines 90-93. -/
def nextRawNode (rawNode : List Nat) : List Nat := rawNode.drop (rawSize rawNode)

/-- Function `sizeForRawNode`, lines 419-429 (`offsetof(RawRevNode, revID)` is 8). -/
def sizeForRawNode (node : RevNode) : Nat :=
  8 + node.revID.length + (if node.data.length > 0 then node.data.length else 0)

/-- The bytes that the body of the loop of `RevTreeEncode`, lines 156-173,
writes for one node: `size`, `parentIndex`, `flags`, `revIDLen` (the length
cast to `uint8_t`), the revID and, when the node has data, the data. -/
def encodeRawNode (src : RevNode) : List Nat :=
  let nodeSize := sizeForRawNode src
  let flags := (src.flags &&& kRevNodePublicFlags) |||
    (if src.data.length > 0 then kRevNodeHasData else 0)
  htonl (nodeSize % 2 ^ 32) ++ htons src.parentIndex ++ [flags, src.revID.length % 2 ^ 8] ++
    src.revID ++ (if flags &&& kRevNodeHasData ≠ 0 then src.data else [])

/-- Function `RevTreeEncode` of rev_tree.c, lines 137-193 (allocation succeeds). It
sorts the tree in place, so the sorted tree is returned with the blob; the
result is `none` when `RevTreeSort` does not return. -/
def RevTreeEncode (qsort : (RevNode → RevNode → Int) → List RevNode → List RevNode)
    (tree : RevTree) : Option (RevTree × sized_buf) :=
  (RevTreeSort qsort tree).map (fun sortedTree =>
    (sortedTree, (sortedTree.node.map encodeRawNode).flatten ++ htonl 0))

/-- What a function that walks a packed tree does: it returns a value,
returns NULL, reads outside the buffer (undefined in C), or runs out of the
fuel that bounds the model's loops (which the fuel supplied by
`RevTreeDecode` excludes, see `countRawNodes_fuel`). -/
inductive Outcome (α : Type) where
  | ok (a : α)
  | null
  | outOfBounds
  | outOfFuel
  deriving DecidableEq, Repr

/-- Function `countRawNodes`, lines 432-439. Reading the `size` field needs four bytes
inside the buffer. -/
def countRawNodes : Nat → List Nat → Outcome Nat
  | 0, _ => .outOfFuel
  | fuel + 1, node =>
    if node.length < 4 then .outOfBounds
    else if ¬ validRawNode node then .ok 0
    else
      match countRawNodes fuel (nextRawNode node) with
      | .ok count => .ok (count + 1)
      | other => other

/-- Function `nodeFromRawNode`, lines 442-463. The `sized_buf`s of the result point
into the packed tree: they are the bytes at those addresses, as far as the
buffer reaches. The data size is a pointer difference stored in a `size_t`. -/
def nodeFromRawNode (src : List Nat) : RevNode :=
  let data := src.drop (8 + rawRevIDLen src)
  { revID := (src.drop 8).take (rawRevIDLen src)
    flags := rawFlags src &&& kRevNodePublicFlags
    parentIndex := rawParentIndex src
    data :=
      if rawFlags src &&& kRevNodeHasData ≠ 0 then
        data.take ((rawSize src + 2 ^ 64 - (8 + rawRevIDLen src)) % 2 ^ 64)
      else [] }

/-- The loop of `RevTreeDecode`, lines 125-127: the decoded nodes and the
final value of `rawNode`. Reading the fields of a raw node needs its eight
header bytes inside the buffer. -/
def decodeRawNodes : Nat → List Nat → Outcome (List RevNode × List Nat)
  | 0, _ => .outOfFuel
  | fuel + 1, rawNode =>
    if rawNode.length < 4 then .outOfBounds
    else if ¬ validRawNode rawNode then .ok ([], rawNode)
    else if rawNode.length < 8 then .outOfBounds
    else
      match decodeRawNodes fuel (nextRawNode rawNode) with
      | .ok (nodes, last) => .ok (nodeFromRawNode rawNode :: nodes, last)
      | other => other

/-- Function `RevTreeDecode` of rev_tree.c, lines 113-134 (allocation succeeds).
`capacity` is an `unsigned`. The final test compares `rawNode` with the
address four bytes before the end of the buffer, that is, exactly four bytes
are left. The count of a buffer shorter than `2^32` bytes does not wrap. -/
def RevTreeDecode (raw_tree : sized_buf) (extraCapacity : Nat) : Outcome RevTree :=
  match countRawNodes (raw_tree.length + 1) raw_tree with
  | .ok count =>
    let capacity := (count + extraCapacity) % 2 ^ 32
    if capacity > 65535 then .null
    else
      match decodeRawNodes (raw_tree.length + 1) raw_tree with
      | .ok (nodes, rawNode) =>
        if rawNode.length ≠ 4 then .null
        else .ok { capacity := capacity, sorted := true, node := nodes }
      | .null => .null
      | .outOfBounds => .outOfBounds
      | .outOfFuel => .outOfFuel
  | .null => .null
  | .outOfBounds => .outOfBounds
  | .outOfFuel => .outOfFuel

/-- The scenario of the encoding test: "1-a" with body "x", and under it the
leaf "2-b" with body "yz" and the deleted leaf "2-c". -/
def encodingTree : RevTree :=
  { capacity := 3, sorted := false,
    node := [{ revID := [49, 45, 97], data := [120], parentIndex := 65535, flags := 0 },
             { revID := [50, 45, 98], data := [121, 122], parentIndex := 0, flags := 2 },
             { revID := [50, 45, 99], data := [], parentIndex := 0, flags := 3 }] }

/-- What decoding makes of a node: the flags are cut down to the public ones. -/
def publicNode (n : RevNode) : RevNode :=
  { n with flags := n.flags &&& kRevNodePublicFlags }

/-- A node fits the packed format: its revID length fits the `uint8_t` field
`revIDLen`, its record size fits the `uint32_t` field `size`, and its
`parentIndex` is a `uint16_t`. -/
def FitsRaw (n : RevNode) : Prop :=
  n.revID.length ≤ 255 ∧ sizeForRawNode n < 2 ^ 32 ∧ n.parentIndex < 2 ^ 16

/-- A tree holding one root rev whose revID "1-aaa...a" is 256 bytes long:
what `RevTreeNew(1)` followed by one `RevTreeInsert` builds. -/
def longIdTree : RevTree :=
  { capacity := 1, sorted := true,
    node := [rootLeaf (49 :: 45 :: List.replicate 254 97)] }

/-- A well-formed packed tree whose records are not in sort order: the
interior rev "1-a" first, then its child, the leaf "2-b". -/
def unsortedBlob : sized_buf :=
  [0, 0, 0, 11, 255, 255, 0, 3, 49, 45, 97,
   0, 0, 0, 11, 0, 0, 2, 3, 50, 45, 98,
   0, 0, 0, 0]

/-- The tree that `RevTreeDecode` returns for `unsortedBlob`: its sorted flag
is set and its array is in the order of the blob. -/
def decodedUnsorted : RevTree :=
  { capacity := 2, sorted := true,
    node := [{ revID := [49, 45, 97], data := [], parentIndex := 65535, flags := 0 },
             { revID := [50, 45, 98], data := [], parentIndex := 0, flags := 2 }] }

/-- The decimal digits of `g` as ASCII bytes, most significant first. -/
def decimalDigits (g : Nat) : List Nat :=
  (Nat.digits 10 g).reverse.map (· + 48)

/-! ## The packed encoding of LiteCore (RawRevTree.cc)

The header RawRevTree.hh, the class `Rev` of RevTree.hh and the varint
functions of Fleece are not among the sources; what `RawRevTree.cc` uses of
them is modelled below from the record layout that the specification gives,
which is the layout of rev_tree.c with a sequence varint before the body. -/

/-- Modelled from the spec: the flag masks `kNonPersistentFlags`,
`kPersistentOnlyFlags` and `kHasData` of the missing headers. Their values are
parameters of the model. -/
structure RawRevFlags where
  kNonPersistentFlags : Nat
  kPersistentOnlyFlags : Nat
  kHasData : Nat
  deriving DecidableEq, Repr

/-- What the specification says of the masks: they are bytes, `hasData` is a
wire-only bit (one of the persistent-only flags) and is not one of the
non-persistent in-memory flags. -/
def RawRevFlags.Valid (k : RawRevFlags) : Prop :=
  k.kNonPersistentFlags < 256 ∧ k.kPersistentOnlyFlags < 256 ∧ k.kHasData < 256 ∧
    k.kHasData ≠ 0 ∧ k.kHasData &&& k.kPersistentOnlyFlags = k.kHasData ∧
    k.kHasData &&& k.kNonPersistentFlags = 0

instance (k : RawRevFlags) : Decidable (RawRevFlags.Valid k) := by
  unfold RawRevFlags.Valid
  infer_instance

/-- Masks that fit the specification: `new` (0x04) is the non-persistent
flag and `hasData` (0x80, as in rev_tree.c) the only wire-only bit. -/
def sampleFlags : RawRevFlags :=
  { kNonPersistentFlags := 0x04, kPersistentOnlyFlags := 0x80, kHasData := 0x80 }

/-- Modelled from the spec: the constant `kNoParent` of RawRevTree.hh ("0xFFFF = none"). -/
def RawRevision.kNoParent : Nat := 0xFFFF

/-- Modelled from the spec: the members of the class `Rev` (RevTree.hh) that
RawRevTree.cc reads and writes. `parent` is `none` for a null pointer and
otherwise the position `parent->index()` of the parent in the tree's array;
`body` is `none` for `nullslice` (a slice whose `buf` is null, which is what
`if (rev._body)` tests) and otherwise the bytes of `_body`. `flags` is a
`uint8_t` and `sequence` a `uint64_t`. The member `owner` is left out. -/
structure Rev where
  revID : List Nat
  flags : Nat
  parent : Option Nat
  sequence : Nat
  body : Option (List Nat)
  deriving DecidableEq, Repr

/-- The C expression `flags & ~mask`. -/
def clearFlags (flags mask : Nat) : Nat := flags ^^^ (flags &&& mask)

/-- Modelled from the spec: the loop of `PutUVarInt` (varint.hh is not under
src/): seven bits a byte, least significant first, the high bit set on every
byte but the last. -/
def putUVarIntLoop : Nat → Nat → List Nat
  | 0, _ => []
  | fuel + 1, n =>
    if n < 128 then [n] else (n % 128 + 128) :: putUVarIntLoop fuel (n / 128)

/-- Modelled from the spec: function `PutUVarInt` of varint.hh, the bytes of
the unsigned varint of a `uint64_t` (at most ten). -/
def PutUVarInt (n : Nat) : List Nat := putUVarIntLoop 10 (n % 2 ^ 64)

/-- Modelled from the spec: the loop of `SizeOfVarInt` (varint.hh is not under
src/), one byte for every seven bits. -/
def sizeOfVarIntLoop : Nat → Nat → Nat
  | 0, _ => 0
  | fuel + 1, n => if n < 128 then 1 else 1 + sizeOfVarIntLoop fuel (n / 128)

/-- Modelled from the spec: function `SizeOfVarInt` of varint.hh, the number
of bytes of the unsigned varint of a `uint64_t`. -/
def SizeOfVarInt (n : Nat) : Nat := sizeOfVarIntLoop 10 (n % 2 ^ 64)

/-- Modelled from the spec: the loop of `GetUVarInt` (varint.hh is not under
src/): the number of bytes read and the value. -/
def getUVarIntLoop : Nat → List Nat → Option (Nat × Nat)
  | 0, _ => none
  | _ + 1, [] => none
  | fuel + 1, b :: rest =>
    if b < 128 then some (1, b)
    else
      match getUVarIntLoop fuel rest with
      | some (k, v) => some (k + 1, (b - 128) + 128 * v)
      | none => none

/-- Modelled from the spec: function `GetUVarInt` of varint.hh, reading an
unsigned varint from a slice. It returns the number of bytes read with the
value, or `none` (the C++ function returns 0 and stores nothing) when the
slice ends before the varint does, the varint is longer than ten bytes or its
value does not fit a `uint64_t`. -/
def GetUVarInt (buf : List Nat) : Option (Nat × Nat) :=
  match getUVarIntLoop 10 buf with
  | some (k, v) => if v < 2 ^ 64 then some (k, v) else none
  | none => none

/-- Modelled from the spec: method `RawRevision::isValid` of RawRevTree.hh;
the size field of the terminator is zero. -/
abbrev RawRevision.isValid (rawRev : List Nat) : Bool := validRawNode rawRev

/-- Modelled from the spec: method `RawRevision::next` of RawRevTree.hh; the
size field is the total length of the record. -/
abbrev RawRevision.next (rawRev : List Nat) : List Nat := nextRawNode rawRev

/-- Modelled from the spec: method `RawRevision::count` of RawRevTree.hh, the
number of records before the terminator. -/
abbrev RawRevision.count (fuel : Nat) (rawRev : List Nat) : Outcome Nat :=
  countRawNodes fuel rawRev

/-- Function `RawRevision::sizeToWrite`, lines 67-72 (`offsetof(RawRevision, revID)` is 8;
the size of `nullslice` is 0). -/
def RawRevision.sizeToWrite (rev : Rev) : Nat :=
  8 + rev.revID.length + SizeOfVarInt rev.sequence + (rev.body.getD []).length

/-- The flags byte that `RawRevision::copyFrom` stores, lines 81-84. -/
def RawRevision.dstFlags (k : RawRevFlags) (rev : Rev) : Nat :=
  let dstFlags := clearFlags rev.flags k.kNonPersistentFlags
  if rev.body.isSome then dstFlags ||| k.kHasData else dstFlags

/-- Function `RawRevision::copyFrom`, lines 74-91: the bytes it writes at `this`, in
the order of the fields of the record: `size_BE` (the size cast to
`uint32_t`), `parentIndex_BE` (cast to `uint16_t`), `flags`, `revIDLen` (cast
to `uint8_t`), the revID, the sequence varint and the body. The pointer it
returns is `this` advanced by `sizeToWrite`. -/
def RawRevision.copyFrom (k : RawRevFlags) (rev : Rev) : List Nat :=
  let revSize := RawRevision.sizeToWrite rev
  htonl (revSize % 2 ^ 32) ++
    htons ((match rev.parent with
      | some index => index
      | none => RawRevision.kNoParent) % 2 ^ 16) ++
    [RawRevision.dstFlags k rev, rev.revID.length % 2 ^ 8] ++
    rev.revID ++ PutUVarInt rev.sequence ++ rev.body.getD []

/-- Function `RawRevision::encodeTree`, lines 48-64: the records of the revs in the
order of the list, then the trailing zero size. -/
def RawRevision.encodeTree (k : RawRevFlags) (revs : List Rev) : List Nat :=
  (revs.map (RawRevision.copyFrom k)).flatten ++ htonl 0

/-- Modelled from the spec: whether `GetUVarInt` (varint.hh is not under
src/), given a slice of `size` bytes of which only the bytes `inside` lie in
the buffer, reads a byte past the end of the buffer. It reads byte after byte
while the high bit is set, at most ten bytes and not past the end of the
slice; so it leaves the buffer when the slice does, fewer than ten bytes are
inside and every one of them has its high bit set. -/
def varIntOverruns (inside : List Nat) (size : Nat) : Bool :=
  decide (inside.length < size) && decide (inside.length < 10) &&
    inside.all (fun b => decide (128 ≤ b))

/-- Function `RawRevision::copyTo`, lines 93-109; `count` is the size of the deque
`revs`. The slices of the result point into the packed tree: they are the
bytes at those addresses. `len` and the size of `slice(data, end)` are pointer
differences taken as `size_t`. A rev of the deque starts with sequence 0,
which stays when `GetUVarInt` stores nothing. The result is `outOfBounds`
(undefined in C++) when `&revs[parentIndex]` indexes the deque at or past its
size, when `GetUVarInt` reads past the end of the buffer, or when the revID or
the body given to the rev is a slice that reaches past the end of the
buffer. -/
def RawRevision.copyTo (k : RawRevFlags) (rawRev : List Nat) (count : Nat) : Outcome Rev :=
  let endOffset := rawSize rawRev
  let dataOffset := 8 + rawRevIDLen rawRev
  let len := (endOffset + 2 ^ 64 - dataOffset) % 2 ^ 64
  let inside := (rawRev.drop dataOffset).take len
  let got := GetUVarInt inside
  let bodyOffset := dataOffset + (match got with
    | some (read, _) => read
    | none => 0)
  let bodySize := (endOffset + 2 ^ 64 - bodyOffset) % 2 ^ 64
  if rawRev.length < dataOffset then .outOfBounds
  else if rawParentIndex rawRev ≠ RawRevision.kNoParent ∧ count ≤ rawParentIndex rawRev then
    .outOfBounds
  else if varIntOverruns inside len then .outOfBounds
  else if rawFlags rawRev &&& k.kHasData ≠ 0 ∧ rawRev.length < bodyOffset + bodySize then
    .outOfBounds
  else
    .ok
      { revID := (rawRev.drop 8).take (rawRevIDLen rawRev)
        flags := clearFlags (rawFlags rawRev) k.kPersistentOnlyFlags
        parent :=
          if rawParentIndex rawRev = RawRevision.kNoParent then none
          else some (rawParentIndex rawRev)
        sequence := (match got with
          | some (_, value) => value
          | none => 0)
        body :=
          if rawFlags rawRev &&& k.kHasData ≠ 0 then
            some ((rawRev.drop bodyOffset).take bodySize)
          else none }

/-- The loop of `RawRevision::decodeTree`, lines 34-40: the decoded revs and the
final value of `rawRev`; `count` is the size of the deque. A stored sequence
of 0 is replaced by `curSeq`. Reading the fields of a record needs its eight
header bytes inside the buffer. -/
def RawRevision.decodeRevs (k : RawRevFlags) (curSeq count : Nat) :
    Nat → List Nat → Outcome (List Rev × List Nat)
  | 0, _ => .outOfFuel
  | fuel + 1, rawRev =>
    if rawRev.length < 4 then .outOfBounds
    else if ¬ RawRevision.isValid rawRev then .ok ([], rawRev)
    else if rawRev.length < 8 then .outOfBounds
    else
      match RawRevision.copyTo k rawRev count with
      | .ok rev =>
        match RawRevision.decodeRevs k curSeq count fuel (RawRevision.next rawRev) with
        | .ok (revs, last) =>
          .ok ({ rev with sequence := if rev.sequence = 0 then curSeq else rev.sequence } :: revs,
            last)
        | other => other
      | .null => .null
      | .outOfBounds => .outOfBounds
      | .outOfFuel => .outOfFuel

/-- The exception `error::CorruptRevisionData` thrown by `decodeTree`; among
the outcomes of a walk it takes the place of a C function returning NULL. -/
abbrev CorruptRevisionData {α : Type} : Outcome α := .null

/-- Function `RawRevision::decodeTree`, lines 27-45. The final test compares `rawRev`
with the address four bytes before the end of the buffer, that is, exactly
four bytes are left. -/
def RawRevision.decodeTree (k : RawRevFlags) (raw_tree : List Nat) (curSeq : Nat) :
    Outcome (List Rev) :=
  match RawRevision.count (raw_tree.length + 1) raw_tree with
  | .ok count =>
    if count > 65535 then CorruptRevisionData
    else
      match RawRevision.decodeRevs k curSeq count (raw_tree.length + 1) raw_tree with
      | .ok (revs, rawRev) =>
        if rawRev.length ≠ 4 then CorruptRevisionData
        else .ok revs
      | .null => .null
      | .outOfBounds => .outOfBounds
      | .outOfFuel => .outOfFuel
  | .null => .null
  | .outOfBounds => .outOfBounds
  | .outOfFuel => .outOfFuel

/-- A rev fits the packed format of LiteCore: its revID length fits the
`uint8_t` field `revIDLen`, its record size fits the `uint32_t` field
`size_BE`, its sequence is a `uint64_t`, the position of its parent is a
`uint16_t` other than `kNoParent`, and its in-memory flags do not carry the
wire-only bit `hasData`. -/
def FitsRev (k : RawRevFlags) (rev : Rev) : Prop :=
  rev.revID.length ≤ 255 ∧ RawRevision.sizeToWrite rev < 2 ^ 32 ∧ rev.sequence < 2 ^ 64 ∧
    (∀ index, rev.parent = some index → index < 65535) ∧ rev.flags &&& k.kHasData = 0

/-- What the packed format keeps of a rev: the non-persistent flags and the
wire-only bits are cleared. -/
def storedRev (k : RawRevFlags) (rev : Rev) : Rev :=
  { rev with
    flags := clearFlags (clearFlags rev.flags k.kNonPersistentFlags) k.kPersistentOnlyFlags }

/-- What `decodeTree` does to the sequence of a decoded rev. -/
def withCurSeq (curSeq : Nat) (rev : Rev) : Rev :=
  { rev with sequence := if rev.sequence = 0 then curSeq else rev.sequence }

/-- What the loop of `decodeTree` stores for the records at the addresses
`pointers`, in the order of the loop: the first record that `copyTo` cannot
read in bounds ends it. -/
def copyAll (k : RawRevFlags) (curSeq count : Nat) : List (List Nat) → Outcome (List Rev)
  | [] => .ok []
  | p :: ps =>
    match RawRevision.copyTo k p count with
    | .ok rev =>
      match copyAll k curSeq count ps with
      | .ok revs => .ok (withCurSeq curSeq rev :: revs)
      | other => other
    | .null => .null
    | .outOfBounds => .outOfBounds
    | .outOfFuel => .outOfFuel

/-- A rev without parent or body whose revID is 256 bytes long. -/
def longIdRev : Rev :=
  { revID := List.replicate 256 97, flags := 0, parent := none, sequence := 1, body := none }

/-- The scenario of the encoding test as LiteCore revs: "1-a" with a body and
a sequence, and under it the new leaf "2-b" with a body and the deleted leaf
"2-c" without one, both not saved yet (sequence 0). -/
def sampleRevs : List Rev :=
  [{ revID := [49, 45, 97], flags := 0, parent := none, sequence := 300, body := some [120] },
   { revID := [50, 45, 98], flags := 6, parent := some 0, sequence := 0, body := some [121, 122] },
   { revID := [50, 45, 99], flags := 3, parent := some 0, sequence := 0, body := none }]

/-- The byte strings `records` are records of a packed tree: each holds at
least the eight header bytes, and its size field holds its length. -/
def IsRecords (records : List (List Nat)) : Prop :=
  ∀ rec ∈ records, 8 ≤ rec.length ∧ rawSize rec = rec.length

/-- The addresses of the records of the blob `records.flatten ++ tail`: for
each record the bytes from its start to the end of the buffer. -/
def recordPointers : List (List Nat) → List Nat → List (List Nat)
  | [], _ => []
  | rec :: rest, tail => (rec ++ (rest.flatten ++ tail)) :: recordPointers rest tail

/-- A packed tree of `n` records of eight bytes each (no parent, no flags,
empty revID, no body) and the terminator. -/
def wideBlob (n : Nat) : sized_buf :=
  (List.replicate n [0, 0, 0, 8, 255, 255, 0, 0]).flatten ++ [0, 0, 0, 0]

/-- The loop of `RevTreeRawFindNode`, lines 255-260: `some node` when the
function stores `node` in `outNode` and returns true, `none` when it returns
false. Reading the header of a raw node needs its eight bytes inside the
buffer, and `memcmp` reads `revID.size` bytes of `rawNode->revID`. -/
def rawFindNodeLoop : Nat → List Nat → sized_buf → Outcome (Option RevNode)
  | 0, _, _ => .outOfFuel
  | fuel + 1, rawNode, revID =>
    if rawNode.length < 4 then .outOfBounds
    else if ¬ validRawNode rawNode then .ok none
    else if rawNode.length < 8 then .outOfBounds
    else if revID.length = rawRevIDLen rawNode then
      if rawNode.length < 8 + revID.length then .outOfBounds
      else if memcmp revID (rawNode.drop 8) revID.length = 0 then
        .ok (some (nodeFromRawNode rawNode))
      else rawFindNodeLoop fuel (nextRawNode rawNode) revID
    else rawFindNodeLoop fuel (nextRawNode rawNode) revID

/-- Function `RevTreeRawFindNode` of rev_tree.c, lines 252-262. -/
def RevTreeRawFindNode (raw_tree : sized_buf) (revID : sized_buf) : Outcome (Option RevNode) :=
  rawFindNodeLoop (raw_tree.length + 1) raw_tree revID

/-- A well-formed packed tree: at most 65535 records followed by the four
zero bytes of the terminator, where the size field of each record holds its
length and the header and the revID lie inside the record. -/
def WellFormedBlob (blob : sized_buf) : Prop :=
  ∃ records : List (List Nat), blob = records.flatten ++ [0, 0, 0, 0] ∧
    records.length ≤ 65535 ∧
    ∀ rec ∈ records, 8 + rawRevIDLen rec ≤ rec.length ∧ rawSize rec = rec.length

/-- The tree `RevTreeNew(2)` after the insertion of the deleted root "1-a". -/
def deletedRootTree : RevTree :=
  { capacity := 2, sorted := true,
    node := [{ revID := [49, 45, 97], data := [], parentIndex := 65535, flags := 3 }] }

/-- The tree `deletedRootTree` after the insertion of "2-b" under "1-a". -/
def deletedInteriorTree : RevTree :=
  { capacity := 2, sorted := false,
    node := [{ revID := [49, 45, 97], data := [], parentIndex := 65535, flags := 1 },
             { revID := [50, 45, 98], data := [], parentIndex := 0, flags := 2 }] }

/-- The tree `rootTree3` after the insertion of the deleted rev "2-b" under "1-a". -/
def tombstoneTree : RevTree :=
  { capacity := 3, sorted := false,
    node := [{ revID := [49, 45, 97], data := [], parentIndex := 65535, flags := 0 },
             { revID := [50, 45, 98], data := [], parentIndex := 0, flags := 3 }] }

/-- The trees built from an empty tree (`RevTreeNew`) by calls of
`RevTreeInsert` that return and none of which names a deleted rev as the
parent. -/
inductive InsertedUnderLive : RevTree → Prop
  | new (capacity : Nat) : InsertedUnderLive (RevTreeNew capacity)
  | insert {t t' : RevTree} (revID data : sized_buf) (parentNode : Option Nat)
      (deleted : Bool) :
      InsertedUnderLive t →
      (∀ index parent, parentNode = some index → t.node[index]? = some parent →
        nodeIsDeleted parent = false) →
      RevTreeInsert t revID data parentNode deleted = some t' →
      InsertedUnderLive t'

/-- The loop of `RevTreeReserveCapacity`, lines 331-333: the `unsigned`
`capacity` is doubled until it is not below `capacityNeeded`. The result is
`none` when the fuel runs out. -/
def reserveLoop : Nat → Nat → Nat → Option Nat
  | 0, _, _ => none
  | fuel + 1, capacity, capacityNeeded =>
    let capacity := capacity * 2 % 2 ^ 32
    if capacity < capacityNeeded then reserveLoop fuel capacity capacityNeeded
    else some capacity

/-- Function `RevTreeReserveCapacity` of rev_tree.c, lines 325-341 (`realloc` succeeds):
the tree that `*pTree` designates afterwards, or `none` when the loop never
exits. After 32 doublings an `unsigned` is 0 and stays 0, so a loop that has
not exited after 33 rounds never does (`reserveLoop_fuel`). -/
def RevTreeReserveCapacity (tree : RevTree) (extraCapacity : Nat) : Option RevTree :=
  let capacityNeeded := (tree.count + extraCapacity) % 2 ^ 32
  let capacity := tree.capacity
  if capacityNeeded ≤ capacity then some tree
  else
    (reserveLoop 33 capacity capacityNeeded).map
      (fun capacity => { tree with capacity := capacity })

/-- Modelled from the spec: an `alloc_slice` (Fleece, absent): `none` is the
null slice, `some bytes` a slice, possibly empty. -/
abbrev alloc_slice := Option (List Nat)

/-- Modelled from the spec: the activity levels of `ReplActor` (ReplActor.hh
is absent): stopped, idle and busy. -/
inductive ActivityLevel where
  | kStopped
  | kIdle
  | kBusy
  deriving DecidableEq, Repr

/-- Modelled from the spec: the class `SequenceSet` (SequenceSet.hh is absent),
"a sparse ordered set over peer sequences". `first` is the checkpoint the set
was cleared with, `requested` the sequences requested since, in the order of
the requests, each with the flag of being still in the set (not completed). -/
structure SequenceSet where
  first : alloc_slice
  requested : List (alloc_slice × Bool)
  deriving DecidableEq, Repr

/-- Modelled from the spec: method `SequenceSet::clear`. -/
def SequenceSet.clear (since : alloc_slice) : SequenceSet :=
  { first := since, requested := [] }

/-- Modelled from the spec: method `SequenceSet::empty`: no sequence is in the set. -/
def SequenceSet.empty (set : SequenceSet) : Bool :=
  set.requested.all (fun e => !e.2)

/-- Modelled from the spec: method `SequenceSet::size`. -/
def SequenceSet.size (set : SequenceSet) : Nat :=
  (set.requested.filter (fun e => e.2)).length

/-- Membership in the set. -/
def SequenceSet.contains (set : SequenceSet) (s : alloc_slice) : Bool :=
  set.requested.any (fun e => decide (e.1 = s) && e.2)

/-- Modelled from the spec: method `SequenceSet::add`: the sequence enters the set
as the latest request, unless it is in the set already. -/
def SequenceSet.add (set : SequenceSet) (s : alloc_slice) : SequenceSet :=
  if set.contains s then set
  else { set with requested := set.requested ++ [(s, true)] }

/-- Modelled from the spec: method `SequenceSet::remove`: the sequence leaves the
set (it is completed); the result tells whether it was in the set. -/
def SequenceSet.remove (set : SequenceSet) (s : alloc_slice) : Bool × SequenceSet :=
  (set.contains s,
    { set with requested := set.requested.map (fun e => if e.1 = s then (e.1, false) else e) })

/-- The requests completed without a gap: the longest run of completed
sequences at the start of the request order. -/
def SequenceSet.completedPrefix (set : SequenceSet) : List alloc_slice :=
  (set.requested.takeWhile (fun e => !e.2)).map (fun e => e.1)

/-- Modelled from the spec: method `SequenceSet::since`, "the highest contiguous
prefix boundary": the last of the requests completed without a gap, or the
checkpoint the set was cleared with when the first request is not completed. -/
def SequenceSet.since (set : SequenceSet) : alloc_slice :=
  set.completedPrefix.getLast?.getD set.first

/-- What the puller does to the outside: replies to the message being handled,
calls of the `DBActor` and of the `Replicator`, and errors reported. -/
inductive Effect where
  | respond
  | respondWithError (domain : String) (code : Int)
  | gotError (domain : String) (code : Int)
  | findOrRequestRevs (changes : List (List Nat))
  | insertRevision (docID revID : alloc_slice) (deleted : Bool) (history : alloc_slice)
      (fleeceBody : List Nat) (onInserted : Bool)
  | updatePullCheckpoint (sequence : alloc_slice)
  deriving DecidableEq, Repr

/-- Modelled from the spec: what Puller.cc reads of an incoming message
(`MessageIn` of BLIP, absent). `changes` is `JSONBody().asArray()`, `none`
when the body is not an array; `fleeceBody` is `Encoder::convertJSON(body)`,
`none` when the conversion fails with the error code `convertError`; `id`,
`rev`, `deleted`, `history` and `sequence` are the properties of those names
(the null slice when absent); `rootId`, `rootRev` and `rootDeleted` are the
values of `_id`, `_rev` and `_deleted` in the converted body. -/
structure MessageIn where
  noReply : Bool
  changes : Option (List (List Nat))
  fleeceBody : Option (List Nat)
  convertError : Int
  id : alloc_slice
  rev : alloc_slice
  deleted : alloc_slice
  history : alloc_slice
  sequence : alloc_slice
  rootId : alloc_slice
  rootRev : alloc_slice
  rootDeleted : Bool
  deriving DecidableEq, Repr

/-- Modelled from the spec: the state of a `Puller` (Puller.hh and ReplActor.hh
are absent). `baseLevel` is what `ReplActor::computeActivityLevel()` returns,
`nonPassive` and `isOpenServer` what the methods of those names return, and
`continuous` is `_options.pull == kC4Continuous`; `lastSequence`, `caughtUp`,
`requestedSequences` and `pendingCallbacks` (an `unsigned` count) are the
members; `effects` is the log of what the puller did, latest last. -/
structure Puller where
  baseLevel : ActivityLevel
  nonPassive : Bool
  isOpenServer : Bool
  continuous : Bool
  lastSequence : alloc_slice
  caughtUp : Bool
  requestedSequences : SequenceSet
  pendingCallbacks : Nat
  effects : List Effect
  deriving DecidableEq, Repr

/-- The increment `++_pendingCallbacks` of an `unsigned`. -/
def increment (n : Nat) : Nat := if n + 1 = 2 ^ 32 then 0 else n + 1

/-- The decrement `--_pendingCallbacks` of an `unsigned`. -/
def decrement (n : Nat) : Nat := if n = 0 then 2 ^ 32 - 1 else n - 1

/-- Function `Puller::markComplete`, lines 142-150. -/
def Puller.markComplete (p : Puller) (sequence : alloc_slice) : Puller :=
  if p.nonPassive then
    let removed := p.requestedSequences.remove sequence
    if removed.1 then
      { p with
        requestedSequences := removed.2
        lastSequence := removed.2.since
        effects := p.effects ++ [.updatePullCheckpoint removed.2.since] }
    else { p with requestedSequences := removed.2 }
  else p

/-- Function `Puller::handleChanges`, lines 47-77, up to the call of the `DBActor`. -/
def Puller.handleChanges (p : Puller) (req : MessageIn) : Puller :=
  match req.changes with
  | none => { p with effects := p.effects ++ [.respondWithError "BLIP" 400] }
  | some changes =>
    if changes.isEmpty then
      { p with caughtUp := true, effects := p.effects ++ [.respond] }
    else if req.noReply then p
    else
      { p with
        pendingCallbacks := increment p.pendingCallbacks
        effects := p.effects ++ [.findOrRequestRevs changes] }

/-- The callback that `handleChanges` passes to `findOrRequestRevs`, lines 68-75, run
later on the puller's queue with the sequences the `DBActor` asked for. -/
def Puller.onRevsRequested (p : Puller) (requests : List alloc_slice) : Puller :=
  let requestedSequences :=
    if p.nonPassive then requests.foldl SequenceSet.add p.requestedSequences
    else p.requestedSequences
  { p with
    requestedSequences := requestedSequences
    pendingCallbacks := decrement p.pendingCallbacks }

/-- The docID, the revID and the deleted flag that `handleRev` finds, lines 89-101: in
the properties of the message when it has the property `id`, and in the
converted body otherwise. -/
def MessageIn.revMetadata (msg : MessageIn) : alloc_slice × alloc_slice × Bool :=
  match msg.id with
  | some docID => (some docID, msg.rev, msg.deleted.isSome)
  | none => (msg.rootId, msg.rootRev, msg.rootDeleted)

/-- The size of a slice (0 for the null slice). -/
def sliceSize (s : alloc_slice) : Nat := (s.getD []).length

/-- Function `Puller::handleRev`, lines 81-138, up to the call of the `DBActor`. The last
field of `insertRevision` tells whether a callback `onInserted` is passed. -/
def Puller.handleRev (p : Puller) (msg : MessageIn) : Puller :=
  match msg.fleeceBody with
  | none => { p with effects := p.effects ++ [.gotError "Fleece" msg.convertError] }
  | some fleeceBody =>
    let docID := msg.revMetadata.1
    let revID := msg.revMetadata.2.1
    let deleted := msg.revMetadata.2.2
    if sliceSize docID = 0 ∨ sliceSize revID = 0 then
      { p with effects := p.effects ++ [.respondWithError "BLIP" 400] }
    else if p.nonPassive ∧ msg.sequence = none then
      { p with effects := p.effects ++ [.respondWithError "BLIP" 400] }
    else if ¬ msg.noReply ∨ p.nonPassive then
      { p with
        pendingCallbacks := increment p.pendingCallbacks
        effects := p.effects ++
          [.insertRevision docID revID deleted msg.history fleeceBody true] }
    else
      { p with
        effects := p.effects ++
          [.insertRevision docID revID deleted msg.history fleeceBody false] }

/-- The callback `onInserted` of `handleRev`, lines 121-134, run later on the puller's
queue with the error code the `DBActor` reports (0 for success). -/
def Puller.onInserted (p : Puller) (msg : MessageIn) (errCode : Int) : Puller :=
  let p1 :=
    if errCode ≠ 0 then
      if ¬ msg.noReply then
        { p with effects := p.effects ++ [.respondWithError "LiteCore" errCode] }
      else p
    else
      let p2 := p.markComplete msg.sequence
      if ¬ msg.noReply then { p2 with effects := p2.effects ++ [.respond] }
      else p2
  { p1 with pendingCallbacks := decrement p1.pendingCallbacks }

/-- Function `Puller::computeActivityLevel`, lines 153-164. -/
def Puller.computeActivityLevel (p : Puller) : ActivityLevel :=
  if p.baseLevel = .kBusy ∨ (p.caughtUp = false ∧ p.nonPassive = true) ∨
      p.requestedSequences.empty = false ∨ p.pendingCallbacks > 0 then .kBusy
  else if p.continuous = true ∨ p.isOpenServer = true then .kIdle
  else .kStopped

/-- Successive calls of `markComplete`, one for each sequence of the list. -/
def Puller.markCompleteAll (p : Puller) (sequences : List alloc_slice) : Puller :=
  sequences.foldl Puller.markComplete p

/-- The checkpoints pushed through `updatePullCheckpoint`, in order. -/
def pushedCheckpoints : List Effect → List alloc_slice
  | [] => []
  | .updatePullCheckpoint sequence :: rest => sequence :: pushedCheckpoints rest
  | _ :: rest => pushedCheckpoints rest

/-- A one-shot active puller that has caught up and waits for the revisions
"s1", "s2" and "s3", requested in this order after the checkpoint "". -/
def activePuller : Puller :=
  { baseLevel := .kStopped, nonPassive := true, isOpenServer := false, continuous := false,
    lastSequence := some [], caughtUp := true,
    requestedSequences :=
      { first := some [],
        requested := [(some [115, 49], true), (some [115, 50], true), (some [115, 51], true)] },
    pendingCallbacks := 3, effects := [] }

/-- A passive puller (the server side of a push) with one callback in flight. -/
def passivePuller : Puller :=
  { baseLevel := .kStopped, nonPassive := false, isOpenServer := true, continuous := false,
    lastSequence := none, caughtUp := false,
    requestedSequences := SequenceSet.clear none,
    pendingCallbacks := 1, effects := [] }

/-- A "rev" message of the scenario: document "doc" at revision "1-a" with the
sequence "s1", expecting a reply. -/
def revMessage : MessageIn :=
  { noReply := false, changes := none, fleeceBody := some [123, 125], convertError := 0,
    id := some [100, 111, 99], rev := some [49, 45, 97], deleted := none, history := none,
    sequence := some [115, 49], rootId := none, rootRev := none, rootDeleted := false }

/-- The active puller of the scenario when every callback has run: the three
revisions are inserted and the checkpoint is "s3". -/
def donePuller : Puller :=
  { baseLevel := .kStopped, nonPassive := true, isOpenServer := false, continuous := false,
    lastSequence := some [115, 51], caughtUp := true,
    requestedSequences :=
      { first := some [],
        requested := [(some [115, 49], false), (some [115, 50], false), (some [115, 51], false)] },
    pendingCallbacks := 0,
    effects := [.updatePullCheckpoint (some [115, 49]), .updatePullCheckpoint (some [115, 50]),
      .updatePullCheckpoint (some [115, 51])] }

/-- A "changes" message with one entry, expecting a reply. -/
def changesMessage : MessageIn :=
  { noReply := false, changes := some [[115, 49]], fleeceBody := none, convertError := 0,
    id := none, rev := none, deleted := none, history := none,
    sequence := none, rootId := none, rootRev := none, rootDeleted := false }

/-- Following exactly `steps` parent links from the rev at `index` arrives at a
rev without parent, every rev on the way being a rev of the array. -/
def reachesRoot (nodes : List RevNode) : Nat → Nat → Bool
  | 0, index =>
    match nodes[index]? with
    | some node => node.parentIndex == kRevNodeParentIndexNone
    | none => false
  | steps + 1, index =>
    match nodes[index]? with
    | some node =>
      node.parentIndex != kRevNodeParentIndexNone && reachesRoot nodes steps node.parentIndex
    | none => false

/-- The parent links of the array form a forest: the revs can be given depths
below the count such that every parent is a rev of the array and less deep
than its child. -/
def ParentForest (nodes : List RevNode) : Prop :=
  ∃ depth : Nat → Nat, ∀ (i : Nat) (n : RevNode), nodes[i]? = some n →
    depth i < nodes.length ∧
    (n.parentIndex ≠ kRevNodeParentIndexNone →
      n.parentIndex < nodes.length ∧ depth n.parentIndex < depth i)

/-- The tree `linearTree3` after the sort: "2-b" with parent index 1, then "1-a". -/
def linearTree3Sorted : RevTree :=
  { capacity := 3, sorted := true,
    node := [{ revID := [50, 45, 98], data := [], parentIndex := 1, flags := 2 },
             { revID := [49, 45, 97], data := [], parentIndex := 65535, flags := 0 }] }

/-! ## Byte comparison -/

theorem buf_cmp_cons_cons (x y : Nat) (a b : List Nat) :
    buf_cmp (x :: a) (y :: b) =
      if x < y then -1 else if y < x then 1 else buf_cmp a b := by
  unfold buf_cmp
  simp only [List.length_cons, Nat.add_lt_add_iff_right, gt_iff_lt]
  by_cases hxy : x < y
  · by_cases hl : a.length < b.length <;> simp [hl, hxy, memcmp]
  · by_cases hyx : y < x
    · by_cases hl : a.length < b.length <;> simp [hl, hxy, hyx, memcmp]
    · by_cases hl : a.length < b.length <;> simp [hl, hxy, hyx, memcmp]

theorem lexSign_cons_cons (x y : Nat) (a b : List Nat) :
    lexSign (x :: a) (y :: b) =
      if x < y then -1 else if y < x then 1 else lexSign a b := by
  unfold lexSign
  by_cases hxy : x < y
  · simp [hxy, List.Lex.rel hxy]
  · by_cases hyx : y < x
    · have h1 : ¬ List.Lex (· < ·) (x :: a) (y :: b) := by
        intro h
        cases h with
        | cons h => exact lt_irrefl _ hyx
        | rel h => exact hxy h
      simp [hxy, hyx, h1, List.Lex.rel hyx]
    · have hEq : x = y := by omega
      subst hEq
      simp [List.Lex.cons_iff]

theorem buf_cmp_eq_lexSign (a b : List Nat) : buf_cmp a b = lexSign a b := by
  induction a generalizing b with
  | nil =>
    cases b with
    | nil => simp [buf_cmp, memcmp, lexSign]
    | cons y b => simp [buf_cmp, memcmp, lexSign, List.Lex.nil]
  | cons x a ih =>
    cases b with
    | nil => simp [buf_cmp, memcmp, lexSign, List.Lex.nil]
    | cons y b => rw [buf_cmp_cons_cons, lexSign_cons_cons, ih]

theorem lex_irrefl (a : List Nat) : ¬ List.Lex (· < ·) a a :=
  irrefl_of (List.Lex (fun x1 x2 : Nat => x1 < x2)) a

theorem lex_trans {a b c : List Nat} (h1 : List.Lex (· < ·) a b)
    (h2 : List.Lex (· < ·) b c) : List.Lex (· < ·) a c :=
  trans_of (List.Lex (fun x1 x2 : Nat => x1 < x2)) h1 h2

theorem lex_trichotomy (a b : List Nat) :
    List.Lex (· < ·) a b ∨ a = b ∨ List.Lex (· < ·) b a :=
  trichotomous_of (List.Lex (fun x1 x2 : Nat => x1 < x2)) a b

theorem lex_asymm {a b : List Nat} (h1 : List.Lex (· < ·) a b) :
    ¬ List.Lex (· < ·) b a :=
  fun h2 => lex_irrefl a (lex_trans h1 h2)

theorem lexSign_lt_iff (a b : List Nat) : lexSign a b < 0 ↔ List.Lex (· < ·) a b := by
  unfold lexSign
  by_cases h1 : List.Lex (· < ·) a b
  · simp [h1]
  · by_cases h2 : List.Lex (· < ·) b a <;> simp [h1, h2]

theorem lexSign_gt_iff (a b : List Nat) : 0 < lexSign a b ↔ List.Lex (· < ·) b a := by
  unfold lexSign
  by_cases h1 : List.Lex (· < ·) a b
  · simp [h1, lex_asymm h1]
  · by_cases h2 : List.Lex (· < ·) b a <;> simp [h1, h2]

theorem lexSign_eq_zero_iff (a b : List Nat) : lexSign a b = 0 ↔ a = b := by
  unfold lexSign
  by_cases h1 : List.Lex (· < ·) a b
  · have hne : a ≠ b := fun h => lex_irrefl b (h ▸ h1)
    simp [h1, hne]
  · by_cases h2 : List.Lex (· < ·) b a
    · have hne : a ≠ b := fun h => lex_irrefl b (h ▸ h2)
      simp [h1, h2, hne]
    · have hEq : a = b := by
        rcases lex_trichotomy a b with h | h | h
        · exact absurd h h1
        · exact h
        · exact absurd h h2
      subst hEq
      simp [lex_irrefl]

theorem lexSign_neg (a b : List Nat) : lexSign a b = - lexSign b a := by
  unfold lexSign
  by_cases h1 : List.Lex (· < ·) a b
  · simp [h1, lex_asymm h1]
  · by_cases h2 : List.Lex (· < ·) b a <;> simp [h1, h2]

theorem lexSign_le_trans {a b c : List Nat} (h1 : lexSign a b ≤ 0)
    (h2 : lexSign b c ≤ 0) : lexSign a c ≤ 0 := by
  have n1 : ¬ List.Lex (· < ·) b a := fun h => by
    have := (lexSign_gt_iff a b).2 h
    omega
  have n2 : ¬ List.Lex (· < ·) c b := fun h => by
    have := (lexSign_gt_iff b c).2 h
    omega
  have n3 : ¬ List.Lex (· < ·) c a := by
    intro h
    rcases lex_trichotomy a b with hab | hab | hab
    · exact n2 (lex_trans h hab)
    · subst hab
      exact n2 h
    · exact n1 hab
  by_contra hc
  exact n3 ((lexSign_gt_iff a c).1 (by omega))

/-! ## The comparators -/

theorem compareNodes_eq (a b : RevNode) :
    compareNodes a b =
      if sortClass a < sortClass b then
        (if nodeIsLeaf a = nodeIsLeaf b then -1 else -1)
      else if sortClass b < sortClass a then 1
      else compareRevIDs b.revID a.revID := by
  unfold compareNodes sortClass boolToInt
  cases nodeIsLeaf a <;> cases nodeIsLeaf b <;> cases nodeIsDeleted a <;>
    cases nodeIsDeleted b <;> simp

theorem compareRevIDs_proper {a b : sized_buf} {g1 g2 : Nat} {d1 d2 : sized_buf}
    (ha : ParseRevID a = some (g1, d1)) (hb : ParseRevID b = some (g2, d2)) :
    compareRevIDs a b =
      if g1 > g2 then 1 else if g1 < g2 then -1 else lexSign d1 d2 := by
  unfold compareRevIDs
  rw [ha, hb]
  simp only [buf_cmp_eq_lexSign]

theorem compareRevIDs_improper {a b : sized_buf}
    (h : ParseRevID a = none ∨ ParseRevID b = none) :
    compareRevIDs a b = lexSign a b := by
  unfold compareRevIDs
  rcases h with h | h
  · rw [h]
    simp [buf_cmp_eq_lexSign]
  · rw [h]
    cases hA : ParseRevID a <;> simp [buf_cmp_eq_lexSign]

theorem compareRevIDs_neg (a b : sized_buf) :
    compareRevIDs a b = - compareRevIDs b a := by
  cases ha : ParseRevID a with
  | none =>
    rw [compareRevIDs_improper (Or.inl ha), compareRevIDs_improper (Or.inr ha)]
    exact lexSign_neg a b
  | some pa =>
    cases hb : ParseRevID b with
    | none =>
      rw [compareRevIDs_improper (Or.inr hb), compareRevIDs_improper (Or.inl hb)]
      exact lexSign_neg a b
    | some pb =>
      obtain ⟨g1, d1⟩ := pa
      obtain ⟨g2, d2⟩ := pb
      rw [compareRevIDs_proper ha hb, compareRevIDs_proper hb ha, lexSign_neg d1 d2]
      by_cases h1 : g1 < g2
      · have h2 : ¬ g2 < g1 := by omega
        simp [h1, h2]
      · by_cases h2 : g2 < g1
        · simp [h1, h2]
        · simp [h1, h2]

theorem compareRevIDs_proper_trans {a b c : sized_buf}
    (ha : (ParseRevID a).isSome) (hb : (ParseRevID b).isSome)
    (hc : (ParseRevID c).isSome)
    (h1 : compareRevIDs a b ≤ 0) (h2 : compareRevIDs b c ≤ 0) :
    compareRevIDs a c ≤ 0 := by
  obtain ⟨⟨g1, d1⟩, ha⟩ := Option.isSome_iff_exists.1 ha
  obtain ⟨⟨g2, d2⟩, hb⟩ := Option.isSome_iff_exists.1 hb
  obtain ⟨⟨g3, d3⟩, hc⟩ := Option.isSome_iff_exists.1 hc
  rw [compareRevIDs_proper ha hb] at h1
  rw [compareRevIDs_proper hb hc] at h2
  rw [compareRevIDs_proper ha hc]
  by_cases e12 : g1 = g2
  · subst e12
    by_cases e23 : g1 = g3
    · subst e23
      simp only [gt_iff_lt, lt_irrefl, if_false] at h1 h2 ⊢
      exact lexSign_le_trans h1 h2
    · split_ifs at h2 ⊢ <;> omega
  · split_ifs at h1 h2 ⊢ <;> omega

theorem compareNodes_neg (a b : RevNode) : compareNodes a b = - compareNodes b a := by
  rw [compareNodes_eq a b, compareNodes_eq b a, compareRevIDs_neg b.revID a.revID]
  by_cases h1 : sortClass a < sortClass b
  · have h2 : ¬ sortClass b < sortClass a := by omega
    simp [h1, h2]
  · by_cases h2 : sortClass b < sortClass a <;> simp [h1, h2]

theorem compareNodes_proper_trans {a b c : RevNode}
    (ha : (ParseRevID a.revID).isSome) (hb : (ParseRevID b.revID).isSome)
    (hc : (ParseRevID c.revID).isSome)
    (h1 : compareNodes a b ≤ 0) (h2 : compareNodes b c ≤ 0) :
    compareNodes a c ≤ 0 := by
  rw [compareNodes_eq] at h1 h2 ⊢
  by_cases e12 : sortClass a = sortClass b
  · by_cases e23 : sortClass b = sortClass c
    · have e13 : sortClass a = sortClass c := e12.trans e23
      simp only [e12, e23, e13, lt_irrefl, if_false] at h1 h2 ⊢
      exact compareRevIDs_proper_trans hc hb ha h2 h1
    · split_ifs at h2 ⊢ <;> omega
  · split_ifs at h1 h2 ⊢ <;> omega

theorem AllProper.transOn {l : List RevNode} (h : AllProper l) : TransOn l :=
  fun a ha b hb c hc h1 h2 =>
    compareNodes_proper_trans (h a ha) (h b hb) (h c hc) h1 h2

/-! ## Parsing revision identifiers -/

theorem memchr_some {l : List Nat} {c p : Nat} (h : memchr l c = some p) :
    l = l.take p ++ c :: l.drop (p + 1) ∧ c ∉ l.take p ∧ p < l.length := by
  induction l generalizing p with
  | nil => simp [memchr] at h
  | cons x xs ih =>
    unfold memchr at h
    by_cases hx : x = c
    · simp only [hx, if_true, Option.some.injEq] at h
      subst h
      simp [hx]
    · simp only [hx, if_false, Option.map_eq_some'] at h
      obtain ⟨q, hq, rfl⟩ := h
      obtain ⟨h1, h2, h3⟩ := ih hq
      refine ⟨?_, ?_, ?_⟩
      · simp only [List.take_succ_cons, List.drop_succ_cons, List.cons_append]
        rw [← h1]
      · simp only [List.take_succ_cons, List.mem_cons, not_or]
        exact ⟨fun h => hx h.symm, h2⟩
      · simp only [List.length_cons]
        omega

theorem memchr_append {G d : List Nat} {c : Nat} (h : c ∉ G) :
    memchr (G ++ c :: d) c = some G.length := by
  induction G with
  | nil => simp [memchr]
  | cons x xs ih =>
    simp only [List.mem_cons, not_or] at h
    have hx : ¬ x = c := fun e => h.1 e.symm
    simp [memchr, hx, ih h.2]

theorem decimalValue_cons (c : Nat) (G : List Nat) :
    decimalValue (c :: G) = (c - 48) * 10 ^ G.length + decimalValue G := by
  unfold decimalValue
  simp only [List.map_cons, List.reverse_cons, Nat.ofDigits_append, List.length_reverse,
    List.length_map, Nat.ofDigits_singleton]
  ring

theorem decimalValue_lt (G : List Nat) (h : ∀ c ∈ G, isdigit c = true) :
    decimalValue G < 10 ^ G.length := by
  unfold decimalValue
  have := @Nat.ofDigits_lt_base_pow_length 10 ((G.map (· - 48)).reverse) (by norm_num) (by
    intro x hx
    simp only [List.mem_reverse, List.mem_map] at hx
    obtain ⟨c, hc, rfl⟩ := hx
    have := h c hc
    simp only [isdigit, Bool.and_eq_true, decide_eq_true_eq] at this
    omega)
  simpa using this

theorem parseDigitsLoop_digits (G : List Nat) (acc : Nat)
    (h : ∀ c ∈ G, isdigit c = true)
    (hb : acc * 10 ^ G.length + decimalValue G < 2 ^ 32) :
    parseDigitsLoop G acc = acc * 10 ^ G.length + decimalValue G := by
  induction G generalizing acc with
  | nil => simp [parseDigitsLoop, decimalValue]
  | cons c G ih =>
    have hc : isdigit c = true := h c (List.mem_cons_self _ _)
    have hG : ∀ x ∈ G, isdigit x = true := fun x hx => h x (List.mem_cons_of_mem _ hx)
    rw [decimalValue_cons] at hb ⊢
    simp only [List.length_cons, pow_succ] at hb ⊢
    have hpos : 0 < 10 ^ G.length := Nat.pow_pos (by norm_num)
    have hb2 : (10 * acc + (c - 48)) * 10 ^ G.length + decimalValue G < 2 ^ 32 := by
      calc (10 * acc + (c - 48)) * 10 ^ G.length + decimalValue G
          = acc * (10 ^ G.length * 10) + ((c - 48) * 10 ^ G.length + decimalValue G) := by ring
        _ < 2 ^ 32 := hb
    have hsmall : 10 * acc + (c - 48) < 2 ^ 32 := by
      have : 10 * acc + (c - 48) ≤ (10 * acc + (c - 48)) * 10 ^ G.length :=
        Nat.le_mul_of_pos_right _ hpos
      omega
    unfold parseDigitsLoop
    simp only [hc, Bool.not_true, Bool.false_eq_true, if_false]
    rw [Nat.mod_eq_of_lt hsmall, ih _ hG hb2]
    ring

theorem parseDigitsLoop_nondigit (G : List Nat) (acc : Nat)
    (h : ¬ ∀ c ∈ G, isdigit c = true) : parseDigitsLoop G acc = 0 := by
  induction G generalizing acc with
  | nil => simp at h
  | cons c G ih =>
    unfold parseDigitsLoop
    by_cases hc : isdigit c = true
    · simp only [hc, Bool.not_true, Bool.false_eq_true, if_false]
      apply ih
      intro hall
      apply h
      intro x hx
      rcases List.mem_cons.1 hx with rfl | hx
      · exact hc
      · exact hall x hx
    · simp [hc]

theorem parseDigits_short (G : List Nat) (hlen : G.length ≤ 8)
    (h : ∀ c ∈ G, isdigit c = true) : parseDigits G = decimalValue G := by
  have hlt := decimalValue_lt G h
  have hpow : 10 ^ G.length ≤ 10 ^ 8 := Nat.pow_le_pow_right (by norm_num) hlen
  unfold parseDigits
  rw [parseDigitsLoop_digits G 0 h (by norm_num at hpow ⊢; omega)]
  simp

/-- C9. `ParseRevID r` succeeds with generation `g` and digest `d` exactly when
`r` is `G ++ "-" ++ d` where `G` consists of 1 to 8 ASCII decimal digits whose
numeric value is `g`, `g` lies in 1..99999999, and `d` (everything after the
first dash) is not empty. In particular it succeeds if and only if `r` has
that form, and then returns the value of `G` and the suffix. -/
theorem ParseRevID_iff (r : sized_buf) (g : Nat) (d : sized_buf) :
    ParseRevID r = some (g, d) ↔
      ∃ G : List Nat, r = G ++ 45 :: d ∧ 1 ≤ G.length ∧ G.length ≤ 8 ∧
        (∀ c ∈ G, 48 ≤ c ∧ c ≤ 57) ∧ decimalValue G = g ∧
        1 ≤ g ∧ g ≤ 99999999 ∧ d ≠ [] := by
  constructor
  · intro h
    unfold ParseRevID at h
    cases hm : memchr r 45 with
    | none => simp [hm] at h
    | some p =>
      simp only [hm] at h
      obtain ⟨hsplit, hnot, hlt⟩ := memchr_some hm
      by_cases hp0 : p = 0
      · simp [hp0] at h
      by_cases hp8 : p > 8 ∨ p ≥ r.length - 1
      · rw [if_neg hp0, if_pos hp8] at h
        exact absurd h (by simp)
      simp only [hp0, hp8, if_false] at h
      by_cases hz : parseDigits (List.take p r) = 0
      · simp [hz] at h
      simp only [hz, if_false, Option.some.injEq, Prod.mk.injEq] at h
      obtain ⟨hg, hd⟩ := h
      have hlenG : (List.take p r).length = p := by
        rw [List.length_take]; omega
      have hdig : ∀ c ∈ List.take p r, isdigit c = true := by
        by_contra hcon
        exact hz (parseDigitsLoop_nondigit _ 0 hcon)
      have hval := parseDigits_short (List.take p r) (by omega) hdig
      have hlt10 := decimalValue_lt (List.take p r) hdig
      have hpow : 10 ^ (List.take p r).length ≤ 10 ^ 8 :=
        Nat.pow_le_pow_right (by norm_num) (by omega)
      refine ⟨List.take p r, ?_, by omega, by omega, ?_, ?_, ?_, ?_, ?_⟩
      · rw [← hd]; exact hsplit
      · intro c hc
        have := hdig c hc
        simpa [isdigit] using this
      · rw [← hval]; exact hg
      · rw [← hg]; omega
      · rw [← hg, hval]
        have h108 : (10 : Nat) ^ 8 = 100000000 := by norm_num
        rw [h108] at hpow
        omega
      · rw [← hd]
        intro hnil
        have := congrArg List.length hnil
        simp only [List.length_drop, List.length_nil] at this
        omega
  · rintro ⟨G, rfl, h1, h8, hdig, hval, hg1, -, hd⟩
    have hdig2 : ∀ c ∈ G, isdigit c = true := by
      intro c hc
      have := hdig c hc
      simp [isdigit, this.1, this.2]
    have hnot : (45 : Nat) ∉ G := by
      intro h45
      have := hdig 45 h45
      omega
    have hdlen : 0 < d.length := List.length_pos.2 hd
    unfold ParseRevID
    rw [memchr_append hnot]
    have hp0 : ¬ G.length = 0 := by omega
    have hp8 : ¬ (G.length > 8 ∨ G.length ≥ (G ++ 45 :: d).length - 1) := by
      simp only [List.length_append, List.length_cons]
      omega
    simp only [hp0, hp8, if_false, List.take_left, List.drop_left]
    rw [parseDigits_short G h8 hdig2, hval]
    have hg0 : ¬ g = 0 := by omega
    simp [hg0]

theorem lexSign_sign (a b : List Nat) : Int.sign (lexSign a b) = lexSign a b := by
  unfold lexSign
  split_ifs <;> rfl

/-- C10. The sign of `compareRevIDs a b`: when both identifiers are proper it
is the numeric comparison of the generations, a tie being broken by the
byte-lexicographic comparison of the digests; when either is not proper it is
the byte-lexicographic comparison of the whole strings. Hence
"10-aaa" > "2-zzz" > "2-aaa" and "foo" > "bar". -/
theorem compareRevIDs_sign (a b : sized_buf) :
    (∀ g1 d1 g2 d2, ParseRevID a = some (g1, d1) → ParseRevID b = some (g2, d2) →
      Int.sign (compareRevIDs a b) =
        if g1 < g2 then -1 else if g2 < g1 then 1 else lexSign d1 d2) ∧
    ((ParseRevID a = none ∨ ParseRevID b = none) →
      Int.sign (compareRevIDs a b) = lexSign a b) ∧
    0 < compareRevIDs [49, 48, 45, 97, 97, 97] [50, 45, 122, 122, 122] ∧
    0 < compareRevIDs [50, 45, 122, 122, 122] [50, 45, 97, 97, 97] ∧
    0 < compareRevIDs [102, 111, 111] [98, 97, 114] := by
  refine ⟨?_, ?_, by decide, by decide, by decide⟩
  · intro g1 d1 g2 d2 ha hb
    rw [compareRevIDs_proper ha hb]
    by_cases h1 : g1 < g2
    · have h2 : ¬ g1 > g2 := by omega
      simp [h1, h2]
    · by_cases h2 : g2 < g1
      · simp [h1, h2]
      · simp [h1, h2, lexSign_sign]
  · intro h
    rw [compareRevIDs_improper h, lexSign_sign]

/-! ## Insertion -/

theorem clearLeaf_revID (n : RevNode) : (clearLeaf n).revID = n.revID := by
  unfold clearLeaf; split_ifs <;> rfl

theorem clearLeaf_data (n : RevNode) : (clearLeaf n).data = n.data := by
  unfold clearLeaf; split_ifs <;> rfl

theorem clearLeaf_parentIndex (n : RevNode) : (clearLeaf n).parentIndex = n.parentIndex := by
  unfold clearLeaf; split_ifs <;> rfl

theorem clearLeaf_testBit (n : RevNode) (k : Nat) (hk : k < 8) :
    (clearLeaf n).flags.testBit k = (decide (k ≠ 1) && n.flags.testBit k) := by
  unfold clearLeaf nodeIsLeaf kRevNodeIsLeaf
  split_ifs with h
  · simp only [Nat.testBit_land]
    interval_cases k <;> simp <;> intro _ <;> decide
  · have h0 : n.flags &&& 2 = 0 := by simpa using h
    have h1 : n.flags.testBit 1 = false := by
      have t21 : Nat.testBit 2 1 = true := by decide
      have := congrArg (fun x => Nat.testBit x 1) h0
      simpa [Nat.testBit_land, t21] using this
    by_cases hk1 : k = 1
    · subst hk1; simp [h1]
    · simp [hk1]

theorem clearLeaf_not_leaf (n : RevNode) : nodeIsLeaf (clearLeaf n) = false := by
  unfold clearLeaf
  split_ifs with h
  · have e : ((0xFF : Nat) ^^^ 2) &&& 2 = 0 := by decide
    simp only [nodeIsLeaf, kRevNodeIsLeaf, Nat.land_assoc, e]
    simp
  · simpa using h

theorem clearLeaf_deleted (n : RevNode) : nodeIsDeleted (clearLeaf n) = nodeIsDeleted n := by
  unfold clearLeaf
  split_ifs with h
  · have e : ((0xFF : Nat) ^^^ 2) &&& 1 = 1 := by decide
    simp only [nodeIsDeleted, kRevNodeIsDeleted, kRevNodeIsLeaf, Nat.land_assoc, e]
  · rfl

theorem newFlags_leaf (deleted : Bool) :
    ((if deleted then kRevNodeIsLeaf ||| kRevNodeIsDeleted else kRevNodeIsLeaf) &&&
      kRevNodeIsLeaf != 0) = true := by
  cases deleted <;> decide

theorem newFlags_deleted (deleted : Bool) :
    ((if deleted then kRevNodeIsLeaf ||| kRevNodeIsDeleted else kRevNodeIsLeaf) &&&
      kRevNodeIsDeleted != 0) = deleted := by
  cases deleted <;> decide

theorem RevTreeInsert_some (tree : RevTree) (revID data : sized_buf) (p : Nat)
    (deleted : Bool) (hcap : tree.count < tree.capacity) (hp : p < tree.count) :
    RevTreeInsert tree revID data (some p) deleted =
      some { tree with
        node := tree.node.modify clearLeaf p ++
          [{ revID := revID, data := data, parentIndex := p % 2 ^ 16,
             flags := if deleted then kRevNodeIsLeaf ||| kRevNodeIsDeleted
                      else kRevNodeIsLeaf }]
        sorted := if tree.count + 1 > 1 then false else tree.sorted } := by
  have hcap2 : ¬ ¬ tree.count < tree.capacity := by omega
  have hp2 : ¬ ¬ p < tree.count + 1 - 1 := by omega
  simp only [RevTreeInsert, hcap2, hp2, if_false]

theorem RevTreeInsert_none (tree : RevTree) (revID data : sized_buf)
    (deleted : Bool) (hcap : tree.count < tree.capacity) :
    RevTreeInsert tree revID data none deleted =
      some { tree with
        node := tree.node ++
          [{ revID := revID, data := data, parentIndex := kRevNodeParentIndexNone,
             flags := if deleted then kRevNodeIsLeaf ||| kRevNodeIsDeleted
                      else kRevNodeIsLeaf }]
        sorted := if tree.count + 1 > 1 then false else tree.sorted } := by
  have hcap2 : ¬ ¬ tree.count < tree.capacity := by omega
  simp only [RevTreeInsert, hcap2, if_false]

theorem insertRoots_eq (ids : List sized_buf) (tree : RevTree)
    (hcap : tree.count + ids.length ≤ tree.capacity) :
    insertRoots ids tree =
      some { tree with
        node := tree.node ++ ids.map rootLeaf
        sorted := if ids ≠ [] ∧ tree.count + ids.length > 1 then false else tree.sorted } := by
  induction ids generalizing tree with
  | nil =>
    obtain ⟨c, b, n⟩ := tree
    simp [insertRoots]
  | cons id rest ih =>
    simp only [List.length_cons] at hcap
    have hlt : tree.count < tree.capacity := by omega
    rw [insertRoots, RevTreeInsert_none tree id [] false hlt, Option.some_bind, ih]
    · simp only [RevTree.count, List.length_append, List.length_cons, List.length_nil,
        List.map_cons, List.append_assoc, List.singleton_append, Bool.false_eq_true, if_false,
        Option.some.injEq, RevTree.mk.injEq, true_and, rootLeaf]
      by_cases hr : rest = []
      · subst hr
        simp
      · have hpos : 0 < rest.length := List.length_pos.2 hr
        have h1 : tree.node.length + (0 + 1) + rest.length > 1 := by omega
        have h2 : tree.node.length + (rest.length + 1) > 1 := by omega
        simp [hr, h1, h2]
    · simp only [RevTree.count, List.length_append, List.length_cons, List.length_nil] at hcap ⊢
      omega

theorem rootsTree_built (n : Nat) (hn : 2 ≤ n) :
    insertRoots ((List.range n).map bigRevID) (RevTreeNew (n + 1)) = some (rootsTree n) := by
  rw [insertRoots_eq _ _ (by
    simp only [RevTreeNew, RevTree.count, List.length_nil, List.length_map, List.length_range]
    omega)]
  have hne : (List.range n).map bigRevID ≠ [] := by
    intro h
    have := congrArg List.length h
    simp only [List.length_map, List.length_range, List.length_nil] at this
    omega
  have hgt : (RevTreeNew (n + 1)).count + ((List.range n).map bigRevID).length > 1 := by
    simp only [RevTreeNew, RevTree.count, List.length_nil, List.length_map, List.length_range]
    omega
  rw [if_pos ⟨hne, hgt⟩]
  simp only [RevTreeNew, List.nil_append, List.map_map, rootsTree]
  rfl

theorem rootsTree_count (n : Nat) : (rootsTree n).count = n := by
  simp only [rootsTree, RevTree.count, List.length_map, List.length_range]

/-- C8, the claim as stated fails: `bigTree` holds 65537 revs in an array of
capacity 65538 (it is what `RevTreeNew(65538)` and 65537 insertions of roots
build); an insertion under its rev at index 65536 succeeds and stores
`parentIndex` 0, not 65536: the index is truncated to the 16 bits of the
field. -/
theorem RevTreeInsert_parentIndex_truncated :
    insertRoots ((List.range 65537).map bigRevID) (RevTreeNew 65538) = some bigTree ∧
    (RevTreeInsert bigTree [50, 45, 98] [] (some 65536) false).map
      (fun t => t.node.getLast?.map (fun n => n.parentIndex)) = some (some 0) := by
  refine ⟨rootsTree_built 65537 (by omega), ?_⟩
  have hcap : bigTree.count < bigTree.capacity := by
    show (rootsTree 65537).count < 65537 + 1
    rw [rootsTree_count]
    omega
  have hp : 65536 < bigTree.count := by
    show 65536 < (rootsTree 65537).count
    rw [rootsTree_count]
    omega
  rw [RevTreeInsert_some bigTree _ _ 65536 false hcap hp]
  simp only [Option.map_some', List.getLast?_append, List.getLast?_singleton]
  rfl

/-- C8 (amended). For every tree with `count < capacity` and a parent, when
one is given, at an index of the tree below 65535, `RevTreeInsert` succeeds,
increases `count` by exactly one and stores at the last index a rev with the
given revID and data, flags `leaf` plus `deleted` iff deleted was requested,
and `parentIndex` equal to the parent's index (the sentinel for none when no
parent is given, which no parent index equals); the parent's leaf bit is
cleared and its revID, data, `parentIndex` and other flag bits are unchanged;
every other existing rev is unchanged. -/
theorem RevTreeInsert_spec (tree : RevTree) (revID data : sized_buf)
    (parentNode : Option Nat) (deleted : Bool)
    (hcap : tree.count < tree.capacity)
    (hpar : ∀ p, parentNode = some p → p < tree.count ∧ p < 65535) :
    ∃ t' newNode, RevTreeInsert tree revID data parentNode deleted = some t' ∧
      t'.count = tree.count + 1 ∧ t'.capacity = tree.capacity ∧
      t'.node[tree.count]? = some newNode ∧
      newNode.revID = revID ∧ newNode.data = data ∧
      newNode.flags =
        (if deleted then kRevNodeIsLeaf ||| kRevNodeIsDeleted else kRevNodeIsLeaf) ∧
      nodeIsLeaf newNode = true ∧ nodeIsDeleted newNode = deleted ∧
      (parentNode = none → newNode.parentIndex = kRevNodeParentIndexNone) ∧
      (∀ p, parentNode = some p →
        newNode.parentIndex = p ∧ p ≠ kRevNodeParentIndexNone) ∧
      (∀ i, i < tree.count → parentNode ≠ some i → t'.node[i]? = tree.node[i]?) ∧
      (∀ p, parentNode = some p → ∃ old new,
        tree.node[p]? = some old ∧ t'.node[p]? = some new ∧
        new.revID = old.revID ∧ new.data = old.data ∧
        new.parentIndex = old.parentIndex ∧ nodeIsLeaf new = false ∧
        ∀ k, k < 8 → new.flags.testBit k = (decide (k ≠ 1) && old.flags.testBit k)) := by
  cases parentNode with
  | none =>
    refine ⟨_, RevNode.mk revID data kRevNodeParentIndexNone
        (if deleted then kRevNodeIsLeaf ||| kRevNodeIsDeleted else kRevNodeIsLeaf),
      RevTreeInsert_none tree revID data deleted hcap, ?_, rfl, ?_, rfl, rfl, rfl,
      newFlags_leaf deleted, newFlags_deleted deleted, fun _ => rfl, ?_, ?_, ?_⟩
    · simp [RevTree.count]
    · simp [RevTree.count]
    · intro p hp; cases hp
    · intro i hi _
      simp only [RevTree.count] at hi
      simp [List.getElem?_append_left hi]
    · intro p hp; cases hp
  | some p =>
    obtain ⟨hp, hp16⟩ := hpar p rfl
    have hmod : p % 2 ^ 16 = p := Nat.mod_eq_of_lt (by omega)
    have hlenm : (List.modify clearLeaf p tree.node).length = tree.node.length :=
      List.length_modify _ _ _
    refine ⟨_, RevNode.mk revID data (p % 2 ^ 16)
        (if deleted then kRevNodeIsLeaf ||| kRevNodeIsDeleted else kRevNodeIsLeaf),
      RevTreeInsert_some tree revID data p deleted hcap hp, ?_, rfl, ?_, rfl, rfl,
      rfl, newFlags_leaf deleted, newFlags_deleted deleted, ?_, ?_, ?_, ?_⟩
    · simp [RevTree.count]
    · simp only [RevTree.count]
      rw [List.getElem?_append_right (by omega), hlenm]
      simp
    · intro h; cases h
    · intro q hq
      cases hq
      exact ⟨hmod, by simp only [kRevNodeParentIndexNone]; omega⟩
    · intro i hi hne
      simp only [RevTree.count] at hi
      have hne2 : ¬ p = i := fun e => hne (by rw [e])
      rw [List.getElem?_append_left (by omega), List.getElem?_modify]
      simp [hne2]
    · intro q hq
      cases hq
      simp only [RevTree.count] at hp
      refine ⟨tree.node[p], clearLeaf tree.node[p], by simp [hp], ?_, clearLeaf_revID _,
        clearLeaf_data _, clearLeaf_parentIndex _, clearLeaf_not_leaf _,
        fun k hk => clearLeaf_testBit _ k hk⟩
      rw [List.getElem?_append_left (by omega), List.getElem?_modify]
      simp [hp]

/-- Witness for C8: inserting "2-b" under "1-a" (index 0) in a tree of capacity 4. -/
theorem RevTreeInsert_spec_witness :
    ∃ t', RevTreeInsert
        { capacity := 4, sorted := true,
          node := [{ revID := [49, 45, 97], data := [], parentIndex := 65535, flags := 2 }] }
        [50, 45, 98] [] (some 0) false = some t' ∧
      t'.count = 2 ∧
      t'.node[1]? = some { revID := [50, 45, 98], data := [], parentIndex := 0, flags := 2 } := by
  obtain ⟨t', n, h1, h2, -, h4, h5, h6, h7, -, -, -, h11, -⟩ :=
    RevTreeInsert_spec
      { capacity := 4, sorted := true,
        node := [{ revID := [49, 45, 97], data := [], parentIndex := 65535, flags := 2 }] }
      [50, 45, 98] [] (some 0) false (by decide)
      (by intro p hp; cases hp; exact ⟨by decide, by decide⟩)
  refine ⟨t', h1, h2, ?_⟩
  have hn : n = { revID := [50, 45, 98], data := [], parentIndex := 0, flags := 2 } := by
    cases n
    simp only [RevNode.mk.injEq]
    exact ⟨h5, h6, (h11 0 rfl).1, h7⟩
  rw [← hn]
  exact h4

/-! ## The current revision -/

theorem compareNodes_self (a : RevNode) : compareNodes a a = 0 := by
  have := compareNodes_neg a a
  omega

theorem compareNodes_le_of_not_lt {a b : RevNode} (h : ¬ compareNodes a b < 0) :
    compareNodes b a ≤ 0 := by
  have := compareNodes_neg a b
  omega

theorem compareNodes_not_lt_of_le {a b : RevNode} (h : compareNodes a b ≤ 0) :
    ¬ compareNodes b a < 0 := by
  have := compareNodes_neg a b
  omega

theorem currentNodeLoop_mem (rest : List RevNode) (maxNode : RevNode) :
    currentNodeLoop rest maxNode ∈ maxNode :: rest := by
  induction rest generalizing maxNode with
  | nil => simp [currentNodeLoop]
  | cons node rest ih =>
    unfold currentNodeLoop
    have := ih (if compareNodes node maxNode < 0 then node else maxNode)
    rcases List.mem_cons.1 this with h | h
    · rw [h]
      split_ifs <;> simp
    · exact List.mem_cons_of_mem _ (List.mem_cons_of_mem _ h)

theorem currentNodeLoop_le (L rest : List RevNode) (maxNode : RevNode)
    (htrans : TransOn L) (hm : maxNode ∈ L) (hr : ∀ n ∈ rest, n ∈ L) :
    compareNodes (currentNodeLoop rest maxNode) maxNode ≤ 0 ∧
      ∀ n ∈ rest, compareNodes (currentNodeLoop rest maxNode) n ≤ 0 := by
  induction rest generalizing maxNode with
  | nil =>
    refine ⟨?_, by simp⟩
    simp only [currentNodeLoop]
    exact le_of_eq (compareNodes_self maxNode)
  | cons node rest ih =>
    have hnode : node ∈ L := hr node (List.mem_cons_self _ _)
    have hrest : ∀ n ∈ rest, n ∈ L := fun n hn => hr n (List.mem_cons_of_mem _ hn)
    unfold currentNodeLoop
    by_cases hlt : compareNodes node maxNode < 0
    · simp only [hlt, if_true]
      obtain ⟨h1, h2⟩ := ih node hnode hrest
      have hres : currentNodeLoop rest node ∈ L := by
        rcases List.mem_cons.1 (currentNodeLoop_mem rest node) with h | h
        · rw [h]; exact hnode
        · exact hrest _ h
      refine ⟨htrans _ hres _ hnode _ hm h1 (le_of_lt hlt), ?_⟩
      intro n hn
      rcases List.mem_cons.1 hn with rfl | hn
      · exact h1
      · exact h2 n hn
    · simp only [hlt, if_false]
      obtain ⟨h1, h2⟩ := ih maxNode hm hrest
      have hres : currentNodeLoop rest maxNode ∈ L := by
        rcases List.mem_cons.1 (currentNodeLoop_mem rest maxNode) with h | h
        · rw [h]; exact hm
        · exact hrest _ h
      refine ⟨h1, ?_⟩
      intro n hn
      rcases List.mem_cons.1 hn with rfl | hn
      · exact htrans _ hres _ hm _ hnode h1 (compareNodes_le_of_not_lt hlt)
      · exact h2 n hn

theorem RevTreeGetCurrentNode_empty (tree : RevTree) (h : tree.node = []) :
    RevTreeGetCurrentNode tree = none := by
  unfold RevTreeGetCurrentNode RevTreeGetNode RevTree.count
  rw [h]
  simp

/-- On a non-empty tree with a transitive comparator and an array in order
whenever the flag says so, the current rev precedes or ties with every rev. -/
theorem RevTreeGetCurrentNode_min (tree : RevTree) (hne : tree.node ≠ [])
    (htrans : TransOn tree.node) (hs : OrderedWhenSorted tree) :
    ∃ c, RevTreeGetCurrentNode tree = some c ∧ c ∈ tree.node ∧
      ∀ n ∈ tree.node, compareNodes c n ≤ 0 := by
  obtain ⟨cap, sorted, node⟩ := tree
  cases node with
  | nil => exact absurd rfl hne
  | cons node0 rest =>
    cases sorted with
    | true =>
      refine ⟨node0, by simp [RevTreeGetCurrentNode, RevTreeGetNode, RevTree.count], by simp, ?_⟩
      have hp : InOrder (node0 :: rest) := hs rfl
      intro n hn
      rcases List.mem_cons.1 hn with rfl | hn
      · exact le_of_eq (compareNodes_self _)
      · exact List.rel_of_pairwise_cons hp hn
    | false =>
      refine ⟨currentNodeLoop rest node0, by simp [RevTreeGetCurrentNode],
        currentNodeLoop_mem rest node0, ?_⟩
      obtain ⟨h1, h2⟩ := currentNodeLoop_le (node0 :: rest) rest node0 htrans
        (List.mem_cons_self _ _) (fun n hn => List.mem_cons_of_mem _ hn)
      intro n hn
      rcases List.mem_cons.1 hn with rfl | hn
      · exact h1
      · exact h2 n hn

/-- C2, the claim as stated fails, on either path. Unsorted path: on the tree
built by inserting the roots "10-a", "1z", "2-a" (`cycTree`)
`RevTreeGetCurrentNode` returns "2-a", yet "10-a" sorts strictly before it:
`compareNodes("10-a", "2-a") < 0`. The improper ID "1z" lies between the two
as bytes, so `compareRevIDs` has a cycle and the linear scan goes from "10-a"
to "1z" to "2-a". Sorted path: `RevTreeDecode` sets the sorted flag whatever
the order of the records; for `unsortedBlob` the rev at index 0, "1-a", is
returned although the leaf "2-b" sorts strictly before it. -/
theorem RevTreeGetCurrentNode_not_first :
    (insertRoots [[49, 48, 45, 97], [49, 122], [50, 45, 97]] (RevTreeNew 3) = some cycTree ∧
      RevTreeGetCurrentNode cycTree = some (rootLeaf [50, 45, 97]) ∧
      rootLeaf [49, 48, 45, 97] ∈ cycTree.node ∧
      compareNodes (rootLeaf [49, 48, 45, 97]) (rootLeaf [50, 45, 97]) < 0) ∧
    (RevTreeDecode unsortedBlob 0 = .ok decodedUnsorted ∧
      (RevTreeGetCurrentNode decodedUnsorted).map (fun c => c.revID) = some [49, 45, 97] ∧
      ∃ n ∈ decodedUnsorted.node, ∃ c, RevTreeGetCurrentNode decodedUnsorted = some c ∧
        compareNodes n c < 0) := by
  refine ⟨⟨by decide, by decide, by decide, by decide⟩, by decide, by decide, ?_⟩
  exact ⟨{ revID := [50, 45, 98], data := [], parentIndex := 0, flags := 2 }, by decide,
    { revID := [49, 45, 97], data := [], parentIndex := 65535, flags := 0 }, by decide,
    by decide⟩

/-- C2 (amended). For every tree on whose revs `compareNodes` is transitive
(as it is when every revID is a proper revision ID, `AllProper.transOn`) and
whose array is in comparator order whenever its sorted flag is set: if the
tree is empty `RevTreeGetCurrentNode` returns no rev, and otherwise it returns
a rev `c` of the tree such that no rev `n` of the tree has
`compareNodes(n, c) < 0`. -/
theorem RevTreeGetCurrentNode_first (tree : RevTree)
    (htrans : TransOn tree.node) (hs : OrderedWhenSorted tree) :
    (tree.node = [] → RevTreeGetCurrentNode tree = none) ∧
    (tree.node ≠ [] → ∃ c, RevTreeGetCurrentNode tree = some c ∧ c ∈ tree.node ∧
      ∀ n ∈ tree.node, ¬ compareNodes n c < 0) := by
  refine ⟨RevTreeGetCurrentNode_empty tree, fun hne => ?_⟩
  obtain ⟨c, h1, h2, h3⟩ := RevTreeGetCurrentNode_min tree hne htrans hs
  exact ⟨c, h1, h2, fun n hn => compareNodes_not_lt_of_le (h3 n hn)⟩

/-- Witness for C2: the conflict scenario, whose current rev is "2-c". -/
theorem RevTreeGetCurrentNode_first_witness :
    ∃ c, RevTreeGetCurrentNode conflictTree = some c ∧ c ∈ conflictTree.node ∧
      ∀ n ∈ conflictTree.node, ¬ compareNodes n c < 0 :=
  (RevTreeGetCurrentNode_first conflictTree
    (AllProper.transOn (by unfold AllProper; decide))
    (by intro h; cases h)).2 (by decide)

theorem compareNodes_congr {a a' b b' : RevNode} (ha : revKey a = revKey a')
    (hb : revKey b = revKey b') : compareNodes a b = compareNodes a' b' := by
  simp only [revKey, Prod.mk.injEq] at ha hb
  simp only [compareNodes, nodeIsLeaf, nodeIsDeleted, ha.1, ha.2, hb.1, hb.2]

theorem sortClass_le_of_compareNodes_le {a b : RevNode} (h : compareNodes a b ≤ 0) :
    sortClass a ≤ sortClass b := by
  rw [compareNodes_eq] at h
  by_contra hc
  have h1 : ¬ sortClass a < sortClass b := by omega
  have h2 : sortClass b < sortClass a := by omega
  simp [h1, h2] at h

theorem sortClass_eq_zero_iff (n : RevNode) : sortClass n = 0 ↔ nodeIsActive n = true := by
  unfold sortClass nodeIsActive
  cases nodeIsLeaf n <;> cases nodeIsDeleted n <;> simp

theorem exists_key_of_perm {l1 l2 : List RevNode}
    (h : (l1.map revKey).Perm (l2.map revKey)) {n : RevNode} (hn : n ∈ l2) :
    ∃ m ∈ l1, revKey m = revKey n := by
  have : revKey n ∈ l1.map revKey := h.mem_iff.2 (List.mem_map_of_mem _ hn)
  obtain ⟨m, hm, he⟩ := List.mem_map.1 this
  exact ⟨m, hm, he⟩

theorem TransOn_of_keys {l1 l2 : List RevNode}
    (h : ∀ n ∈ l2, ∃ m ∈ l1, revKey m = revKey n) (ht : TransOn l1) : TransOn l2 := by
  intro a ha b hb c hc h1 h2
  obtain ⟨a', ha', ea⟩ := h a ha
  obtain ⟨b', hb', eb⟩ := h b hb
  obtain ⟨c', hc', ec⟩ := h c hc
  rw [← compareNodes_congr ea eb] at h1
  rw [← compareNodes_congr eb ec] at h2
  rw [← compareNodes_congr ea ec]
  exact ht a' ha' b' hb' c' hc' h1 h2

theorem TransOn_of_perm {l1 l2 : List RevNode}
    (h : (l1.map revKey).Perm (l2.map revKey)) (ht : TransOn l1) : TransOn l2 :=
  TransOn_of_keys (fun _ hn => exists_key_of_perm h hn) ht

/-- Two trees with the same revisions, a transitive comparator and no ties
between different revIDs have current revs with the same revID. -/
theorem current_revID_eq_of_same_revs (t1 t2 : RevTree)
    (hsame : (t1.node.map revKey).Perm (t2.node.map revKey))
    (htrans : TransOn t1.node)
    (hties : ∀ a ∈ t1.node, ∀ b ∈ t1.node, compareNodes a b = 0 → a.revID = b.revID)
    (hs1 : OrderedWhenSorted t1) (hs2 : OrderedWhenSorted t2) (hne1 : t1.node ≠ []) :
    ∃ c1 c2, RevTreeGetCurrentNode t1 = some c1 ∧ RevTreeGetCurrentNode t2 = some c2 ∧
      c1.revID = c2.revID ∧ c1 ∈ t1.node ∧ ∀ n ∈ t1.node, compareNodes c1 n ≤ 0 := by
  have hne2 : t2.node ≠ [] := by
    intro h
    rw [h] at hsame
    exact hne1 (List.map_eq_nil_iff.1 (List.Perm.eq_nil hsame))
  obtain ⟨c1, hc1, hm1, hmin1⟩ := RevTreeGetCurrentNode_min t1 hne1 htrans hs1
  obtain ⟨c2, hc2, hm2, hmin2⟩ :=
    RevTreeGetCurrentNode_min t2 hne2 (TransOn_of_perm hsame htrans) hs2
  obtain ⟨n1, hn1, e1⟩ := exists_key_of_perm hsame hm2
  obtain ⟨n2, hn2, e2⟩ := exists_key_of_perm hsame.symm hm1
  have hle1 : compareNodes c1 n1 ≤ 0 := hmin1 n1 hn1
  have hle2 : compareNodes n1 c1 ≤ 0 := by
    rw [compareNodes_congr e1 e2.symm]
    exact hmin2 n2 hn2
  have hzero : compareNodes c1 n1 = 0 := by
    have := compareNodes_neg c1 n1
    omega
  have hrev : c1.revID = c2.revID := by
    rw [hties c1 hm1 n1 hn1 hzero]
    exact congrArg Prod.fst e1
  exact ⟨c1, c2, hc1, hc2, hrev, hm1, hmin1⟩

/-- C3, the claim as stated fails, in two ways. The roots "01-a" and "1-a"
are both proper, both active leaves, and compare equal (generation 1, digest
"a"): the tree built by inserting "01-a" first has current rev "01-a", the
tree built by inserting "1-a" first has current rev "1-a". And the roots
"10-a", "1z", "2-a", on which the comparator has a cycle, give current rev
"2-a" in one insertion order and "1z" in another. -/
theorem current_depends_on_insertion_order :
    (insertRoots [[48, 49, 45, 97], [49, 45, 97]] (RevTreeNew 2) = some tieTree ∧
      insertRoots [[49, 45, 97], [48, 49, 45, 97]] (RevTreeNew 2) = some tieTree2 ∧
      (tieTree.node.map revKey).Perm (tieTree2.node.map revKey) ∧
      RevTreeHasConflict tieTree = true ∧ RevTreeHasConflict tieTree2 = true ∧
      (RevTreeGetCurrentNode tieTree).map (fun c => c.revID) = some [48, 49, 45, 97] ∧
      (RevTreeGetCurrentNode tieTree2).map (fun c => c.revID) = some [49, 45, 97]) ∧
    (insertRoots [[49, 48, 45, 97], [49, 122], [50, 45, 97]] (RevTreeNew 3) = some cycTree ∧
      insertRoots [[50, 45, 97], [49, 48, 45, 97], [49, 122]] (RevTreeNew 3) = some cycTree2 ∧
      (cycTree.node.map revKey).Perm (cycTree2.node.map revKey) ∧
      RevTreeHasConflict cycTree = true ∧ RevTreeHasConflict cycTree2 = true ∧
      (RevTreeGetCurrentNode cycTree).map (fun c => c.revID) = some [50, 45, 97] ∧
      (RevTreeGetCurrentNode cycTree2).map (fun c => c.revID) = some [49, 122]) := by
  refine ⟨⟨by decide, by decide, ?_, by decide, by decide, by decide, by decide⟩,
    ⟨by decide, by decide, ?_, by decide, by decide, by decide, by decide⟩⟩
  · exact List.Perm.swap _ _ _
  · exact (List.Perm.cons _ (List.Perm.swap _ _ _)).trans (List.Perm.swap _ _ _)

/-- C3 (amended). Take two trees that hold the same revisions (the same
revIDs with the same flags, whatever the order of insertion), with at least
two active revs, on which `compareNodes` is transitive (as it is when all
revIDs are proper) and in which two revs compare equal only if they have the
same revID, each array being in comparator order if its sorted flag is set.
Then `RevTreeGetCurrentNode` returns in both a rev with the same revID, and
that rev is an active leaf that sorts first: it precedes or ties with every
rev of the tree. -/
theorem current_independent_of_insertion_order (t1 t2 : RevTree)
    (hsame : (t1.node.map revKey).Perm (t2.node.map revKey))
    (htrans : TransOn t1.node)
    (hties : ∀ a ∈ t1.node, ∀ b ∈ t1.node, compareNodes a b = 0 → a.revID = b.revID)
    (hs1 : OrderedWhenSorted t1) (hs2 : OrderedWhenSorted t2)
    (hconf : 2 ≤ (t1.node.filter nodeIsActive).length) :
    ∃ c1 c2, RevTreeGetCurrentNode t1 = some c1 ∧ RevTreeGetCurrentNode t2 = some c2 ∧
      c1.revID = c2.revID ∧ nodeIsActive c1 = true ∧ c1 ∈ t1.node ∧
      ∀ n ∈ t1.node, compareNodes c1 n ≤ 0 := by
  have hne1 : t1.node ≠ [] := by
    intro h
    rw [h] at hconf
    simp at hconf
  obtain ⟨c1, c2, hc1, hc2, hrev, hm1, hmin1⟩ :=
    current_revID_eq_of_same_revs t1 t2 hsame htrans hties hs1 hs2 hne1
  have hact : nodeIsActive c1 = true := by
    obtain ⟨a, ha⟩ := List.exists_mem_of_length_pos
      (show 0 < (t1.node.filter nodeIsActive).length by omega)
    obtain ⟨ha1, ha2⟩ := List.mem_filter.1 ha
    have := sortClass_le_of_compareNodes_le (hmin1 a ha1)
    have h0 := (sortClass_eq_zero_iff a).2 ha2
    exact (sortClass_eq_zero_iff c1).1 (by omega)
  exact ⟨c1, c2, hc1, hc2, hrev, hact, hm1, hmin1⟩

/-- Witness for C3: the conflict scenario with "2-b" and "2-c" inserted in
either order; the current rev is "2-c" in both. -/
theorem current_independent_of_insertion_order_witness :
    ∃ c1 c2, RevTreeGetCurrentNode conflictTree = some c1 ∧
      RevTreeGetCurrentNode conflictTree2 = some c2 ∧
      c1.revID = c2.revID ∧ c1.revID = [50, 45, 99] ∧ nodeIsActive c1 = true := by
  obtain ⟨c1, c2, h1, h2, h3, h4, -, -⟩ :=
    current_independent_of_insertion_order conflictTree conflictTree2
      (List.Perm.cons _ (List.Perm.swap _ _ _))
      (AllProper.transOn (by unfold AllProper; decide))
      (by decide) (by intro h; cases h) (by intro h; cases h) (by decide)
  have hval : RevTreeGetCurrentNode conflictTree =
      some { revID := [50, 45, 99], data := [], parentIndex := 0, flags := 2 } := by decide
  rw [hval] at h1
  have hc1 := Option.some.inj h1
  exact ⟨c1, c2, by rw [hval, hc1], h2, h3, by rw [← hc1], h4⟩

/-! ## The reference sort meets the contract assumed of `qsort` -/

theorem insertSorted_perm {α : Type} (cmp : α → α → Int) (x : α) (l : List α) :
    (insertSorted cmp x l).Perm (x :: l) := by
  induction l with
  | nil => exact List.Perm.refl _
  | cons y ys ih =>
    unfold insertSorted
    split_ifs
    · exact List.Perm.refl _
    · exact (List.Perm.cons y ih).trans (List.Perm.swap x y ys)

theorem insertionQsort_perm {α : Type} (cmp : α → α → Int) (l : List α) :
    (insertionQsort cmp l).Perm l := by
  induction l with
  | nil => exact List.Perm.refl _
  | cons x xs ih =>
    unfold insertionQsort
    exact (insertSorted_perm cmp x _).trans (List.Perm.cons x ih)

theorem insertSorted_chain (L : List RevNode) (x : RevNode) (l : List RevNode)
    (hx : x ∈ L) (hl : ∀ y ∈ l, y ∈ L)
    (hp : l.Pairwise (Relation.ReflTransGen (Link L))) :
    (insertSorted compareNodes x l).Pairwise (Relation.ReflTransGen (Link L)) := by
  induction l with
  | nil => simp [insertSorted]
  | cons y ys ih =>
    have hy : y ∈ L := hl y (List.mem_cons_self _ _)
    have hys : ∀ z ∈ ys, z ∈ L := fun z hz => hl z (List.mem_cons_of_mem _ hz)
    obtain ⟨hyz, hpys⟩ := List.pairwise_cons.1 hp
    unfold insertSorted
    by_cases hlt : compareNodes x y < 0
    · simp only [hlt, if_true]
      have hxy : Relation.ReflTransGen (Link L) x y :=
        Relation.ReflTransGen.single ⟨hx, hy, le_of_lt hlt⟩
      refine List.pairwise_cons.2 ⟨?_, hp⟩
      intro z hz
      rcases List.mem_cons.1 hz with rfl | hz
      · exact hxy
      · exact hxy.trans (hyz z hz)
    · simp only [hlt, if_false]
      refine List.pairwise_cons.2 ⟨?_, ih hys hpys⟩
      intro z hz
      have hz2 : z ∈ x :: ys := (insertSorted_perm compareNodes x ys).mem_iff.1 hz
      rcases List.mem_cons.1 hz2 with rfl | hz2
      · exact Relation.ReflTransGen.single ⟨hy, hx, compareNodes_le_of_not_lt hlt⟩
      · exact hyz z hz2

theorem insertionQsort_chain (L l : List RevNode) (hl : ∀ y ∈ l, y ∈ L) :
    (insertionQsort compareNodes l).Pairwise (Relation.ReflTransGen (Link L)) := by
  induction l with
  | nil => simp [insertionQsort]
  | cons x xs ih =>
    unfold insertionQsort
    have hxs : ∀ y ∈ xs, y ∈ L := fun y hy => hl y (List.mem_cons_of_mem _ hy)
    refine insertSorted_chain L x _ (hl x (List.mem_cons_self _ _)) ?_ (ih hxs)
    intro y hy
    exact hxs y ((insertionQsort_perm compareNodes xs).mem_iff.1 hy)

/-- The reference sort meets the contract. -/
theorem insertionQsort_spec : QsortSpec insertionQsort := by
  intro l
  exact ⟨insertionQsort_perm compareNodes l, insertionQsort_chain l l (fun _ h => h)⟩

/-! ## Sorting: what the contract gives -/

theorem chain_le_of_transOn {L : List RevNode} (ht : TransOn L) {a b : RevNode}
    (ha : a ∈ L) (h : Relation.ReflTransGen (Link L) a b) :
    b ∈ L ∧ compareNodes a b ≤ 0 := by
  induction h with
  | refl => exact ⟨ha, le_of_eq (compareNodes_self a)⟩
  | tail _ hstep ih =>
    obtain ⟨h1, h2, h3⟩ := hstep
    exact ⟨h2, ht a ha _ h1 _ h2 ih.2 h3⟩

theorem chain_sortClass_le {L : List RevNode} {a b : RevNode}
    (h : Relation.ReflTransGen (Link L) a b) : sortClass a ≤ sortClass b := by
  induction h with
  | refl => exact le_refl _
  | tail _ hstep ih => exact le_trans ih (sortClass_le_of_compareNodes_le hstep.2.2)

theorem tagNodes_length (l : List RevNode) : (tagNodes l).length = l.length := by
  simp [tagNodes]

theorem tagNodes_getElem (l : List RevNode) (i : Nat) (h : i < l.length)
    (h2 : i < (tagNodes l).length) :
    (tagNodes l)[i] = { l[i] with parentIndex := i } := by
  simp [tagNodes]

theorem tagNodes_map_tag (l : List RevNode) :
    (tagNodes l).map (fun n => n.parentIndex) = List.range l.length := by
  apply List.ext_getElem
  · simp [tagNodes_length]
  · intro i h1 h2
    simp [tagNodes]

theorem mem_tagNodes {l : List RevNode} {x : RevNode} (hx : x ∈ tagNodes l) :
    ∃ k, ∃ h : k < l.length, x = { l[k] with parentIndex := k } := by
  obtain ⟨i, hi, rfl⟩ := List.getElem_of_mem hx
  rw [tagNodes_length] at hi
  exact ⟨i, hi, tagNodes_getElem l i hi _⟩

theorem fillOldToNew_spec (s : List RevNode) (i0 : Nat) (arr : List Nat)
    (hnodup : (s.map (fun n => n.parentIndex)).Nodup)
    (hlt : ∀ x ∈ s, x.parentIndex < arr.length) :
    (∀ j, ∀ hj : j < s.length, (fillOldToNew s i0 arr).getD (s[j].parentIndex) 0 = i0 + j) ∧
    (∀ k, k ∉ s.map (fun n => n.parentIndex) →
      (fillOldToNew s i0 arr).getD k 0 = arr.getD k 0) := by
  induction s generalizing i0 arr with
  | nil => simp [fillOldToNew]
  | cons x xs ih =>
    simp only [List.map_cons, List.nodup_cons] at hnodup
    have hx : x.parentIndex < arr.length := hlt x (List.mem_cons_self _ _)
    have hlt2 : ∀ y ∈ xs, y.parentIndex < (arr.set x.parentIndex i0).length := by
      intro y hy
      rw [List.length_set]
      exact hlt y (List.mem_cons_of_mem _ hy)
    obtain ⟨ih1, ih2⟩ := ih (i0 + 1) (arr.set x.parentIndex i0) hnodup.2 hlt2
    unfold fillOldToNew
    refine ⟨?_, ?_⟩
    · intro j hj
      cases j with
      | zero =>
        simp only [List.getElem_cons_zero, Nat.add_zero]
        rw [ih2 _ hnodup.1]
        simp [List.getD_eq_getElem?_getD, hx]
      | succ j =>
        simp only [List.getElem_cons_succ]
        rw [ih1 j (by simpa using hj)]
        omega
    · intro k hk
      simp only [List.map_cons, List.mem_cons, not_or] at hk
      rw [ih2 k hk.2]
      have hne : ¬ x.parentIndex = k := fun e => hk.1 e.symm
      simp [List.getD_eq_getElem?_getD, List.getElem?_set, hne]

/-- Where qsort puts the rev of old index `k`: at the index that `oldToNew[k]`
records, still tagged with `k`. -/
theorem sort_index (nodes s : List RevNode) (hperm : s.Perm (tagNodes nodes))
    (k : Nat) (hk : k < nodes.length) :
    ∃ j, j < nodes.length ∧ s[j]? = some { nodes[k] with parentIndex := k } ∧
      (fillOldToNew s 0 (List.replicate nodes.length 0)).getD k 0 = j := by
  have hlen : s.length = nodes.length := by rw [hperm.length_eq, tagNodes_length]
  have hmem : ({ nodes[k] with parentIndex := k } : RevNode) ∈ s := by
    rw [hperm.mem_iff, ← tagNodes_getElem nodes k hk (by rw [tagNodes_length]; exact hk)]
    exact List.getElem_mem _
  obtain ⟨j, hj, hsj⟩ := List.getElem_of_mem hmem
  have hnodup : (s.map (fun n => n.parentIndex)).Nodup := by
    have hp : (s.map (fun n => n.parentIndex)).Perm (List.range nodes.length) := by
      rw [← tagNodes_map_tag]
      exact hperm.map _
    exact hp.nodup_iff.2 (List.nodup_range _)
  have hlt : ∀ x ∈ s, x.parentIndex < (List.replicate nodes.length 0).length := by
    intro x hx
    obtain ⟨i, hi, rfl⟩ := mem_tagNodes (hperm.mem_iff.1 hx)
    simpa using hi
  have h1 := (fillOldToNew_spec s 0 (List.replicate nodes.length 0) hnodup hlt).1 j hj
  rw [hsj] at h1
  refine ⟨j, by omega, ?_, ?_⟩
  · rw [List.getElem?_eq_getElem hj, hsj]
  · simpa using h1

theorem RevTreeSort_sorted (qsort : (RevNode → RevNode → Int) → List RevNode → List RevNode)
    (tree : RevTree) (h : tree.sorted = true) : RevTreeSort qsort tree = some tree := by
  simp [RevTreeSort, h]

theorem RevTreeSort_unsorted (qsort : (RevNode → RevNode → Int) → List RevNode → List RevNode)
    (tree : RevTree) (h : tree.sorted = false) (hc : tree.count ≤ 65535) :
    RevTreeSort qsort tree =
      some { tree with
        node := fixParents (tree.node.map (fun node => node.parentIndex))
          (fillOldToNew (qsort compareNodes (tagNodes tree.node)) 0
            (List.replicate tree.count 0))
          (qsort compareNodes (tagNodes tree.node))
        sorted := true } := by
  have hc2 : ¬ tree.count > 65535 := by omega
  simp [RevTreeSort, h, hc2]

theorem RevTreeSort_diverges (qsort : (RevNode → RevNode → Int) → List RevNode → List RevNode)
    (tree : RevTree) (h : tree.sorted = false) (hc : 65535 < tree.count) :
    RevTreeSort qsort tree = none := by
  simp [RevTreeSort, h, hc]

theorem fixParents_getElem? (oldParents oldToNew : List Nat) (s : List RevNode) (j : Nat)
    (x : RevNode) (h : s[j]? = some x) :
    (fixParents oldParents oldToNew s)[j]? =
      some { x with parentIndex :=
        if oldParents.getD x.parentIndex 0 ≠ kRevNodeParentIndexNone then
          oldToNew.getD (oldParents.getD x.parentIndex 0) 0
        else oldParents.getD x.parentIndex 0 } := by
  simp [fixParents, List.getElem?_map, h]

theorem rootsTree_validParents (n : Nat) : ValidParents (rootsTree n) := by
  intro x hx
  simp only [rootsTree, List.mem_map] at hx
  obtain ⟨i, -, rfl⟩ := hx
  exact Or.inl rfl

/-- C5 (as stated, refuted). `bigTree`, built by 65537 insertions of roots
into `RevTreeNew(65538)`, has valid parent indices (every rev is a root), and
`RevTreeSort` does not return on it, whatever `qsort` does: the loops with a
`uint16_t` counter (lines 478 and 486) never reach a count above 65535. -/
theorem RevTreeSort_valid_parents_no_return :
    insertRoots ((List.range 65537).map bigRevID) (RevTreeNew 65538) = some bigTree ∧
    ValidParents bigTree ∧ bigTree.count = 65537 ∧
    ∀ qsort : (RevNode → RevNode → Int) → List RevNode → List RevNode,
      RevTreeSort qsort bigTree = none := by
  have hcount : bigTree.count = 65537 := rootsTree_count 65537
  refine ⟨rootsTree_built 65537 (by omega), ?_, hcount, ?_⟩
  · exact rootsTree_validParents 65537
  · intro qsort
    exact RevTreeSort_diverges qsort bigTree rfl (by rw [hcount]; omega)

/-- C5 (amended). For every tree whose parent indices are valid (none, or an
index of the tree) and that holds at most 65535 revs, `RevTreeSort` returns
and preserves the parent relation: the rev of old index `k` is found at a new
index `newIndex k` (a one-to-one renumbering) with the same revID, flags and
body, its `parentIndex` is none iff it was none before, and otherwise it is
the new index of the very rev that was its parent. On a larger tree the
parent relation is preserved whenever the call returns, which it does only
when the sorted flag is already set. The only assumption on the C library's
`qsort` is `QsortSpec`. -/
theorem RevTreeSort_preserves_parents
    (qsort : (RevNode → RevNode → Int) → List RevNode → List RevNode)
    (hq : QsortSpec qsort) (tree : RevTree) (hvalid : ValidParents tree) :
    (tree.count ≤ 65535 → ∃ t', RevTreeSort qsort tree = some t') ∧
    (∀ t', RevTreeSort qsort tree = some t' → ParentsPreserved tree t') := by
  constructor
  · intro hc
    cases hs : tree.sorted with
    | true => exact ⟨_, RevTreeSort_sorted qsort tree hs⟩
    | false => exact ⟨_, RevTreeSort_unsorted qsort tree hs hc⟩
  · intro t' ht'
    cases hs : tree.sorted with
    | true =>
      rw [RevTreeSort_sorted qsort tree hs] at ht'
      cases ht'
      refine ⟨id, fun k hk => hk, fun k1 k2 _ _ h => h, ?_⟩
      intro k hk
      simp only [RevTree.count] at hk
      exact ⟨tree.node[k], tree.node[k], by simp [hk], by simp [hk], rfl, fun h => h,
        fun h => ⟨rfl, h⟩⟩
    | false =>
      by_cases hc : tree.count ≤ 65535
      · rw [RevTreeSort_unsorted qsort tree hs hc] at ht'
        cases ht'
        have hperm := (hq (tagNodes tree.node)).1
        refine ⟨fun k => (fillOldToNew (qsort compareNodes (tagNodes tree.node)) 0
          (List.replicate tree.count 0)).getD k 0, ?_, ?_, ?_⟩
        · intro k hk
          obtain ⟨j, hj, -, hjk⟩ := sort_index tree.node _ hperm k hk
          simp only [RevTree.count]
          omega
        · intro k1 k2 hk1 hk2 heq
          obtain ⟨j1, -, hs1, hjk1⟩ := sort_index tree.node _ hperm k1 hk1
          obtain ⟨j2, -, hs2, hjk2⟩ := sort_index tree.node _ hperm k2 hk2
          simp only [RevTree.count] at heq
          have hj : j1 = j2 := by omega
          subst hj
          rw [hs1] at hs2
          have := congrArg RevNode.parentIndex (Option.some.inj hs2)
          simpa using this
        · intro k hk
          obtain ⟨j, hj, hsj, hjk⟩ := sort_index tree.node _ hperm k hk
          have hk2 : k < tree.node.length := hk
          have hold : (List.map (fun node => node.parentIndex) tree.node).getD k 0 =
              tree.node[k].parentIndex := by
            simp [List.getD_eq_getElem?_getD, hk2]
          have hnew := fixParents_getElem? (List.map (fun node => node.parentIndex) tree.node)
            (fillOldToNew (qsort compareNodes (tagNodes tree.node)) 0
              (List.replicate tree.count 0)) _ j _ hsj
          rw [← hjk] at hnew
          refine ⟨tree.node[k], _, by simp [hk2], hnew, rfl, ?_, ?_⟩
          · intro hnone
            simp only [hold, hnone, ne_eq, not_true_eq_false, if_false]
          · intro hsome
            simp only [hold, ne_eq, hsome, not_false_eq_true, if_true]
            refine ⟨trivial, ?_⟩
            have hp : tree.node[k].parentIndex < tree.count := by
              rcases hvalid _ (List.getElem_mem hk2) with h | h
              · exact absurd h hsome
              · exact h
            obtain ⟨j', hj', -, hjk'⟩ := sort_index tree.node _ hperm _ hp
            simp only [RevTree.count] at hjk' hc hj' ⊢
            rw [hjk']
            simp only [kRevNodeParentIndexNone]
            omega
      · rw [RevTreeSort_diverges qsort tree hs (by omega)] at ht'
        cases ht'

/-- Witness for C5: the linear scenario. Sorting "1-a", "2-b" gives index 0 =
"2-b" with parent index 1 and index 1 = "1-a" without parent. -/
theorem RevTreeSort_preserves_parents_witness :
    RevTreeSort insertionQsort linearTree = some linearTreeSorted ∧
      ParentsPreserved linearTree linearTreeSorted :=
  ⟨by decide,
    (RevTreeSort_preserves_parents insertionQsort insertionQsort_spec linearTree
      (by unfold ValidParents; decide)).2 linearTreeSorted (by decide)⟩

theorem tagNodes_map_revContent (l : List RevNode) :
    (tagNodes l).map revContent = l.map revContent := by
  apply List.ext_getElem
  · simp [tagNodes_length]
  · intro i h1 h2
    simp [tagNodes, revContent]

theorem fixParents_map_revContent (oldParents oldToNew : List Nat) (s : List RevNode) :
    (fixParents oldParents oldToNew s).map revContent = s.map revContent := by
  simp [fixParents, revContent, Function.comp_def]

theorem TransOn_tagNodes {l : List RevNode} (ht : TransOn l) : TransOn (tagNodes l) := by
  refine TransOn_of_keys ?_ ht
  intro n hn
  obtain ⟨k, hk, rfl⟩ := mem_tagNodes hn
  exact ⟨l[k], List.getElem_mem hk, rfl⟩

theorem not_before {l : List RevNode} (hin : InOrder l) {i j : Nat}
    (hi : i < l.length) (hj : j < l.length) (hgt : 0 < compareNodes l[i] l[j]) :
    j < i := by
  by_contra hcon
  rcases Nat.lt_or_eq_of_le (Nat.le_of_not_lt hcon) with h | h
  · have := List.pairwise_iff_getElem.1 hin i j hi hj h
    omega
  · subst h
    have := compareNodes_self l[i]
    omega

theorem hasConflictLoop_eq (l : List RevNode) (k : Nat) (hk : k ≤ 1) :
    hasConflictLoop l k = decide (2 ≤ k + (l.filter nodeIsActive).length) := by
  induction l generalizing k with
  | nil =>
    have : ¬ 2 ≤ k := by omega
    simp [hasConflictLoop, this]
  | cons x xs ih =>
    unfold hasConflictLoop
    by_cases hx : nodeIsActive x = true
    · simp only [hx, if_true, List.filter_cons_of_pos, List.length_cons]
      by_cases hk1 : k + 1 > 1
      · have : 2 ≤ k + ((List.filter nodeIsActive xs).length + 1) := by omega
        simp [hk1, this]
      · simp only [hk1, if_false]
        rw [ih (k + 1) (by omega)]
        congr 1
        apply propext
        constructor <;> intro h <;> omega
    · simp only [hx, Bool.false_eq_true, if_false]
      rw [ih k hk]
      simp [hx]

theorem RevTreeInsert_classOrdered {t t' : RevTree} {revID data : sized_buf}
    {parentNode : Option Nat} {deleted : Bool}
    (h : RevTreeInsert t revID data parentNode deleted = some t')
    (hs : t'.sorted = true) : ClassOrdered t'.node := by
  unfold RevTreeInsert at h
  by_cases hcap : t.count < t.capacity
  · simp only [hcap, not_true_eq_false, if_false] at h
    cases parentNode with
    | none =>
      simp only [Option.some.injEq] at h
      subst h
      simp only at hs
      by_cases hcnt : t.count + 1 > 1
      · simp [hcnt] at hs
      · have h0 : t.node = [] := List.length_eq_zero.1 (by
          simp only [RevTree.count] at hcnt; omega)
        simp [ClassOrdered, h0]
    | some p =>
      simp only at h
      by_cases hp : p < t.count + 1 - 1
      · rw [if_neg (not_not.2 hp)] at h
        simp only [Option.some.injEq] at h
        subst h
        simp only at hs
        by_cases hcnt : t.count + 1 > 1
        · simp [hcnt] at hs
        · have h0 : t.node = [] := List.length_eq_zero.1 (by
            simp only [RevTree.count] at hcnt; omega)
          simp [ClassOrdered, h0]
      · rw [if_pos hp] at h
        cases h
  · simp [hcap] at h

theorem fixParents_classOrdered (oldParents oldToNew : List Nat) (s : List RevNode)
    (h : ClassOrdered s) : ClassOrdered (fixParents oldParents oldToNew s) := by
  unfold ClassOrdered fixParents
  rw [List.pairwise_map]
  exact List.Pairwise.imp (fun {a b} hab => hab) h

theorem RevTreeSort_classOrdered
    (qsort : (RevNode → RevNode → Int) → List RevNode → List RevNode)
    (hq : QsortSpec qsort) {t t' : RevTree} (h : RevTreeSort qsort t = some t')
    (hinv : t.sorted = true → ClassOrdered t.node) : ClassOrdered t'.node := by
  cases hsrt : t.sorted with
  | true =>
    rw [RevTreeSort_sorted qsort t hsrt] at h
    cases h
    exact hinv hsrt
  | false =>
    by_cases hc : t.count ≤ 65535
    · rw [RevTreeSort_unsorted qsort t hsrt hc] at h
      cases h
      refine fixParents_classOrdered _ _ _ ?_
      exact List.Pairwise.imp (fun {a b} hab => chain_sortClass_le hab)
        (hq (tagNodes t.node)).2
    · rw [RevTreeSort_diverges qsort t hsrt (by omega)] at h
      cases h

/-- Every tree built by insertions and sorts has its revs grouped by class
whenever its sorted flag is set. -/
theorem Built.classOrdered
    {qsort : (RevNode → RevNode → Int) → List RevNode → List RevNode}
    (hq : QsortSpec qsort) {t : RevTree} (hb : Built qsort t) :
    t.sorted = true → ClassOrdered t.node := by
  induction hb with
  | new capacity => intro _; simp [ClassOrdered, RevTreeNew]
  | insert revID data parentNode deleted _ h _ => exact RevTreeInsert_classOrdered h
  | sort _ h ih => intro _; exact RevTreeSort_classOrdered qsort hq h ih

theorem active_second_iff (n0 n1 : RevNode) (rest : List RevNode)
    (h : ClassOrdered (n0 :: n1 :: rest)) :
    nodeIsActive n1 = true ↔ 2 ≤ ((n0 :: n1 :: rest).filter nodeIsActive).length := by
  obtain ⟨h0, h1⟩ := List.pairwise_cons.1 h
  obtain ⟨h1r, -⟩ := List.pairwise_cons.1 h1
  constructor
  · intro ha
    have hc1 := (sortClass_eq_zero_iff n1).2 ha
    have hc0 := h0 n1 (List.mem_cons_self _ _)
    have ha0 : nodeIsActive n0 = true := (sortClass_eq_zero_iff n0).1 (by omega)
    simp [List.filter_cons, ha, ha0]
  · intro hlen
    by_contra hna
    have hpos : 0 < sortClass n1 := by
      rcases Nat.eq_zero_or_pos (sortClass n1) with hz | hz
      · exact absurd ((sortClass_eq_zero_iff n1).1 hz) hna
      · exact hz
    have hrest : rest.filter nodeIsActive = [] := by
      rw [List.filter_eq_nil_iff]
      intro x hx hax
      have := h1r x hx
      have := (sortClass_eq_zero_iff x).2 hax
      omega
    have hn1 : nodeIsActive n1 = false := by simpa using hna
    cases ha0 : nodeIsActive n0 <;> simp [List.filter_cons, ha0, hn1, hrest] at hlen

/-- C4. For every tree built from an empty tree by any sequence of
`RevTreeInsert` and `RevTreeSort` calls, `RevTreeHasConflict` returns true if
and only if the tree contains at least two active revs (leaf flag set, deleted
flag clear), and the counting loop run on the same array gives the same
answer as `RevTreeHasConflict`, whichever path the latter takes. The only
assumption on the C library's `qsort` is `QsortSpec`. -/
theorem RevTreeHasConflict_iff
    (qsort : (RevNode → RevNode → Int) → List RevNode → List RevNode)
    (hq : QsortSpec qsort) (t : RevTree) (hb : Built qsort t) :
    (RevTreeHasConflict t = true ↔ 2 ≤ (t.node.filter nodeIsActive).length) ∧
    hasConflictLoop t.node 0 = RevTreeHasConflict t := by
  have hloop := hasConflictLoop_eq t.node 0 (by omega)
  simp only [Nat.zero_add] at hloop
  have hmain : RevTreeHasConflict t = true ↔ 2 ≤ (t.node.filter nodeIsActive).length := by
    unfold RevTreeHasConflict
    by_cases hc : t.count < 2
    · have hle : (t.node.filter nodeIsActive).length ≤ t.node.length :=
        List.length_filter_le _ _
      simp only [RevTree.count] at hc
      simp only [RevTree.count, hc, if_true, Bool.false_eq_true, false_iff]
      omega
    · simp only [hc, if_false]
      cases hsrt : t.sorted with
      | true =>
        simp only [if_true]
        have hco := hb.classOrdered hq hsrt
        match hn : t.node with
        | [] => simp [RevTree.count, hn] at hc
        | [_] => simp [RevTree.count, hn] at hc
        | n0 :: n1 :: rest =>
          rw [hn] at hco
          exact active_second_iff n0 n1 rest hco
      | false =>
        simp only [Bool.false_eq_true, if_false]
        rw [hloop]
        simp
  refine ⟨hmain, ?_⟩
  rw [hloop]
  cases hv : RevTreeHasConflict t with
  | true => simpa using hmain.1 hv
  | false =>
    have : ¬ 2 ≤ (t.node.filter nodeIsActive).length := fun h => by
      rw [hmain.2 h] at hv
      cases hv
    simpa using this

/-- Witness for C4: the conflict scenario ("1-a", then "2-b" and "2-c" under
it), sorted with the reference sort; it has two active revs. -/
theorem RevTreeHasConflict_iff_witness :
    (RevTreeHasConflict conflictTreeSorted = true ↔
      2 ≤ (conflictTreeSorted.node.filter nodeIsActive).length) ∧
    hasConflictLoop conflictTreeSorted.node 0 = RevTreeHasConflict conflictTreeSorted :=
  RevTreeHasConflict_iff insertionQsort insertionQsort_spec conflictTreeSorted
    (Built.sort (t := conflictTree)
      (Built.insert (t := linearTree3) [50, 45, 99] [] (some 0) false
        (Built.insert (t := rootTree3) [50, 45, 98] [] (some 0) false
          (Built.insert [49, 45, 97] [] none false (Built.new 3) (by decide))
          (by decide))
        (by decide))
      (by decide))

/-! ## The packed encoding: decoding what was encoded -/

theorem rawSize_htonl (s : Nat) (hs : s < 2 ^ 32) (tail : List Nat) :
    rawSize (htonl s ++ tail) = s := by
  simp only [rawSize, htonl, List.cons_append, List.getD_cons_zero, List.getD_cons_succ]
  norm_num at hs ⊢
  omega

theorem flag_bits (m : Nat) (hm : m ≤ 3) :
    (m ||| 128) &&& 128 = 128 ∧ (m ||| 128) &&& 3 = m ∧
      (m ||| 0) &&& 128 = 0 ∧ (m ||| 0) &&& 3 = m := by
  interval_cases m <;> decide

/-- The flags byte written by the encoder. -/
theorem encoded_flags (f : Nat) (p : Prop) [Decidable p] :
    (((f &&& kRevNodePublicFlags) ||| (if p then kRevNodeHasData else 0)) &&&
        kRevNodeHasData ≠ 0 ↔ p) ∧
    ((f &&& kRevNodePublicFlags) ||| (if p then kRevNodeHasData else 0)) &&&
        kRevNodePublicFlags = f &&& kRevNodePublicFlags := by
  have hm : f &&& kRevNodePublicFlags ≤ 3 := Nat.and_le_right
  obtain ⟨h1, h2, h3, h4⟩ := flag_bits (f &&& kRevNodePublicFlags) hm
  have e3 : kRevNodePublicFlags = 3 := by decide
  have e128 : kRevNodeHasData = 128 := rfl
  by_cases hp : p
  · simp only [hp, if_true, e128, h1, ne_eq, iff_true]
    rw [e3] at h2 ⊢
    exact ⟨by decide, h2⟩
  · simp only [hp, if_false, e128, h3, ne_eq, not_true_eq_false, iff_false,
      not_false_eq_true, true_and]
    rw [e3] at h4 ⊢
    exact h4

theorem encodeRawNode_eq (n : RevNode) :
    encodeRawNode n =
      htonl (sizeForRawNode n % 2 ^ 32) ++
        (n.parentIndex / 2 ^ 8 % 256 :: n.parentIndex % 256 ::
          ((n.flags &&& kRevNodePublicFlags) |||
            (if n.data.length > 0 then kRevNodeHasData else 0)) ::
          n.revID.length % 2 ^ 8 :: (n.revID ++ n.data)) := by
  unfold encodeRawNode htons
  by_cases hd : n.data.length > 0
  · have e := (encoded_flags n.flags (n.data.length > 0)).1.2 hd
    simp only [if_pos e]
    simp
  · have hnil : n.data = [] := List.length_eq_zero.1 (by omega)
    simp [hd, hnil]

theorem encodeRawNode_length (n : RevNode) :
    (encodeRawNode n).length = sizeForRawNode n := by
  rw [encodeRawNode_eq]
  simp only [htonl, sizeForRawNode, List.length_append, List.length_cons, List.length_nil]
  split_ifs <;> omega

/-- Decoding one encoded node followed by `rest`. -/
theorem decode_encodeRawNode (n : RevNode) (rest : List Nat) (h : FitsRaw n) :
    8 ≤ (encodeRawNode n ++ rest).length ∧
    validRawNode (encodeRawNode n ++ rest) = true ∧
    nextRawNode (encodeRawNode n ++ rest) = rest ∧
    nodeFromRawNode (encodeRawNode n ++ rest) = publicNode n := by
  obtain ⟨hrev, hsz, hpar⟩ := h
  have hlen := encodeRawNode_length n
  have hsize : rawSize (encodeRawNode n ++ rest) = sizeForRawNode n := by
    rw [encodeRawNode_eq, List.append_assoc, rawSize_htonl _ (Nat.mod_lt _ (by norm_num)),
      Nat.mod_eq_of_lt hsz]
  have hpos : 0 < sizeForRawNode n := by unfold sizeForRawNode; omega
  have h8 : 8 ≤ sizeForRawNode n := by unfold sizeForRawNode; omega
  refine ⟨by rw [List.length_append, hlen]; omega, ?_, ?_, ?_⟩
  · simp only [validRawNode, hsize, gt_iff_lt, hpos, decide_True]
  · unfold nextRawNode
    rw [hsize, ← hlen, List.drop_left]
  · have hl : n.revID.length % 256 = n.revID.length := Nat.mod_eq_of_lt (by omega)
    have hfl : rawFlags (encodeRawNode n ++ rest) =
        (n.flags &&& kRevNodePublicFlags) |||
          (if n.data.length > 0 then kRevNodeHasData else 0) := by
      rw [encodeRawNode_eq]; simp [rawFlags, htonl]
    have hrl : rawRevIDLen (encodeRawNode n ++ rest) = n.revID.length := by
      rw [encodeRawNode_eq]; simp [rawRevIDLen, htonl, hl]
    have hpi : rawParentIndex (encodeRawNode n ++ rest) = n.parentIndex := by
      rw [encodeRawNode_eq]
      simp only [rawParentIndex, htonl, List.cons_append, List.getD_cons_zero,
        List.getD_cons_succ]
      norm_num at hpar ⊢
      omega
    have hd8 : (encodeRawNode n ++ rest).drop 8 = n.revID ++ n.data ++ rest := by
      rw [encodeRawNode_eq]; simp [htonl]
    have hdd : (encodeRawNode n ++ rest).drop (8 + n.revID.length) = n.data ++ rest := by
      rw [← List.drop_drop, hd8, List.append_assoc, List.drop_left]
    obtain ⟨hf1, hf2⟩ := encoded_flags n.flags (n.data.length > 0)
    have hrevID : List.take n.revID.length (n.revID ++ n.data ++ rest) = n.revID := by
      rw [List.append_assoc, List.take_left]
    have hdata : (if ((n.flags &&& kRevNodePublicFlags) |||
          (if n.data.length > 0 then kRevNodeHasData else 0)) &&&
            kRevNodeHasData ≠ 0 then
          List.take ((sizeForRawNode n + 2 ^ 64 - (8 + n.revID.length)) % 2 ^ 64)
            (n.data ++ rest)
        else []) = n.data := by
      by_cases hd : n.data.length > 0
      · rw [if_pos (hf1.2 hd)]
        have hcalc : (sizeForRawNode n + 2 ^ 64 - (8 + n.revID.length)) % 2 ^ 64 =
            n.data.length := by
          unfold sizeForRawNode at hsz ⊢
          simp only [hd, if_true] at hsz ⊢
          norm_num at hsz ⊢
          omega
        rw [hcalc, List.take_left]
      · rw [if_neg (fun hne => hd (hf1.1 hne))]
        exact (List.length_eq_zero.1 (by omega)).symm
    unfold nodeFromRawNode publicNode
    simp only [hfl, hrl, hpi, hsize, hd8, hdd]
    rw [hdata, hrevID, hf2]

theorem decode_encoded_list (ns : List RevNode) (hfit : ∀ n ∈ ns, FitsRaw n)
    (fuel : Nat) (hfuel : ns.length < fuel) :
    countRawNodes fuel ((ns.map encodeRawNode).flatten ++ htonl 0) = .ok ns.length ∧
    decodeRawNodes fuel ((ns.map encodeRawNode).flatten ++ htonl 0) =
      .ok (ns.map publicNode, htonl 0) := by
  induction ns generalizing fuel with
  | nil =>
    cases fuel with
    | zero => omega
    | succ f => exact ⟨by simp [countRawNodes, htonl, validRawNode, rawSize],
        by simp [decodeRawNodes, htonl, validRawNode, rawSize]⟩
  | cons n ns ih =>
    cases fuel with
    | zero => omega
    | succ f =>
      have hn : FitsRaw n := hfit n (List.mem_cons_self _ _)
      have hns : ∀ m ∈ ns, FitsRaw m := fun m hm => hfit m (List.mem_cons_of_mem _ hm)
      obtain ⟨ih1, ih2⟩ := ih hns f (by simpa using hfuel)
      obtain ⟨h8, hv, hnext, hnode⟩ :=
        decode_encodeRawNode n ((ns.map encodeRawNode).flatten ++ htonl 0) hn
      have hblob : ((n :: ns).map encodeRawNode).flatten ++ htonl 0 =
          encodeRawNode n ++ ((ns.map encodeRawNode).flatten ++ htonl 0) := by
        simp
      rw [hblob]
      have h4 : ¬ (encodeRawNode n ++ ((ns.map encodeRawNode).flatten ++ htonl 0)).length < 4 := by
        omega
      have h8' : ¬ (encodeRawNode n ++ ((ns.map encodeRawNode).flatten ++ htonl 0)).length < 8 := by
        omega
      constructor
      · rw [countRawNodes]
        simp only [h4, if_false, hv, not_true_eq_false, hnext, ih1, List.length_cons]
      · rw [decodeRawNodes]
        simp only [h4, h8', if_false, hv, not_true_eq_false, hnext, ih2, hnode, List.map_cons]

theorem length_le_encoded (ns : List RevNode) :
    ns.length ≤ ((ns.map encodeRawNode).flatten ++ htonl 0).length := by
  induction ns with
  | nil => simp
  | cons n ns ih =>
    have := encodeRawNode_length n
    have h8 : 8 ≤ sizeForRawNode n := by unfold sizeForRawNode; omega
    simp only [List.map_cons, List.flatten_cons, List.length_append, List.length_cons] at ih ⊢
    omega

/-- Decoding the blob written for a list of nodes that fit the format. -/
theorem RevTreeDecode_encoded (ns : List RevNode) (hfit : ∀ n ∈ ns, FitsRaw n)
    (hc : ns.length ≤ 65535) :
    RevTreeDecode ((ns.map encodeRawNode).flatten ++ htonl 0) 0 =
      .ok { capacity := ns.length, sorted := true, node := ns.map publicNode } := by
  obtain ⟨h1, h2⟩ := decode_encoded_list ns hfit
    (((ns.map encodeRawNode).flatten ++ htonl 0).length + 1)
    (Nat.lt_succ_of_le (length_le_encoded ns))
  unfold RevTreeDecode
  rw [h1]
  have hcap : (ns.length + 0) % 2 ^ 32 = ns.length := by
    rw [Nat.add_zero, Nat.mod_eq_of_lt]
    have : (65535 : Nat) < 2 ^ 32 := by norm_num
    omega
  simp only [hcap]
  rw [if_neg (by omega), h2]
  simp [htonl]

theorem fillOldToNew_bound (s : List RevNode) (i0 : Nat) (arr : List Nat) :
    ∀ v ∈ fillOldToNew s i0 arr, v ∈ arr ∨ v < i0 + s.length := by
  induction s generalizing i0 arr with
  | nil => intro v hv; exact Or.inl hv
  | cons x xs ih =>
    intro v hv
    unfold fillOldToNew at hv
    rcases ih (i0 + 1) _ v hv with h | h
    · rcases List.mem_or_eq_of_mem_set h with h | h
      · exact Or.inl h
      · right; simp only [List.length_cons]; omega
    · right; simp only [List.length_cons]; omega

theorem fixParents_parentIndex_lt (oldParents : List Nat) (s : List RevNode) (n : Nat)
    (hs : s.length ≤ 65535) :
    ∀ x ∈ fixParents oldParents (fillOldToNew s 0 (List.replicate n 0)) s,
      x.parentIndex < 2 ^ 16 := by
  intro x hx
  unfold fixParents at hx
  obtain ⟨y, -, rfl⟩ := List.mem_map.1 hx
  simp only
  split_ifs with hne
  · rw [List.getD_eq_getElem?_getD]
    cases hget : (fillOldToNew s 0 (List.replicate n 0))[List.getD oldParents y.parentIndex 0]? with
    | none => simp
    | some v =>
      simp only [Option.getD_some]
      rcases fillOldToNew_bound s 0 (List.replicate n 0) v (List.getElem?_mem hget) with h | h
      · rw [List.eq_of_mem_replicate h]; norm_num
      · have : (65535 : Nat) < 2 ^ 16 := by norm_num
        omega
  · have h : List.getD oldParents y.parentIndex 0 = kRevNodeParentIndexNone := by
      by_contra hc; exact hne hc
    rw [h]
    decide

/-- What `RevTreeSort` returns for a tree of at most 65535 revs, under the
contract of `qsort`: the same revs up to order, and 16-bit parent indices. -/
theorem RevTreeSort_content
    (qsort : (RevNode → RevNode → Int) → List RevNode → List RevNode)
    (hq : QsortSpec qsort) (tree : RevTree) (hc : tree.count ≤ 65535)
    (hpar : ∀ n ∈ tree.node, n.parentIndex < 2 ^ 16) :
    ∃ t', RevTreeSort qsort tree = some t' ∧
      (t'.node.map revContent).Perm (tree.node.map revContent) ∧
      ∀ n ∈ t'.node, n.parentIndex < 2 ^ 16 := by
  cases hsrt : tree.sorted with
  | true => exact ⟨tree, RevTreeSort_sorted qsort tree hsrt, List.Perm.refl _, hpar⟩
  | false =>
    have hperm := (hq (tagNodes tree.node)).1
    refine ⟨_, RevTreeSort_unsorted qsort tree hsrt hc, ?_, ?_⟩
    · simp only
      rw [fixParents_map_revContent, ← tagNodes_map_revContent tree.node]
      exact hperm.map _
    · simp only
      refine fixParents_parentIndex_lt _ _ _ ?_
      rw [hperm.length_eq, tagNodes_length]
      exact hc

theorem publicNode_leaf (n : RevNode) : nodeIsLeaf (publicNode n) = nodeIsLeaf n := by
  have e : kRevNodePublicFlags &&& kRevNodeIsLeaf = kRevNodeIsLeaf := by decide
  simp only [nodeIsLeaf, publicNode, Nat.land_assoc, e]

theorem publicNode_deleted (n : RevNode) : nodeIsDeleted (publicNode n) = nodeIsDeleted n := by
  have e : kRevNodePublicFlags &&& kRevNodeIsDeleted = kRevNodeIsDeleted := by decide
  simp only [nodeIsDeleted, publicNode, Nat.land_assoc, e]

set_option maxRecDepth 100000 in
/-- C1, the claim as stated fails: `longIdTree` is valid (one rev, no parent,
unique revID) but its revID is 256 bytes long, and the encoder stores the
length in the one-byte field `revIDLen` (line 158), which gives 0. Decoding
the blob succeeds and yields a rev with an empty revID. -/
theorem decode_encode_long_revID :
    (RevTreeEncode insertionQsort longIdTree).map (fun p => RevTreeDecode p.2 0) =
      some (.ok { capacity := 1, sorted := true,
                  node := [{ revID := [], data := [], parentIndex := 65535, flags := 2 }] }) := by
  decide

/-- C1 (amended). For every valid tree `T` (at most 65535 revs, every
`parentIndex` none or a valid index) in which every revID is at most 255
bytes long and every record size `8 + |revID| + |body|` is below `2^32`:
`RevTreeEncode` returns the tree sorted as `RevTreeSort` sorts it and a blob,
`RevTreeDecode` of that blob with no extra capacity succeeds and yields a tree
with the same count as `T` whose rev at each index equals the rev at that
index of the sorted tree in revID, `parentIndex`, leaf and deleted flags and
body bytes (its flags are the public flags of the sorted rev); the blob ends
with four zero bytes. The only assumption on `qsort` is `QsortSpec`. -/
theorem decode_encode_eq_sort
    (qsort : (RevNode → RevNode → Int) → List RevNode → List RevNode)
    (hq : QsortSpec qsort) (T : RevTree) (hc : T.count ≤ 65535)
    (hvalid : ValidParents T) (hrev : ∀ n ∈ T.node, n.revID.length ≤ 255)
    (hsz : ∀ n ∈ T.node, sizeForRawNode n < 2 ^ 32) :
    ∃ S blob T', RevTreeSort qsort T = some S ∧ RevTreeEncode qsort T = some (S, blob) ∧
      RevTreeDecode blob 0 = .ok T' ∧ T'.count = T.count ∧
      T'.node = S.node.map publicNode ∧
      (∀ i, i < T.count → ∃ s d, S.node[i]? = some s ∧ T'.node[i]? = some d ∧
        d.revID = s.revID ∧ d.parentIndex = s.parentIndex ∧
        nodeIsLeaf d = nodeIsLeaf s ∧ nodeIsDeleted d = nodeIsDeleted s ∧
        d.data = s.data) ∧
      ∃ pre, blob = pre ++ [0, 0, 0, 0] := by
  have hpar : ∀ n ∈ T.node, n.parentIndex < 2 ^ 16 := by
    intro n hn
    have h16 : (65535 : Nat) < 2 ^ 16 := by norm_num
    rcases hvalid n hn with h | h
    · rw [h]; decide
    · omega
  obtain ⟨S, hS, hperm, hSpar⟩ := RevTreeSort_content qsort hq T hc hpar
  have hlen : S.node.length = T.node.length := by
    simpa using hperm.length_eq
  have hfit : ∀ n ∈ S.node, FitsRaw n := by
    intro n hn
    have : revContent n ∈ T.node.map revContent :=
      hperm.mem_iff.1 (List.mem_map_of_mem _ hn)
    obtain ⟨m, hm, he⟩ := List.mem_map.1 this
    simp only [revContent, Prod.mk.injEq] at he
    refine ⟨?_, ?_, hSpar n hn⟩
    · rw [← he.1]; exact hrev m hm
    · have := hsz m hm
      unfold sizeForRawNode at this ⊢
      rw [← he.1, ← he.2.2]
      exact this
  have hdec := RevTreeDecode_encoded S.node hfit (by rw [hlen]; exact hc)
  refine ⟨S, _, _, hS, by simp [RevTreeEncode, hS], hdec, ?_, rfl, ?_, ?_⟩
  · simp [RevTree.count, hlen]
  · intro i hi
    have hi2 : i < S.node.length := by rw [hlen]; exact hi
    refine ⟨S.node[i], publicNode S.node[i], by simp [hi2], by simp [hi2], rfl, rfl,
      publicNode_leaf _, publicNode_deleted _, rfl⟩
  · exact ⟨(S.node.map encodeRawNode).flatten, by simp [htonl]⟩

/-- Witness for C1: the scenario of the encoding test, two leaves (one of
them deleted) under one interior rev. -/
theorem decode_encode_eq_sort_witness :
    ∃ S blob T', RevTreeSort insertionQsort encodingTree = some S ∧
      RevTreeEncode insertionQsort encodingTree = some (S, blob) ∧
      RevTreeDecode blob 0 = .ok T' ∧ T'.count = encodingTree.count ∧
      T'.node = S.node.map publicNode ∧
      (∀ i, i < encodingTree.count → ∃ s d, S.node[i]? = some s ∧ T'.node[i]? = some d ∧
        d.revID = s.revID ∧ d.parentIndex = s.parentIndex ∧
        nodeIsLeaf d = nodeIsLeaf s ∧ nodeIsDeleted d = nodeIsDeleted s ∧
        d.data = s.data) ∧
      ∃ pre, blob = pre ++ [0, 0, 0, 0] :=
  decode_encode_eq_sort insertionQsort insertionQsort_spec encodingTree (by decide)
    (by unfold ValidParents; decide) (by decide) (by decide)

/-! ## The fuel of the decoder suffices -/

theorem nextRawNode_length_lt (rawNode : List Nat) (h4 : ¬ rawNode.length < 4)
    (hv : validRawNode rawNode = true) :
    (nextRawNode rawNode).length < rawNode.length := by
  simp only [validRawNode, gt_iff_lt, decide_eq_true_eq] at hv
  simp only [nextRawNode, List.length_drop]
  omega

/-- With more fuel than bytes the walks over a packed tree never run out of fuel. -/
theorem countRawNodes_fuel (fuel : Nat) (rawNode : List Nat) (h : rawNode.length < fuel) :
    countRawNodes fuel rawNode ≠ .outOfFuel ∧ decodeRawNodes fuel rawNode ≠ .outOfFuel := by
  induction fuel generalizing rawNode with
  | zero => omega
  | succ f ih =>
    by_cases h4 : rawNode.length < 4
    · simp [countRawNodes, decodeRawNodes, h4]
    · by_cases hv : validRawNode rawNode = true
      · have hlt := nextRawNode_length_lt rawNode h4 hv
        obtain ⟨ih1, ih2⟩ := ih (nextRawNode rawNode) (by omega)
        constructor
        · rw [countRawNodes]
          simp only [h4, if_false, hv, not_true_eq_false]
          cases hc : countRawNodes f (nextRawNode rawNode) with
          | ok c => simp
          | null => simp
          | outOfBounds => simp
          | outOfFuel => exact absurd hc ih1
        · rw [decodeRawNodes]
          simp only [h4, if_false, hv, not_true_eq_false]
          by_cases h8 : rawNode.length < 8
          · simp [h8]
          · simp only [h8, if_false]
            cases hc : decodeRawNodes f (nextRawNode rawNode) with
            | ok c => simp
            | null => simp
            | outOfBounds => simp
            | outOfFuel => exact absurd hc ih2
      · simp [countRawNodes, decodeRawNodes, h4, hv]

/-- The call `RevTreeDecode` always ends: it returns a tree, returns NULL, or
reads outside the buffer. -/
theorem RevTreeDecode_total (raw_tree : sized_buf) (extraCapacity : Nat) :
    RevTreeDecode raw_tree extraCapacity ≠ .outOfFuel := by
  obtain ⟨h1, h2⟩ := countRawNodes_fuel (raw_tree.length + 1) raw_tree (Nat.lt_succ_self _)
  unfold RevTreeDecode
  cases hc : countRawNodes (raw_tree.length + 1) raw_tree with
  | ok c =>
    simp only
    split_ifs
    · simp
    · cases hd : decodeRawNodes (raw_tree.length + 1) raw_tree with
      | ok p =>
        obtain ⟨nodes, last⟩ := p
        simp only
        split_ifs <;> simp
      | null => simp
      | outOfBounds => simp
      | outOfFuel => exact absurd hd h2
  | null => simp
  | outOfBounds => simp
  | outOfFuel => exact absurd hc h1

/-! ## Revision identifiers: ordering laws and parsing of written identifiers -/

theorem ParseRevID_append (G d : List Nat) (h1 : 1 ≤ G.length) (h8 : G.length ≤ 8)
    (hdig : ∀ c ∈ G, 48 ≤ c ∧ c ≤ 57) (hg0 : decimalValue G ≠ 0) (hd : d ≠ []) :
    ParseRevID (G ++ 45 :: d) = some (decimalValue G, d) := by
  have hdig2 : ∀ c ∈ G, isdigit c = true := by
    intro c hc
    have := hdig c hc
    simp [isdigit, this.1, this.2]
  have hnot : (45 : Nat) ∉ G := by
    intro h45
    have := hdig 45 h45
    omega
  have hdlen : 0 < d.length := List.length_pos.2 hd
  unfold ParseRevID
  rw [memchr_append hnot]
  have hp0 : ¬ G.length = 0 := by omega
  have hp8 : ¬ (G.length > 8 ∨ G.length ≥ (G ++ 45 :: d).length - 1) := by
    simp only [List.length_append, List.length_cons]
    omega
  simp only [hp0, hp8, if_false, List.take_left, List.drop_left]
  rw [parseDigits_short G h8 hdig2]
  simp [hg0]

theorem decimalDigits_length (g : Nat) : (decimalDigits g).length = (Nat.digits 10 g).length := by
  simp [decimalDigits]

theorem decimalDigits_range (g c : Nat) (h : c ∈ decimalDigits g) : 48 ≤ c ∧ c ≤ 57 := by
  simp only [decimalDigits, List.mem_map, List.mem_reverse] at h
  obtain ⟨x, hx, rfl⟩ := h
  have := Nat.digits_lt_base (by norm_num : 1 < 10) hx
  omega

theorem decimalValue_decimalDigits (g : Nat) : decimalValue (decimalDigits g) = g := by
  unfold decimalValue decimalDigits
  have : List.map (fun x => x - 48) (List.map (fun x => x + 48) (Nat.digits 10 g).reverse)
      = (Nat.digits 10 g).reverse := by
    rw [List.map_map]
    conv_rhs => rw [← List.map_id (Nat.digits 10 g).reverse]
    apply List.map_congr_left
    intro x _
    simp
  rw [this, List.reverse_reverse, Nat.ofDigits_digits]

theorem decimalDigits_length_le (g : Nat) (h : g < 10 ^ 8) : (decimalDigits g).length ≤ 8 := by
  rw [decimalDigits_length]
  by_cases h0 : g = 0
  · subst h0; simp
  · rw [Nat.digits_len 10 g (by norm_num) h0]
    have := Nat.log_lt_of_lt_pow h0 h
    omega

theorem decimalDigits_length_pos (g : Nat) (h : 1 ≤ g) : 1 ≤ (decimalDigits g).length := by
  rw [decimalDigits_length]
  have : Nat.digits 10 g ≠ [] := Nat.digits_ne_nil_iff_ne_zero.2 (by omega)
  exact List.length_pos.2 this

/-- C11 (as stated, refuted). The comparator is not transitive on all byte
strings: "10-a" sorts before "1z" and "1z" before "2-a" (raw bytes, since "1z"
is not a proper identifier), yet "10-a" sorts after "2-a" (generation 10 against
generation 2). -/
theorem compareRevIDs_not_transitive :
    compareRevIDs [49, 48, 45, 97] [49, 122] ≤ 0 ∧
    compareRevIDs [49, 122] [50, 45, 97] ≤ 0 ∧
    ¬ compareRevIDs [49, 48, 45, 97] [50, 45, 97] ≤ 0 := by
  decide

/-- C11 (amended). The comparator is transitive on every triple of identifiers
that are all proper, and on every triple of which at most one is proper (each
pair is then compared as raw bytes). -/
theorem compareRevIDs_trans (a b c : sized_buf)
    (hshape : ((ParseRevID a).isSome ∧ (ParseRevID b).isSome ∧ (ParseRevID c).isSome) ∨
      (ParseRevID a = none ∧ ParseRevID b = none) ∨
      (ParseRevID a = none ∧ ParseRevID c = none) ∨
      (ParseRevID b = none ∧ ParseRevID c = none))
    (h1 : compareRevIDs a b ≤ 0) (h2 : compareRevIDs b c ≤ 0) :
    compareRevIDs a c ≤ 0 := by
  rcases hshape with ⟨ha, hb, hc⟩ | ⟨ha, hb⟩ | ⟨ha, hc⟩ | ⟨hb, hc⟩
  · exact compareRevIDs_proper_trans ha hb hc h1 h2
  · rw [compareRevIDs_improper (Or.inl ha)] at h1 ⊢
    rw [compareRevIDs_improper (Or.inl hb)] at h2
    exact lexSign_le_trans h1 h2
  · rw [compareRevIDs_improper (Or.inl ha)] at h1 ⊢
    rw [compareRevIDs_improper (Or.inr hc)] at h2
    exact lexSign_le_trans h1 h2
  · rw [compareRevIDs_improper (Or.inr hb)] at h1
    rw [compareRevIDs_improper (Or.inl hb)] at h2
    rw [compareRevIDs_improper (Or.inr hc)]
    exact lexSign_le_trans h1 h2

theorem compareRevIDs_trans_witness :
    compareRevIDs [50, 45, 97] [49, 48, 45, 97] ≤ 0 ∧
    compareRevIDs [49, 48, 45, 97] [49, 49, 45, 97] ≤ 0 ∧
    compareRevIDs [50, 45, 97] [49, 49, 45, 97] ≤ 0 :=
  ⟨by decide, by decide,
    compareRevIDs_trans [50, 45, 97] [49, 48, 45, 97] [49, 49, 45, 97]
      (Or.inl (by decide)) (by decide) (by decide)⟩

/-- C12. For every generation `g` in 1..99999999 and every non-empty digest
`d` (arbitrary bytes, a hyphen included), `ParseRevID` applied to the decimal
digits of `g`, a hyphen and `d` succeeds and returns exactly `(g, d)`. -/
theorem ParseRevID_decimalDigits (g : Nat) (d : sized_buf)
    (hg1 : 1 ≤ g) (hg8 : g ≤ 99999999) (hd : d ≠ []) :
    ParseRevID (decimalDigits g ++ 45 :: d) = some (g, d) := by
  have h := ParseRevID_append (decimalDigits g) d (decimalDigits_length_pos g hg1)
    (decimalDigits_length_le g (by norm_num; omega)) (decimalDigits_range g)
    (by rw [decimalValue_decimalDigits]; omega) hd
  rw [decimalValue_decimalDigits] at h
  exact h

theorem ParseRevID_decimalDigits_witness :
    1 ≤ 12 ∧ 12 ≤ 99999999 ∧ ([45, 97] : sized_buf) ≠ [] ∧
    ParseRevID (decimalDigits 12 ++ 45 :: [45, 97]) = some (12, [45, 97]) :=
  ⟨by decide, by decide, by decide,
    ParseRevID_decimalDigits 12 [45, 97] (by decide) (by decide) (by decide)⟩

/-- C13. For all byte strings `a` and `b`, the sign of `compareRevIDs a b` is
the opposite of the sign of `compareRevIDs b a`. -/
theorem compareRevIDs_antisymm (a b : sized_buf) :
    Int.sign (compareRevIDs a b) = - Int.sign (compareRevIDs b a) := by
  rw [compareRevIDs_neg a b, Int.sign_neg]

/-! ## LiteCore: varints and flag masks -/

theorem clearFlags_testBit (f m i : Nat) :
    (clearFlags f m).testBit i = (f.testBit i && !m.testBit i) := by
  unfold clearFlags
  rw [Nat.testBit_xor, Nat.testBit_land]
  cases f.testBit i <;> cases m.testBit i <;> rfl

theorem clearFlags_and_mask (f m : Nat) : clearFlags f m &&& m = 0 := by
  apply Nat.eq_of_testBit_eq
  intro i
  rw [Nat.testBit_land, clearFlags_testBit, Nat.zero_testBit]
  cases f.testBit i <;> cases m.testBit i <;> rfl

theorem and_testBit_false {f h : Nat} (hz : f &&& h = 0) (i : Nat) :
    (f.testBit i && h.testBit i) = false := by
  have := congrArg (fun x => x.testBit i) hz
  simpa [Nat.testBit_land] using this

theorem clearFlags_and_disjoint (f m h : Nat) (hz : f &&& h = 0) :
    clearFlags f m &&& h = 0 := by
  apply Nat.eq_of_testBit_eq
  intro i
  have := and_testBit_false hz i
  rw [Nat.testBit_land, clearFlags_testBit, Nat.zero_testBit]
  cases hf : f.testBit i <;> cases hh : h.testBit i <;> cases m.testBit i <;> simp_all

theorem or_and_self (c h : Nat) : (c ||| h) &&& h = h := by
  apply Nat.eq_of_testBit_eq
  intro i
  rw [Nat.testBit_land, Nat.testBit_or]
  cases c.testBit i <;> cases h.testBit i <;> rfl

theorem or_and_disjoint (c h m : Nat) (hz : h &&& m = 0) : (c ||| h) &&& m = c &&& m := by
  apply Nat.eq_of_testBit_eq
  intro i
  have := and_testBit_false hz i
  rw [Nat.testBit_land, Nat.testBit_or, Nat.testBit_land]
  cases hc : c.testBit i <;> cases hh : h.testBit i <;> cases hm : m.testBit i <;> simp_all

theorem clearFlags_or_within (c h m : Nat) (hsub : h &&& m = h) :
    clearFlags (c ||| h) m = clearFlags c m := by
  apply Nat.eq_of_testBit_eq
  intro i
  have := congrArg (fun x => x.testBit i) hsub
  simp only [Nat.testBit_land] at this
  rw [clearFlags_testBit, clearFlags_testBit, Nat.testBit_or]
  cases hc : c.testBit i <;> cases hh : h.testBit i <;> cases hm : m.testBit i <;> simp_all

theorem putUVarIntLoop_length (fuel n : Nat) :
    (putUVarIntLoop fuel n).length = sizeOfVarIntLoop fuel n := by
  induction fuel generalizing n with
  | zero => rfl
  | succ f ih =>
    unfold putUVarIntLoop sizeOfVarIntLoop
    by_cases h : n < 128
    · simp [h]
    · simp only [h, if_false, List.length_cons, ih]
      omega

theorem SizeOfVarInt_eq (n : Nat) : SizeOfVarInt n = (PutUVarInt n).length := by
  unfold SizeOfVarInt PutUVarInt
  rw [putUVarIntLoop_length]

theorem SizeOfVarInt_pos (n : Nat) : 1 ≤ SizeOfVarInt n := by
  unfold SizeOfVarInt sizeOfVarIntLoop
  split_ifs <;> omega

theorem getUVarIntLoop_put (fuel n : Nat) (rest : List Nat) (h : n < 128 ^ (fuel + 1)) :
    getUVarIntLoop (fuel + 1) (putUVarIntLoop (fuel + 1) n ++ rest) =
      some ((putUVarIntLoop (fuel + 1) n).length, n) := by
  induction fuel generalizing n with
  | zero =>
    have h128 : n < 128 := by simpa using h
    simp [putUVarIntLoop, getUVarIntLoop, h128]
  | succ f ih =>
    by_cases h128 : n < 128
    · rw [putUVarIntLoop]
      simp [getUVarIntLoop, h128]
    · have hdiv : n / 128 < 128 ^ (f + 1) := by
        rw [Nat.div_lt_iff_lt_mul (by norm_num)]
        rw [pow_succ] at h
        exact h
      have hb : ¬ (n % 128 + 128 < 128) := by omega
      rw [putUVarIntLoop]
      simp only [h128, if_false, List.cons_append]
      rw [getUVarIntLoop]
      simp only [hb, if_false, ih (n / 128) hdiv, List.length_cons]
      congr 2
      omega

theorem GetUVarInt_put (n : Nat) (hn : n < 2 ^ 64) (rest : List Nat) :
    GetUVarInt (PutUVarInt n ++ rest) = some ((PutUVarInt n).length, n) := by
  unfold GetUVarInt PutUVarInt
  rw [Nat.mod_eq_of_lt hn]
  have h : n < 128 ^ (9 + 1) := by
    have : (2 : Nat) ^ 64 ≤ 128 ^ (9 + 1) := by norm_num
    omega
  rw [getUVarIntLoop_put 9 n rest h]
  simp only []
  rw [if_pos hn]

/-! ## LiteCore: one record -/

theorem copyFrom_eq (k : RawRevFlags) (r : Rev) :
    RawRevision.copyFrom k r =
      htonl (RawRevision.sizeToWrite r % 2 ^ 32) ++
        ((match r.parent with
            | some index => index
            | none => RawRevision.kNoParent) % 2 ^ 16 / 2 ^ 8 % 256 ::
          (match r.parent with
            | some index => index
            | none => RawRevision.kNoParent) % 2 ^ 16 % 256 ::
          RawRevision.dstFlags k r :: r.revID.length % 2 ^ 8 ::
          (r.revID ++ (PutUVarInt r.sequence ++ r.body.getD []))) := by
  unfold RawRevision.copyFrom htons
  simp

theorem copyFrom_length (k : RawRevFlags) (r : Rev) :
    (RawRevision.copyFrom k r).length = RawRevision.sizeToWrite r := by
  rw [copyFrom_eq]
  simp only [htonl, List.length_append, List.length_cons, List.length_nil,
    RawRevision.sizeToWrite, SizeOfVarInt_eq]
  omega

theorem parentField (parent : Option Nat) (h : ∀ index, parent = some index → index < 65535) :
    ((match parent with
        | some index => index
        | none => RawRevision.kNoParent) % 2 ^ 16 / 2 ^ 8 % 256) * 2 ^ 8 +
      (match parent with
        | some index => index
        | none => RawRevision.kNoParent) % 2 ^ 16 % 256 =
      (match parent with
        | some index => index
        | none => RawRevision.kNoParent) ∧
    ((match parent with
        | some index => index
        | none => RawRevision.kNoParent) = RawRevision.kNoParent ↔ parent = none) := by
  cases parent with
  | none => exact ⟨by decide, by simp⟩
  | some p =>
    have hp := h p rfl
    simp only [RawRevision.kNoParent]
    refine ⟨by omega, ?_⟩
    constructor
    · intro h1; omega
    · intro h1; cases h1

theorem dstFlags_hasData (k : RawRevFlags) (hk : RawRevFlags.Valid k) (r : Rev)
    (hf : r.flags &&& k.kHasData = 0) :
    RawRevision.dstFlags k r &&& k.kHasData ≠ 0 ↔ r.body.isSome = true := by
  obtain ⟨-, -, -, hne, -, -⟩ := hk
  unfold RawRevision.dstFlags
  cases hb : r.body with
  | none =>
    simp only [Option.isSome_none, Bool.false_eq_true, if_false, iff_false, not_not]
    exact clearFlags_and_disjoint _ _ _ hf
  | some b =>
    simp only [Option.isSome_some, if_true, iff_true, or_and_self]
    exact hne

theorem dstFlags_stored (k : RawRevFlags) (hk : RawRevFlags.Valid k) (r : Rev) :
    clearFlags (RawRevision.dstFlags k r) k.kPersistentOnlyFlags =
      clearFlags (clearFlags r.flags k.kNonPersistentFlags) k.kPersistentOnlyFlags := by
  obtain ⟨-, -, -, -, hsub, -⟩ := hk
  unfold RawRevision.dstFlags
  cases r.body with
  | none => simp
  | some b =>
    simp only [Option.isSome_some, if_true]
    exact clearFlags_or_within _ _ _ hsub

/-- Decoding the record written for a rev that fits the format. -/
theorem copyTo_copyFrom (k : RawRevFlags) (hk : RawRevFlags.Valid k) (r : Rev)
    (rest : List Nat) (h : FitsRev k r) (count : Nat)
    (hcount : ∀ index, r.parent = some index → index < count) :
    8 ≤ (RawRevision.copyFrom k r ++ rest).length ∧
    validRawNode (RawRevision.copyFrom k r ++ rest) = true ∧
    nextRawNode (RawRevision.copyFrom k r ++ rest) = rest ∧
    RawRevision.copyTo k (RawRevision.copyFrom k r ++ rest) count = .ok (storedRev k r) := by
  obtain ⟨hrev, hsz, hseq, hpar, hflag⟩ := h
  have hlen := copyFrom_length k r
  have hsize : rawSize (RawRevision.copyFrom k r ++ rest) = RawRevision.sizeToWrite r := by
    rw [copyFrom_eq, List.append_assoc, rawSize_htonl _ (Nat.mod_lt _ (by norm_num)),
      Nat.mod_eq_of_lt hsz]
  have h8 : 8 + r.revID.length + SizeOfVarInt r.sequence + (r.body.getD []).length =
      RawRevision.sizeToWrite r := rfl
  have hvar := SizeOfVarInt_pos r.sequence
  have hidlen : rawRevIDLen (RawRevision.copyFrom k r ++ rest) = r.revID.length := by
    rw [copyFrom_eq]
    simp only [rawRevIDLen, htonl, List.cons_append, List.nil_append, List.getD_cons_succ,
      List.getD_cons_zero]
    exact Nat.mod_eq_of_lt (by norm_num; omega)
  have hfl : rawFlags (RawRevision.copyFrom k r ++ rest) = RawRevision.dstFlags k r := by
    rw [copyFrom_eq]
    simp [rawFlags, htonl]
  have hpi : rawParentIndex (RawRevision.copyFrom k r ++ rest) =
      (match r.parent with
        | some index => index
        | none => RawRevision.kNoParent) := by
    rw [copyFrom_eq]
    simp only [rawParentIndex, htonl, List.cons_append, List.nil_append, List.getD_cons_succ,
      List.getD_cons_zero]
    exact (parentField r.parent hpar).1
  have hdrop8 : (RawRevision.copyFrom k r ++ rest).drop 8 =
      r.revID ++ (PutUVarInt r.sequence ++ (r.body.getD [] ++ rest)) := by
    rw [copyFrom_eq]
    simp [htonl]
  have hdropData : (RawRevision.copyFrom k r ++ rest).drop (8 + r.revID.length) =
      PutUVarInt r.sequence ++ (r.body.getD [] ++ rest) := by
    rw [← List.drop_drop, hdrop8, List.drop_left]
  refine ⟨by rw [List.length_append, hlen]; omega, ?_, ?_, ?_⟩
  · simp only [validRawNode, hsize, gt_iff_lt, decide_eq_true_eq]
    omega
  · unfold nextRawNode
    rw [hsize, ← hlen, List.drop_left]
  · have hlenData : (RawRevision.sizeToWrite r + 2 ^ 64 - (8 + r.revID.length)) % 2 ^ 64 =
        (PutUVarInt r.sequence).length + (r.body.getD []).length := by
      rw [← SizeOfVarInt_eq]
      have : RawRevision.sizeToWrite r + 2 ^ 64 - (8 + r.revID.length) =
          (SizeOfVarInt r.sequence + (r.body.getD []).length) + 2 ^ 64 := by omega
      rw [this, Nat.add_mod_right]
      exact Nat.mod_eq_of_lt (by norm_num at hsz ⊢; omega)
    have hslice : ((RawRevision.copyFrom k r ++ rest).drop (8 + r.revID.length)).take
        ((RawRevision.sizeToWrite r + 2 ^ 64 - (8 + r.revID.length)) % 2 ^ 64) =
        PutUVarInt r.sequence ++ r.body.getD [] := by
      rw [hdropData, hlenData, ← List.append_assoc, ← List.length_append, List.take_left]
    have hget := GetUVarInt_put r.sequence hseq (r.body.getD [])
    have hbodyOff : (RawRevision.copyFrom k r ++ rest).drop
        (8 + r.revID.length + (PutUVarInt r.sequence).length) = r.body.getD [] ++ rest := by
      rw [← List.drop_drop, hdropData, List.drop_left]
    have hbodyLen : (RawRevision.sizeToWrite r + 2 ^ 64 -
        (8 + r.revID.length + (PutUVarInt r.sequence).length)) % 2 ^ 64 =
        (r.body.getD []).length := by
      rw [← SizeOfVarInt_eq]
      have : RawRevision.sizeToWrite r + 2 ^ 64 -
          (8 + r.revID.length + SizeOfVarInt r.sequence) = (r.body.getD []).length + 2 ^ 64 := by
        omega
      rw [this, Nat.add_mod_right]
      exact Nat.mod_eq_of_lt (by norm_num at hsz ⊢; omega)
    have hc1 : ¬ (RawRevision.copyFrom k r ++ rest).length < 8 + r.revID.length := by
      rw [List.length_append, hlen]
      omega
    have hc2 : ¬ ((match r.parent with
        | some index => index
        | none => RawRevision.kNoParent) ≠ RawRevision.kNoParent ∧
        count ≤ (match r.parent with
        | some index => index
        | none => RawRevision.kNoParent)) := by
      cases hp : r.parent with
      | none => simp
      | some p =>
        have := hcount p hp
        simp only [not_and, not_le]
        intro _
        exact this
    have hc3 : varIntOverruns (PutUVarInt r.sequence ++ r.body.getD [])
        ((RawRevision.sizeToWrite r + 2 ^ 64 - (8 + r.revID.length)) % 2 ^ 64) = false := by
      rw [hlenData]
      simp [varIntOverruns]
    have hc4 : ¬ (RawRevision.dstFlags k r &&& k.kHasData ≠ 0 ∧
        (RawRevision.copyFrom k r ++ rest).length <
          8 + r.revID.length + (PutUVarInt r.sequence).length + (r.body.getD []).length) := by
      rw [List.length_append, hlen, ← h8, SizeOfVarInt_eq]
      omega
    unfold RawRevision.copyTo storedRev
    simp only [hsize, hidlen, hfl, hpi, hslice, hget, hbodyOff, hbodyLen, hdrop8,
      List.take_left, dstFlags_stored k hk r, hc1, hc2, hc3, hc4, if_false,
      Bool.false_eq_true, Outcome.ok.injEq]
    have hhd := dstFlags_hasData k hk r hflag
    have hparent := (parentField r.parent hpar).2
    cases hp : r.parent with
    | none =>
      cases hb : r.body with
      | none =>
        rw [hb] at hhd
        simp only [Option.isSome_none, Bool.false_eq_true, iff_false] at hhd
        simp [hhd, RawRevision.kNoParent]
      | some b =>
        rw [hb] at hhd
        simp only [Option.isSome_some, iff_true] at hhd
        simp [hhd, RawRevision.kNoParent]
    | some p =>
      have hp65 := hpar p hp
      have hne : ¬ p = RawRevision.kNoParent := by
        simp only [RawRevision.kNoParent]; omega
      cases hb : r.body with
      | none =>
        rw [hb] at hhd
        simp only [Option.isSome_none, Bool.false_eq_true, iff_false] at hhd
        simp [hhd, hne]
      | some b =>
        rw [hb] at hhd
        simp only [Option.isSome_some, iff_true] at hhd
        simp [hhd, hne]

/-! ## LiteCore: encoding and decoding a list of revs -/

theorem encodeTree_cons (k : RawRevFlags) (r : Rev) (revs : List Rev) :
    RawRevision.encodeTree k (r :: revs) =
      RawRevision.copyFrom k r ++ RawRevision.encodeTree k revs := by
  simp [RawRevision.encodeTree]

theorem length_le_encodeTree (k : RawRevFlags) (revs : List Rev) :
    revs.length ≤ (RawRevision.encodeTree k revs).length := by
  induction revs with
  | nil => simp
  | cons r revs ih =>
    rw [encodeTree_cons, List.length_append, copyFrom_length, List.length_cons]
    have : 8 ≤ RawRevision.sizeToWrite r := by unfold RawRevision.sizeToWrite; omega
    omega

/-- Walking the blob written for revs that fit the format. -/
theorem decodeRevs_encodeTree (k : RawRevFlags) (hk : RawRevFlags.Valid k)
    (curSeq count : Nat) (revs : List Rev) (hfit : ∀ r ∈ revs, FitsRev k r)
    (hcount : ∀ r ∈ revs, ∀ index, r.parent = some index → index < count) (fuel : Nat)
    (hfuel : revs.length < fuel) :
    countRawNodes fuel (RawRevision.encodeTree k revs) = .ok revs.length ∧
    RawRevision.decodeRevs k curSeq count fuel (RawRevision.encodeTree k revs) =
      .ok (revs.map (fun r => withCurSeq curSeq (storedRev k r)), htonl 0) := by
  induction revs generalizing fuel with
  | nil =>
    cases fuel with
    | zero => omega
    | succ f =>
      exact ⟨by simp [RawRevision.encodeTree, countRawNodes, htonl, validRawNode, rawSize],
        by simp [RawRevision.encodeTree, RawRevision.decodeRevs, htonl, validRawNode, rawSize]⟩
  | cons r revs ih =>
    cases fuel with
    | zero => omega
    | succ f =>
      obtain ⟨h8, hv, hn, hc⟩ := copyTo_copyFrom k hk r (RawRevision.encodeTree k revs)
        (hfit r (List.mem_cons_self _ _)) count (hcount r (List.mem_cons_self _ _))
      obtain ⟨ih1, ih2⟩ := ih (fun x hx => hfit x (List.mem_cons_of_mem _ hx))
        (fun x hx => hcount x (List.mem_cons_of_mem _ hx)) f
        (by simp only [List.length_cons] at hfuel; omega)
      rw [encodeTree_cons]
      have h4 : ¬ (RawRevision.copyFrom k r ++ RawRevision.encodeTree k revs).length < 4 := by
        omega
      have h8n : ¬ (RawRevision.copyFrom k r ++ RawRevision.encodeTree k revs).length < 8 := by
        omega
      constructor
      · rw [countRawNodes]
        simp only [h4, if_false, hv, not_true_eq_false, hn, ih1, List.length_cons]
      · rw [RawRevision.decodeRevs]
        simp only [h4, h8n, if_false, RawRevision.isValid, RawRevision.next, hv,
          not_true_eq_false, hn, ih2, hc, List.map_cons, withCurSeq]

/-- Decoding the blob written for at most 65535 revs that fit the format. -/
theorem decodeTree_encodeTree_fits (k : RawRevFlags) (hk : RawRevFlags.Valid k) (curSeq : Nat)
    (revs : List Rev) (hfit : ∀ r ∈ revs, FitsRev k r)
    (hparent : ∀ r ∈ revs, ∀ index, r.parent = some index → index < revs.length)
    (hc : revs.length ≤ 65535) :
    RawRevision.decodeTree k (RawRevision.encodeTree k revs) curSeq =
      .ok (revs.map (fun r => withCurSeq curSeq (storedRev k r))) := by
  obtain ⟨h1, h2⟩ := decodeRevs_encodeTree k hk curSeq revs.length revs hfit hparent
    ((RawRevision.encodeTree k revs).length + 1)
    (Nat.lt_succ_of_le (length_le_encodeTree k revs))
  unfold RawRevision.decodeTree
  simp only [RawRevision.count, h1, h2]
  have hc2 : ¬ revs.length > 65535 := by omega
  simp [hc2, htonl]

set_option maxRecDepth 100000 in
/-- C15 (as stated, refuted). The list holding only `longIdRev` is valid (no
parent), but the revID is 256 bytes long and `copyFrom` stores its length in
the one-byte field `revIDLen`, which gives 0. Decoding the blob succeeds and
yields a rev with an empty revID, whose sequence is read from the first byte
of the stored revID. -/
theorem decodeTree_encodeTree_long_revID :
    RawRevision.decodeTree sampleFlags (RawRevision.encodeTree sampleFlags [longIdRev]) 7 =
      .ok [{ revID := [], flags := 0, parent := none, sequence := 97, body := none }] := by
  decide

/-- C15 (amended). For every valid list of at most 65535 revs (parents inside
the list) in which every revID is at most 255 bytes long, every record is
shorter than `2^32` bytes, every sequence is a `uint64_t` and no in-memory
flags carry the wire-only bit `hasData`: `decodeTree` of `encodeTree` of the
list returns the same number of revs, and the i-th decoded rev has the revID,
body and parent position of the i-th encoded rev, its flags without the
non-persistent and the wire-only ones, and its sequence, a stored sequence of
0 being replaced by `curSeq`. -/
theorem decodeTree_encodeTree (k : RawRevFlags) (hk : RawRevFlags.Valid k) (curSeq : Nat)
    (revs : List Rev) (hc : revs.length ≤ 65535)
    (hparent : ∀ r ∈ revs, ∀ index, r.parent = some index → index < revs.length)
    (hrev : ∀ r ∈ revs, r.revID.length ≤ 255 ∧ RawRevision.sizeToWrite r < 2 ^ 32 ∧
      r.sequence < 2 ^ 64 ∧ r.flags &&& k.kHasData = 0) :
    ∃ decoded, RawRevision.decodeTree k (RawRevision.encodeTree k revs) curSeq = .ok decoded ∧
      decoded.length = revs.length ∧
      ∀ i, i < revs.length → ∃ r d, revs[i]? = some r ∧ decoded[i]? = some d ∧
        d.revID = r.revID ∧ d.body = r.body ∧ d.parent = r.parent ∧
        d.flags =
          clearFlags (clearFlags r.flags k.kNonPersistentFlags) k.kPersistentOnlyFlags ∧
        d.sequence = if r.sequence = 0 then curSeq else r.sequence := by
  have hfit : ∀ r ∈ revs, FitsRev k r := by
    intro r hr
    obtain ⟨h1, h2, h3, h4⟩ := hrev r hr
    refine ⟨h1, h2, h3, ?_, h4⟩
    intro index hp
    have := hparent r hr index hp
    omega
  refine ⟨_, decodeTree_encodeTree_fits k hk curSeq revs hfit hparent hc, by simp, ?_⟩
  intro i hi
  refine ⟨revs[i], withCurSeq curSeq (storedRev k revs[i]), by simp [hi], by simp [hi],
    rfl, rfl, rfl, rfl, rfl⟩

theorem decodeTree_encodeTree_witness :
    ∃ decoded,
      RawRevision.decodeTree sampleFlags (RawRevision.encodeTree sampleFlags sampleRevs) 77 =
        .ok decoded ∧
      decoded.length = sampleRevs.length ∧
      ∀ i, i < sampleRevs.length → ∃ r d, sampleRevs[i]? = some r ∧ decoded[i]? = some d ∧
        d.revID = r.revID ∧ d.body = r.body ∧ d.parent = r.parent ∧
        d.flags = clearFlags (clearFlags r.flags sampleFlags.kNonPersistentFlags)
          sampleFlags.kPersistentOnlyFlags ∧
        d.sequence = if r.sequence = 0 then 77 else r.sequence :=
  decodeTree_encodeTree sampleFlags (by decide) 77 sampleRevs (by decide) (by decide)
    (by decide)

/-! ## Walking the records of a packed tree -/

theorem getD_append_lt (rec rest : List Nat) (i : Nat) (h : i < rec.length) :
    (rec ++ rest).getD i 0 = rec.getD i 0 := by
  simp only [List.getD_eq_getElem?_getD]
  rw [List.getElem?_append_left h]

theorem rawSize_append (rec rest : List Nat) (h : 4 ≤ rec.length) :
    rawSize (rec ++ rest) = rawSize rec := by
  unfold rawSize
  rw [getD_append_lt rec rest 0 (by omega), getD_append_lt rec rest 1 (by omega),
    getD_append_lt rec rest 2 (by omega), getD_append_lt rec rest 3 (by omega)]

theorem rawHeader_append (rec rest : List Nat) (h : 8 ≤ rec.length) :
    rawParentIndex (rec ++ rest) = rawParentIndex rec ∧
    rawFlags (rec ++ rest) = rawFlags rec ∧ rawRevIDLen (rec ++ rest) = rawRevIDLen rec := by
  unfold rawParentIndex rawFlags rawRevIDLen
  rw [getD_append_lt rec rest 4 (by omega), getD_append_lt rec rest 5 (by omega),
    getD_append_lt rec rest 6 (by omega), getD_append_lt rec rest 7 (by omega)]
  exact ⟨rfl, rfl, rfl⟩

theorem recordPointers_length (records : List (List Nat)) (tail : List Nat) :
    (recordPointers records tail).length = records.length := by
  induction records with
  | nil => rfl
  | cons rec rest ih => simp [recordPointers, ih]

theorem recordPointers_getElem? (records : List (List Nat)) (tail : List Nat) (i : Nat)
    (rec : List Nat) (h : records[i]? = some rec) :
    ∃ rest, (recordPointers records tail)[i]? = some (rec ++ rest) := by
  induction records generalizing i with
  | nil => simp at h
  | cons r rs ih =>
    cases i with
    | zero =>
      simp only [List.getElem?_cons_zero, Option.some.injEq] at h
      subst h
      exact ⟨rs.flatten ++ tail, by simp [recordPointers]⟩
    | succ j =>
      simp only [List.getElem?_cons_succ] at h
      obtain ⟨rest, hrest⟩ := ih j h
      exact ⟨rest, by simp [recordPointers, hrest]⟩

/-- The walks over a blob made of records and a tail that starts with a zero
size: every record is visited, and the walk stops at the tail. -/
theorem walk_records (k : RawRevFlags) (curSeq : Nat) (records : List (List Nat))
    (tail : List Nat) (hrec : IsRecords records) (ht4 : 4 ≤ tail.length)
    (ht0 : rawSize tail = 0) (fuel : Nat) (hfuel : records.length < fuel) :
    countRawNodes fuel (records.flatten ++ tail) = .ok records.length ∧
    decodeRawNodes fuel (records.flatten ++ tail) =
      .ok ((recordPointers records tail).map nodeFromRawNode, tail) ∧
    ∀ count, RawRevision.decodeRevs k curSeq count fuel (records.flatten ++ tail) =
      match copyAll k curSeq count (recordPointers records tail) with
      | .ok revs => .ok (revs, tail)
      | .null => .null
      | .outOfBounds => .outOfBounds
      | .outOfFuel => .outOfFuel := by
  induction records generalizing fuel with
  | nil =>
    cases fuel with
    | zero => omega
    | succ f =>
      have h4 : ¬ tail.length < 4 := by omega
      refine ⟨?_, ?_, ?_⟩
      · rw [countRawNodes]
        simp [h4, validRawNode, ht0]
      · rw [decodeRawNodes]
        simp [h4, validRawNode, ht0, recordPointers]
      · intro count
        rw [RawRevision.decodeRevs]
        simp [h4, validRawNode, ht0, recordPointers, copyAll]
  | cons rec rest ih =>
    cases fuel with
    | zero => omega
    | succ f =>
      obtain ⟨h8, hsz⟩ := hrec rec (List.mem_cons_self _ _)
      obtain ⟨ih1, ih2, ih3⟩ := ih (fun x hx => hrec x (List.mem_cons_of_mem _ hx)) f
        (by simp only [List.length_cons] at hfuel; omega)
      have hflat : (rec :: rest).flatten ++ tail = rec ++ (rest.flatten ++ tail) := by simp
      rw [hflat]
      have hsize : rawSize (rec ++ (rest.flatten ++ tail)) = rec.length := by
        rw [rawSize_append _ _ (by omega), hsz]
      have hv : validRawNode (rec ++ (rest.flatten ++ tail)) = true := by
        simp only [validRawNode, hsize, gt_iff_lt, decide_eq_true_eq]
        omega
      have hn : nextRawNode (rec ++ (rest.flatten ++ tail)) = rest.flatten ++ tail := by
        unfold nextRawNode
        rw [hsize, List.drop_left]
      have h4 : ¬ (rec ++ (rest.flatten ++ tail)).length < 4 := by
        rw [List.length_append]; omega
      have h8n : ¬ (rec ++ (rest.flatten ++ tail)).length < 8 := by
        rw [List.length_append]; omega
      refine ⟨?_, ?_, ?_⟩
      · rw [countRawNodes]
        simp only [h4, if_false, hv, not_true_eq_false, hn, ih1, List.length_cons]
      · rw [decodeRawNodes]
        simp only [h4, h8n, if_false, hv, not_true_eq_false, hn, ih2, recordPointers,
          List.map_cons]
      · intro count
        rw [RawRevision.decodeRevs]
        simp only [h4, h8n, if_false, RawRevision.isValid, RawRevision.next, hv,
          not_true_eq_false, hn, ih3 count, recordPointers, copyAll]
        cases RawRevision.copyTo k (rec ++ (rest.flatten ++ tail)) count with
        | ok rev =>
          simp only
          cases copyAll k curSeq count (recordPointers rest tail) <;> rfl
        | null => rfl
        | outOfBounds => rfl
        | outOfFuel => rfl

theorem length_le_flatten (records : List (List Nat)) (tail : List Nat)
    (hrec : IsRecords records) : records.length ≤ (records.flatten ++ tail).length := by
  induction records with
  | nil => simp
  | cons rec rest ih =>
    have := (hrec rec (List.mem_cons_self _ _)).1
    have := ih (fun x hx => hrec x (List.mem_cons_of_mem _ hx))
    simp only [List.flatten_cons, List.length_append, List.length_cons] at this ⊢
    omega

/-- What `decodeTree` does with a blob made of records and a tail that starts
with a zero size. -/
theorem decodeTree_records (k : RawRevFlags) (curSeq : Nat) (records : List (List Nat))
    (tail : List Nat) (hrec : IsRecords records) (ht4 : 4 ≤ tail.length)
    (ht0 : rawSize tail = 0) :
    RawRevision.decodeTree k (records.flatten ++ tail) curSeq =
      if records.length > 65535 then CorruptRevisionData
      else
        match copyAll k curSeq records.length (recordPointers records tail) with
        | .ok revs => if tail.length ≠ 4 then CorruptRevisionData else .ok revs
        | .null => .null
        | .outOfBounds => .outOfBounds
        | .outOfFuel => .outOfFuel := by
  obtain ⟨h1, -, h3⟩ := walk_records k curSeq records tail hrec ht4 ht0
    ((records.flatten ++ tail).length + 1)
    (Nat.lt_succ_of_le (length_le_flatten records tail hrec))
  unfold RawRevision.decodeTree
  simp only [RawRevision.count, h1, h3]
  by_cases hgt : records.length > 65535
  · rw [if_pos hgt, if_pos hgt]
  · rw [if_neg hgt, if_neg hgt]
    cases copyAll k curSeq records.length (recordPointers records tail) <;> rfl

/-- What `RevTreeDecode` does with a blob made of records and a tail that
starts with a zero size. -/
theorem RevTreeDecode_records (extraCapacity : Nat) (records : List (List Nat))
    (tail : List Nat) (hrec : IsRecords records) (ht4 : 4 ≤ tail.length)
    (ht0 : rawSize tail = 0) :
    RevTreeDecode (records.flatten ++ tail) extraCapacity =
      if (records.length + extraCapacity) % 2 ^ 32 > 65535 then .null
      else if tail.length ≠ 4 then .null
      else .ok { capacity := (records.length + extraCapacity) % 2 ^ 32, sorted := true,
                 node := (recordPointers records tail).map nodeFromRawNode } := by
  obtain ⟨h1, h2, -⟩ := walk_records sampleFlags 0 records tail hrec ht4 ht0
    ((records.flatten ++ tail).length + 1)
    (Nat.lt_succ_of_le (length_le_flatten records tail hrec))
  unfold RevTreeDecode
  simp only [h1, h2]

theorem isRecords_replicate (n : Nat) : IsRecords (List.replicate n [0, 0, 0, 8, 255, 255, 0, 0]) := by
  intro rec hrec
  rw [List.eq_of_mem_replicate hrec]
  exact ⟨by decide, by decide⟩

/-! ## Decoding: what is checked and what is not -/

theorem wideBlob_count (n : Nat) :
    countRawNodes ((wideBlob n).length + 1) (wideBlob n) = .ok n := by
  have hrec := isRecords_replicate n
  unfold wideBlob
  have h := (walk_records sampleFlags 0 _ [0, 0, 0, 0] hrec (by decide) (by decide)
    (((List.replicate n [0, 0, 0, 8, 255, 255, 0, 0]).flatten ++ [0, 0, 0, 0]).length + 1)
    (Nat.lt_succ_of_le (length_le_flatten _ _ hrec))).1
  rw [List.length_replicate] at h
  exact h

theorem RevTreeDecode_wideBlob (n extraCapacity : Nat) :
    RevTreeDecode (wideBlob n) extraCapacity =
      if (n + extraCapacity) % 2 ^ 32 > 65535 then .null
      else .ok { capacity := (n + extraCapacity) % 2 ^ 32, sorted := true,
                 node := (recordPointers (List.replicate n [0, 0, 0, 8, 255, 255, 0, 0])
                   [0, 0, 0, 0]).map nodeFromRawNode } := by
  have h := RevTreeDecode_records extraCapacity _ [0, 0, 0, 0] (isRecords_replicate n)
    (by decide) (by decide)
  rw [List.length_replicate] at h
  unfold wideBlob
  rw [h]
  simp

theorem decodeTree_wideBlob (k : RawRevFlags) (n curSeq : Nat) (hn : n > 65535) :
    RawRevision.decodeTree k (wideBlob n) curSeq = CorruptRevisionData := by
  have h := decodeTree_records k curSeq _ [0, 0, 0, 0] (isRecords_replicate n)
    (by decide) (by decide)
  rw [List.length_replicate, if_pos hn] at h
  unfold wideBlob
  exact h

/-- C16. The overflow check of `RevTreeDecode` is made on
`count + extraCapacity`, an `unsigned` sum that wraps: the blob of 65536
records has node count 65536, and with `extraCapacity = 2^32 - 65536` the
capacity is 0, the check passes and a tree of 65536 revs is returned. With no
extra capacity `RevTreeDecode` returns no tree for the same blob, and
`decodeTree`, which tests the count itself, raises `CorruptRevisionData`. -/
theorem RevTreeDecode_capacity_wraps :
    countRawNodes ((wideBlob 65536).length + 1) (wideBlob 65536) = .ok 65536 ∧
    (∃ tree, RevTreeDecode (wideBlob 65536) 4294901760 = .ok tree ∧
      tree.capacity = 0 ∧ tree.count = 65536) ∧
    RevTreeDecode (wideBlob 65536) 0 = .null ∧
    RawRevision.decodeTree sampleFlags (wideBlob 65536) 1 = CorruptRevisionData := by
  refine ⟨wideBlob_count 65536, ?_, ?_, decodeTree_wideBlob sampleFlags 65536 1 (by norm_num)⟩
  · have h := RevTreeDecode_wideBlob 65536 4294901760
    rw [if_neg (by norm_num)] at h
    refine ⟨_, h, by norm_num, ?_⟩
    simp only [RevTree.count, List.length_map, recordPointers_length, List.length_replicate]
  · have h := RevTreeDecode_wideBlob 65536 0
    rw [if_pos (by norm_num)] at h
    exact h

theorem copyTo_ok_or_outOfBounds (k : RawRevFlags) (rawRev : List Nat) (count : Nat) :
    RawRevision.copyTo k rawRev count = .outOfBounds ∨
      ∃ rev, RawRevision.copyTo k rawRev count = .ok rev := by
  unfold RawRevision.copyTo
  simp only []
  split_ifs <;> first
    | exact Or.inl rfl
    | exact Or.inr ⟨_, rfl⟩

theorem copyTo_bad_parent (k : RawRevFlags) (rawRev : List Nat) (count : Nat)
    (hne : rawParentIndex rawRev ≠ RawRevision.kNoParent)
    (hc : count ≤ rawParentIndex rawRev) :
    RawRevision.copyTo k rawRev count = .outOfBounds := by
  unfold RawRevision.copyTo
  simp only []
  by_cases h1 : rawRev.length < 8 + rawRevIDLen rawRev
  · rw [if_pos h1]
  · rw [if_neg h1, if_pos ⟨hne, hc⟩]

theorem copyAll_ok_or_outOfBounds (k : RawRevFlags) (curSeq count : Nat)
    (pointers : List (List Nat)) :
    copyAll k curSeq count pointers = .outOfBounds ∨
      ∃ revs, copyAll k curSeq count pointers = .ok revs ∧ revs.length = pointers.length := by
  induction pointers with
  | nil => exact Or.inr ⟨[], rfl, rfl⟩
  | cons p ps ih =>
    rw [copyAll]
    rcases copyTo_ok_or_outOfBounds k p count with h | ⟨rev, h⟩
    · rw [h]
      exact Or.inl rfl
    · rw [h]
      rcases ih with ih | ⟨revs, ih, hlen⟩
      · rw [ih]
        exact Or.inl rfl
      · rw [ih]
        exact Or.inr ⟨_, rfl, by simp [hlen]⟩

theorem copyAll_outOfBounds (k : RawRevFlags) (curSeq count : Nat)
    (pointers : List (List Nat)) (p : List Nat) (hp : p ∈ pointers)
    (h : RawRevision.copyTo k p count = .outOfBounds) :
    copyAll k curSeq count pointers = .outOfBounds := by
  induction pointers with
  | nil => cases hp
  | cons q qs ih =>
    rw [copyAll]
    rcases copyTo_ok_or_outOfBounds k q count with hq | ⟨rev, hq⟩
    · rw [hq]
    · rw [hq]
      rcases List.mem_cons.1 hp with heq | hmem
      · rw [← heq, h] at hq
        cases hq
      · rw [ih hmem]

/-- With at most 65535 records and the terminator in place, `decodeTree`
either returns one rev per record or has left the bounds of the buffer or of
the deque: it does not raise `CorruptRevisionData`. -/
theorem decodeTree_records_not_corrupt (k : RawRevFlags) (curSeq : Nat)
    (records : List (List Nat)) (hrec : IsRecords records) (hc : records.length ≤ 65535) :
    RawRevision.decodeTree k (records.flatten ++ [0, 0, 0, 0]) curSeq = .outOfBounds ∨
    ∃ revs, RawRevision.decodeTree k (records.flatten ++ [0, 0, 0, 0]) curSeq = .ok revs ∧
      revs.length = records.length := by
  have h := decodeTree_records k curSeq records [0, 0, 0, 0] hrec (by decide) (by decide)
  rw [if_neg (by omega)] at h
  rcases copyAll_ok_or_outOfBounds k curSeq records.length
    (recordPointers records [0, 0, 0, 0]) with h2 | ⟨revs, h2, hlen⟩
  · rw [h2] at h
    exact Or.inl h
  · rw [h2] at h
    exact Or.inr ⟨revs, h, by rw [hlen, recordPointers_length]⟩

/-- C17, the code does not do what the claim says. The blob holds one record,
whose parentIndex 5 is neither 0xFFFF nor below the decoded count 1.
`decodeTree` raises nothing: `copyTo` compares the parentIndex with
`kNoParent` only and then takes `&revs[5]` in a deque of one rev (line 101),
which is undefined. The same holds for every blob of at most 65535 records
(each at least eight bytes long, its size field holding its length) and the
terminator in which some record has a parentIndex that is neither 0xFFFF nor
below the number of records. With parent indices below the count the records
are decoded: in the second blob the rev "b" gets the parent position 0. -/
theorem decodeTree_bad_parentIndex :
    countRawNodes 15 [0, 0, 0, 10, 0, 5, 0, 1, 97, 1, 0, 0, 0, 0] = .ok 1 ∧
    rawParentIndex [0, 0, 0, 10, 0, 5, 0, 1, 97, 1, 0, 0, 0, 0] = 5 ∧
    RawRevision.decodeTree sampleFlags [0, 0, 0, 10, 0, 5, 0, 1, 97, 1, 0, 0, 0, 0] 7 =
      .outOfBounds ∧
    RawRevision.decodeTree sampleFlags [0, 0, 0, 10, 0, 5, 0, 1, 97, 1, 0, 0, 0, 0] 7 ≠
      CorruptRevisionData ∧
    RawRevision.decodeTree sampleFlags
      [0, 0, 0, 10, 255, 255, 0, 1, 97, 1, 0, 0, 0, 10, 0, 0, 0, 1, 98, 1, 0, 0, 0, 0] 7 =
      .ok [{ revID := [97], flags := 0, parent := none, sequence := 1, body := none },
           { revID := [98], flags := 0, parent := some 0, sequence := 1, body := none }] ∧
    (∀ (k : RawRevFlags) (curSeq : Nat) (records : List (List Nat)),
      IsRecords records → records.length ≤ 65535 →
      (∃ rec ∈ records, rawParentIndex rec ≠ 0xFFFF ∧ records.length ≤ rawParentIndex rec) →
      RawRevision.decodeTree k (records.flatten ++ [0, 0, 0, 0]) curSeq = .outOfBounds) := by
  refine ⟨by decide, by decide, by decide, by decide, by decide, ?_⟩
  intro k curSeq records hrec hc ⟨rec, hmem, hne, hge⟩
  have h := decodeTree_records k curSeq records [0, 0, 0, 0] hrec (by decide) (by decide)
  rw [if_neg (by omega)] at h
  obtain ⟨i, hi⟩ := List.mem_iff_getElem?.1 hmem
  obtain ⟨rest, hrest⟩ := recordPointers_getElem? records [0, 0, 0, 0] i rec hi
  have h8 := (hrec rec hmem).1
  have hpar := (rawHeader_append rec rest h8).1
  have hbad : RawRevision.copyTo k (rec ++ rest) records.length = .outOfBounds :=
    copyTo_bad_parent k _ _ (by rw [hpar]; exact hne) (by rw [hpar]; exact hge)
  rw [copyAll_outOfBounds k curSeq records.length _ _ (List.getElem?_mem hrest) hbad] at h
  exact h

/-- C18, the code does not do what the claim says. The record of the first
blob has size 9, the eight header bytes and the one byte of its revID: no
room is left for the sequence varint. `decodeTree` raises nothing:
`GetUVarInt` reads nothing from the empty slice and the rev is returned with
the sequence `curSeq`. The first record of the second blob has size 8 and
revIDLen 3: its revID is given as the first three bytes of the next record,
and its sequence is read from the fourth. The record of the third blob has
size 8 and revIDLen 200 with `hasData` set: the revID and the varint are
taken from byte 8 and byte 208 of a buffer of 12 bytes, which is undefined.
No blob of at most 65535 records (each at least eight bytes long, its size
field holding its length) with the terminator in place makes `decodeTree`
raise `CorruptRevisionData`, whatever its size fields and revIDLen are. -/
theorem decodeTree_short_record :
    (rawSize [0, 0, 0, 9, 255, 255, 0, 1, 97, 0, 0, 0, 0] = 9 ∧
      rawRevIDLen [0, 0, 0, 9, 255, 255, 0, 1, 97, 0, 0, 0, 0] = 1 ∧
      RawRevision.decodeTree sampleFlags [0, 0, 0, 9, 255, 255, 0, 1, 97, 0, 0, 0, 0] 7 =
        .ok [{ revID := [97], flags := 0, parent := none, sequence := 7, body := none }]) ∧
    RawRevision.decodeTree sampleFlags
      [0, 0, 0, 8, 255, 255, 0, 3, 0, 0, 0, 9, 255, 255, 0, 0, 1, 0, 0, 0, 0] 7 =
      .ok [{ revID := [0, 0, 0], flags := 0, parent := none, sequence := 9, body := none },
           { revID := [], flags := 0, parent := none, sequence := 1, body := none }] ∧
    (rawSize [0, 0, 0, 8, 255, 255, 128, 200, 0, 0, 0, 0] = 8 ∧
      rawRevIDLen [0, 0, 0, 8, 255, 255, 128, 200, 0, 0, 0, 0] = 200 ∧
      RawRevision.decodeTree sampleFlags [0, 0, 0, 8, 255, 255, 128, 200, 0, 0, 0, 0] 7 =
        .outOfBounds) ∧
    (∀ (k : RawRevFlags) (curSeq : Nat) (records : List (List Nat)),
      IsRecords records → records.length ≤ 65535 →
      RawRevision.decodeTree k (records.flatten ++ [0, 0, 0, 0]) curSeq ≠
        CorruptRevisionData) := by
  refine ⟨by decide, by decide, by decide, ?_⟩
  intro k curSeq records hrec hc
  rcases decodeTree_records_not_corrupt k curSeq records hrec hc with h | ⟨revs, h, -⟩
  · rw [h]
    intro hn
    cases hn
  · rw [h]
    intro hn
    cases hn

/-! ## Flags on the wire -/

theorem clearFlags_and_within (f m h : Nat) (hsub : h &&& m = h) :
    clearFlags f m &&& h = 0 := by
  apply Nat.eq_of_testBit_eq
  intro i
  have := congrArg (fun x => x.testBit i) hsub
  simp only [Nat.testBit_land] at this
  rw [Nat.testBit_land, clearFlags_testBit, Nat.zero_testBit]
  cases hf : f.testBit i <;> cases hh : h.testBit i <;> cases hm : m.testBit i <;> simp_all

theorem dstFlags_nonPersistent (k : RawRevFlags) (hk : RawRevFlags.Valid k) (rev : Rev) :
    RawRevision.dstFlags k rev &&& k.kNonPersistentFlags = 0 := by
  obtain ⟨-, -, -, -, -, hdis⟩ := hk
  unfold RawRevision.dstFlags
  cases rev.body with
  | none => exact clearFlags_and_mask _ _
  | some b =>
    simp only [Option.isSome_some, if_true]
    rw [or_and_disjoint _ _ _ hdis]
    exact clearFlags_and_mask _ _

/-- C19 (as stated, refuted). `copyFrom` clears the non-persistent flags and
sets `hasData` for a rev with a body, but it never clears `hasData`: for a rev
without body whose in-memory flags byte has the bit 0x80, the flags byte
written contains `hasData`. -/
theorem copyFrom_keeps_hasData :
    RawRevFlags.Valid sampleFlags ∧
    (({ revID := [49, 45, 97], flags := 128, parent := none, sequence := 1,
        body := none } : Rev).body.isSome = false) ∧
    rawFlags (RawRevision.copyFrom sampleFlags
      { revID := [49, 45, 97], flags := 128, parent := none, sequence := 1,
        body := none }) = 128 ∧
    rawFlags (RawRevision.copyFrom sampleFlags
      { revID := [49, 45, 97], flags := 128, parent := none, sequence := 1,
        body := none }) &&& sampleFlags.kHasData ≠ 0 := by
  decide

/-- C19 (amended). For every rev whose in-memory flags do not carry the
wire-only bit, the flags byte that `copyFrom` writes contains none of the
non-persistent flag bits, and contains `hasData` if and only if the rev has a
body; the flags that `copyTo` gives a rev contain no persistent-only bit, so
no decoded rev carries `hasData`. In rev_tree.c the flags byte written has
`hasData` if and only if the node has data, and the decoded flags are the
leaf and deleted bits of the flags byte and nothing else. -/
theorem flags_on_the_wire (k : RawRevFlags) (hk : RawRevFlags.Valid k) (rev : Rev)
    (hmem : rev.flags &&& k.kHasData = 0) :
    rawFlags (RawRevision.copyFrom k rev) &&& k.kNonPersistentFlags = 0 ∧
    (rawFlags (RawRevision.copyFrom k rev) &&& k.kHasData ≠ 0 ↔ rev.body.isSome = true) ∧
    (∀ (rawRev : List Nat) (count : Nat) (decoded : Rev),
      RawRevision.copyTo k rawRev count = .ok decoded →
      decoded.flags &&& k.kPersistentOnlyFlags = 0 ∧ decoded.flags &&& k.kHasData = 0) ∧
    (∀ node : RevNode,
      (rawFlags (encodeRawNode node) &&& kRevNodeHasData ≠ 0 ↔ node.data.length > 0) ∧
      rawFlags (encodeRawNode node) &&& kRevNodePublicFlags =
        node.flags &&& kRevNodePublicFlags) ∧
    (∀ rawNode, (nodeFromRawNode rawNode).flags &&& kRevNodeHasData = 0 ∧
      (nodeFromRawNode rawNode).flags =
        rawFlags rawNode &&& (kRevNodeIsLeaf ||| kRevNodeIsDeleted) ∧
      (nodeFromRawNode rawNode).flags ≤ 3) := by
  have hfl : rawFlags (RawRevision.copyFrom k rev) = RawRevision.dstFlags k rev := by
    rw [copyFrom_eq]
    simp [rawFlags, htonl]
  rw [hfl]
  refine ⟨dstFlags_nonPersistent k hk rev, dstFlags_hasData k hk rev hmem, ?_, ?_, ?_⟩
  · intro rawRev count decoded hdec
    have hflags : decoded.flags = clearFlags (rawFlags rawRev) k.kPersistentOnlyFlags := by
      unfold RawRevision.copyTo at hdec
      simp only [] at hdec
      split_ifs at hdec <;> cases hdec <;> rfl
    rw [hflags]
    exact ⟨clearFlags_and_mask _ _, clearFlags_and_within _ _ _ hk.2.2.2.2.1⟩
  · intro node
    have hfn : rawFlags (encodeRawNode node) =
        (node.flags &&& kRevNodePublicFlags) |||
          (if node.data.length > 0 then kRevNodeHasData else 0) := by
      rw [encodeRawNode_eq]
      simp [rawFlags, htonl]
    rw [hfn]
    exact encoded_flags node.flags (node.data.length > 0)
  · intro rawNode
    have h3 : rawFlags rawNode &&& kRevNodePublicFlags ≤ 3 := Nat.and_le_right
    refine ⟨?_, rfl, h3⟩
    show rawFlags rawNode &&& kRevNodePublicFlags &&& kRevNodeHasData = 0
    rw [Nat.land_assoc]
    have e : kRevNodePublicFlags &&& kRevNodeHasData = 0 := by decide
    rw [e, Nat.and_zero]

/-- Witness for C19: the new leaf "2-b" of the encoding scenario, whose flags
leaf and new are written as leaf and `hasData`. -/
theorem flags_on_the_wire_witness :
    RawRevFlags.Valid sampleFlags ∧ (6 : Nat) &&& sampleFlags.kHasData = 0 ∧
    rawFlags (RawRevision.copyFrom sampleFlags
      { revID := [50, 45, 98], flags := 6, parent := some 0, sequence := 0,
        body := some [121, 122] }) = 130 ∧
    rawFlags (RawRevision.copyFrom sampleFlags
      { revID := [50, 45, 98], flags := 6, parent := some 0, sequence := 0,
        body := some [121, 122] }) &&& sampleFlags.kNonPersistentFlags = 0 :=
  ⟨by decide, by decide, by decide,
    (flags_on_the_wire sampleFlags (by decide)
      { revID := [50, 45, 98], flags := 6, parent := some 0, sequence := 0,
        body := some [121, 122] } (by decide)).1⟩

/-! ## Reading a packed tree in place -/

theorem memcmp_take (a b : List Nat) (n : Nat) : memcmp a (b.take n) n = memcmp a b n := by
  induction n generalizing a b with
  | zero => simp [memcmp]
  | succ n ih =>
    cases a with
    | nil => simp [memcmp]
    | cons x xs =>
      cases b with
      | nil => simp [memcmp]
      | cons y ys =>
        simp only [List.take_succ_cons, memcmp, ih]

/-- On the records of a well-formed blob the in-place search finds what the
search of the decoded nodes finds. -/
theorem rawFindNodeLoop_records (revID : sized_buf) (records : List (List Nat))
    (hrec : ∀ rec ∈ records, 8 + rawRevIDLen rec ≤ rec.length ∧ rawSize rec = rec.length)
    (fuel : Nat) (hfuel : records.length < fuel) :
    rawFindNodeLoop fuel (records.flatten ++ [0, 0, 0, 0]) revID =
      .ok (((recordPointers records [0, 0, 0, 0]).map nodeFromRawNode).find? (fun node =>
        decide (revID.length = node.revID.length) &&
          decide (memcmp revID node.revID revID.length = 0))) := by
  induction records generalizing fuel with
  | nil =>
    cases fuel with
    | zero => omega
    | succ f => simp [rawFindNodeLoop, validRawNode, rawSize, recordPointers]
  | cons rec rest ih =>
    cases fuel with
    | zero => omega
    | succ f =>
      obtain ⟨hid, hsz⟩ := hrec rec (List.mem_cons_self _ _)
      have ih1 := ih (fun x hx => hrec x (List.mem_cons_of_mem _ hx)) f
        (by simp only [List.length_cons] at hfuel; omega)
      have hflat : (rec :: rest).flatten ++ [0, 0, 0, 0] =
          rec ++ (rest.flatten ++ [0, 0, 0, 0]) := by simp
      rw [hflat]
      have h8 : 8 ≤ rec.length := by omega
      have hsize : rawSize (rec ++ (rest.flatten ++ [0, 0, 0, 0])) = rec.length := by
        rw [rawSize_append _ _ (by omega), hsz]
      have hv : validRawNode (rec ++ (rest.flatten ++ [0, 0, 0, 0])) = true := by
        simp only [validRawNode, hsize, gt_iff_lt, decide_eq_true_eq]
        omega
      have hn : nextRawNode (rec ++ (rest.flatten ++ [0, 0, 0, 0])) =
          rest.flatten ++ [0, 0, 0, 0] := by
        unfold nextRawNode
        rw [hsize, List.drop_left]
      have hlen : (rec ++ (rest.flatten ++ [0, 0, 0, 0])).length =
          rec.length + (rest.flatten ++ [0, 0, 0, 0]).length := List.length_append _ _
      have h4 : ¬ (rec ++ (rest.flatten ++ [0, 0, 0, 0])).length < 4 := by omega
      have h8n : ¬ (rec ++ (rest.flatten ++ [0, 0, 0, 0])).length < 8 := by omega
      have hidl := (rawHeader_append rec (rest.flatten ++ [0, 0, 0, 0]) h8).2.2
      have hnodeId : (nodeFromRawNode (rec ++ (rest.flatten ++ [0, 0, 0, 0]))).revID =
          ((rec ++ (rest.flatten ++ [0, 0, 0, 0])).drop 8).take (rawRevIDLen rec) := by
        simp only [nodeFromRawNode, hidl]
      have hnodeLen : (nodeFromRawNode (rec ++ (rest.flatten ++ [0, 0, 0, 0]))).revID.length =
          rawRevIDLen rec := by
        rw [hnodeId, List.length_take, List.length_drop, hlen]
        omega
      rw [rawFindNodeLoop]
      simp only [h4, h8n, if_false, hv, not_true_eq_false, hn, hidl, recordPointers,
        List.map_cons, List.find?_cons, hnodeLen]
      by_cases hlenEq : revID.length = rawRevIDLen rec
      · have hin : ¬ (rec ++ (rest.flatten ++ [0, 0, 0, 0])).length < 8 + revID.length := by
          omega
        have hcmp : memcmp revID (nodeFromRawNode (rec ++ (rest.flatten ++ [0, 0, 0, 0]))).revID
            revID.length =
            memcmp revID ((rec ++ (rest.flatten ++ [0, 0, 0, 0])).drop 8) revID.length := by
          rw [hnodeId, ← hlenEq, memcmp_take]
        rw [hcmp]
        simp only [hlenEq, if_true, decide_True, Bool.true_and]
        rw [← hlenEq]
        simp only [hin, if_false]
        by_cases hm : memcmp revID ((rec ++ (rest.flatten ++ [0, 0, 0, 0])).drop 8)
            revID.length = 0
        · simp [hm]
        · simp only [hm, if_false, decide_False]
          exact ih1
      · simp only [hlenEq, if_false, decide_False, Bool.false_and]
        exact ih1

/-- C20. The packed encoding can be read in place: for every well-formed
packed blob `b` and every revID `r`, `RevTreeDecode b 0` yields a tree, and
`RevTreeRawFindNode b r` returns what `RevTreeFindNode` finds in that tree: it
succeeds if and only if `RevTreeFindNode` finds a rev, and then both yield
the same rev (revID, flags, parentIndex and body). -/
theorem RevTreeRawFindNode_eq_decoded (b : sized_buf) (r : sized_buf)
    (hwf : WellFormedBlob b) :
    ∃ tree, RevTreeDecode b 0 = .ok tree ∧
      RevTreeRawFindNode b r = .ok (RevTreeFindNode tree r) ∧
      (∀ node, RevTreeRawFindNode b r = .ok (some node) ↔
        RevTreeFindNode tree r = some node) ∧
      (RevTreeRawFindNode b r = .ok none ↔ RevTreeFindNode tree r = none) := by
  obtain ⟨records, rfl, hc, hrec⟩ := hwf
  have hrec2 : IsRecords records := fun rec h => ⟨by have := (hrec rec h).1; omega,
    (hrec rec h).2⟩
  have hd := RevTreeDecode_records 0 records [0, 0, 0, 0] hrec2 (by decide) (by decide)
  have hcap : (records.length + 0) % 2 ^ 32 = records.length := by
    rw [Nat.add_zero]
    exact Nat.mod_eq_of_lt (by norm_num; omega)
  rw [hcap, if_neg (by omega), if_neg (by decide)] at hd
  have hf := rawFindNodeLoop_records r records hrec
    ((records.flatten ++ [0, 0, 0, 0]).length + 1)
    (Nat.lt_succ_of_le (length_le_flatten records _ hrec2))
  have heq : RevTreeRawFindNode (records.flatten ++ [0, 0, 0, 0]) r =
      .ok (RevTreeFindNode (RevTree.mk records.length true
        ((recordPointers records [0, 0, 0, 0]).map nodeFromRawNode)) r) := hf
  refine ⟨_, hd, heq, ?_, ?_⟩
  · intro node
    rw [heq]
    constructor
    · intro h; injection h
    · intro h; rw [h]
  · rw [heq]
    constructor
    · intro h; injection h
    · intro h; rw [h]

theorem RevTreeRawFindNode_eq_decoded_witness :
    WellFormedBlob unsortedBlob ∧
    ∃ tree, RevTreeDecode unsortedBlob 0 = .ok tree ∧
      RevTreeRawFindNode unsortedBlob [50, 45, 98] =
        .ok (RevTreeFindNode tree [50, 45, 98]) ∧
      (∀ node, RevTreeRawFindNode unsortedBlob [50, 45, 98] = .ok (some node) ↔
        RevTreeFindNode tree [50, 45, 98] = some node) ∧
      (RevTreeRawFindNode unsortedBlob [50, 45, 98] = .ok none ↔
        RevTreeFindNode tree [50, 45, 98] = none) :=
  have hwf : WellFormedBlob unsortedBlob :=
    ⟨[[0, 0, 0, 11, 255, 255, 0, 3, 49, 45, 97], [0, 0, 0, 11, 0, 0, 2, 3, 50, 45, 98]],
      by decide, by decide, by decide⟩
  ⟨hwf, RevTreeRawFindNode_eq_decoded unsortedBlob [50, 45, 98] hwf⟩

/-! ## Invariants of the trees that can be built -/

theorem mem_modify {α : Type} (f : α → α) (l : List α) (p : Nat) (a : α)
    (h : a ∈ l.modify f p) : a ∈ l ∨ ∃ x, l[p]? = some x ∧ a = f x := by
  obtain ⟨i, hi⟩ := List.mem_iff_getElem?.1 h
  rw [List.getElem?_modify] at hi
  cases hl : l[i]? with
  | none => simp [hl] at hi
  | some x =>
    by_cases hpi : p = i
    · subst hpi
      simp only [hl, if_true, Option.map_eq_map, Option.map_some', Option.some.injEq] at hi
      exact Or.inr ⟨x, hl, hi.symm⟩
    · simp only [hl, hpi, if_false, Option.map_eq_map, Option.map_some',
        Option.some.injEq] at hi
      subst hi
      exact Or.inl (List.getElem?_mem hl)

/-- What `RevTreeInsert` leaves in the array: the old revs, the parent with
its leaf bit cleared, and the new rev, which is a leaf. -/
theorem RevTreeInsert_mem (t t' : RevTree) (revID data : sized_buf) (parentNode : Option Nat)
    (deleted : Bool) (h : RevTreeInsert t revID data parentNode deleted = some t')
    (n : RevNode) (hn : n ∈ t'.node) :
    n ∈ t.node ∨
    (∃ index parent, parentNode = some index ∧ t.node[index]? = some parent ∧
      n = clearLeaf parent) ∨
    (nodeIsLeaf n = true ∧ nodeIsDeleted n = deleted) := by
  by_cases hcap : t.count < t.capacity
  · cases parentNode with
    | none =>
      rw [RevTreeInsert_none t revID data deleted hcap] at h
      simp only [Option.some.injEq] at h
      subst h
      simp only [List.mem_append, List.mem_singleton] at hn
      rcases hn with hn | hn
      · exact Or.inl hn
      · subst hn
        exact Or.inr (Or.inr ⟨newFlags_leaf deleted, newFlags_deleted deleted⟩)
    | some p =>
      by_cases hp : p < t.count
      · rw [RevTreeInsert_some t revID data p deleted hcap hp] at h
        simp only [Option.some.injEq] at h
        subst h
        simp only [List.mem_append, List.mem_singleton] at hn
        rcases hn with hn | hn
        · rcases mem_modify _ _ _ _ hn with h1 | ⟨x, hx, rfl⟩
          · exact Or.inl h1
          · exact Or.inr (Or.inl ⟨p, x, rfl, hx, rfl⟩)
        · subst hn
          exact Or.inr (Or.inr ⟨newFlags_leaf deleted, newFlags_deleted deleted⟩)
      · simp [RevTreeInsert, hcap] at h
        exact absurd h.1 hp
  · simp [RevTreeInsert, hcap] at h

/-- C21 (as stated, refuted). Inserting the deleted root "1-a" into
`RevTreeNew(2)` and then "2-b" under it leaves "1-a" with the deleted flag
and without the leaf flag: `RevTreeInsert` clears only the leaf bit of the
parent. -/
theorem RevTreeInsert_deleted_interior :
    RevTreeInsert (RevTreeNew 2) [49, 45, 97] [] none true = some deletedRootTree ∧
    RevTreeInsert deletedRootTree [50, 45, 98] [] (some 0) false = some deletedInteriorTree ∧
    ∃ n ∈ deletedInteriorTree.node, nodeIsDeleted n = true ∧ nodeIsLeaf n = false := by
  decide

/-- C21 (amended). Every tree built from an empty tree by a sequence of
`RevTreeInsert` calls none of which names a deleted rev as the parent
satisfies: every rev with the deleted flag also has the leaf flag. -/
theorem deleted_implies_leaf (t : RevTree) (h : InsertedUnderLive t) :
    ∀ n ∈ t.node, nodeIsDeleted n = true → nodeIsLeaf n = true := by
  induction h with
  | new capacity =>
    intro n hn
    simp [RevTreeNew] at hn
  | insert revID data parentNode deleted _ hlive hins ih =>
    intro n hn hdel
    rcases RevTreeInsert_mem _ _ revID data parentNode deleted hins n hn with
      h1 | ⟨index, parent, hp, hget, rfl⟩ | ⟨hleaf, -⟩
    · exact ih n h1 hdel
    · rw [clearLeaf_deleted, hlive index parent hp hget] at hdel
      cases hdel
    · exact hleaf

theorem deleted_implies_leaf_witness :
    InsertedUnderLive tombstoneTree ∧
    ∀ n ∈ tombstoneTree.node, nodeIsDeleted n = true → nodeIsLeaf n = true :=
  have hbuilt : InsertedUnderLive tombstoneTree :=
    .insert [50, 45, 98] [] (some 0) true
      (.insert [49, 45, 97] [] none false (.new 3)
        (fun _ _ h => by cases h) (by decide : _ = some rootTree3))
      (fun index parent h1 h2 => by
        cases h1
        have : parent = { revID := [49, 45, 97], data := [], parentIndex := 65535, flags := 2 } := by
          simpa [rootTree3] using h2.symm
        subst this
        decide)
      (by decide)
  ⟨hbuilt, deleted_implies_leaf tombstoneTree hbuilt⟩

/-- The array that `qsort` leaves is in comparator order when the comparator
is transitive on the revs. -/
theorem qsort_inOrder (qsort : (RevNode → RevNode → Int) → List RevNode → List RevNode)
    (hq : QsortSpec qsort) (nodes : List RevNode) (htrans : TransOn nodes) :
    InOrder (qsort compareNodes (tagNodes nodes)) := by
  obtain ⟨hperm, hchain⟩ := hq (tagNodes nodes)
  unfold InOrder
  refine List.Pairwise.imp_of_mem ?_ hchain
  intro a b ha _ hab
  exact (chain_le_of_transOn (TransOn_tagNodes htrans) (hperm.mem_iff.1 ha) hab).2

/-- C22 (as stated, refuted). In the linear scenario the sort puts the leaf
"2-b" at index 0 and its parent "1-a" at index 1: the parentIndex of "2-b" is
1, which is not less than its own index 0. -/
theorem RevTreeSort_parent_after_child :
    RevTreeSort insertionQsort linearTree = some linearTreeSorted ∧
    ∃ (i : Nat) (n : RevNode), linearTreeSorted.node[i]? = some n ∧
      n.parentIndex ≠ kRevNodeParentIndexNone ∧ ¬ n.parentIndex < i :=
  ⟨by decide, 0, { revID := [50, 45, 98], data := [], parentIndex := 1, flags := 2 }, rfl,
    by decide, by decide⟩

/-- C22 (amended). For every tree of at most 65535 revs on which the
comparator is transitive, whose array is in comparator order if its sorted
flag is already set, and in which every rev with a parent compares before
that parent (as a leaf does against an interior rev): after `RevTreeSort`
every rev that has a parent has a parentIndex strictly greater than its own
index, and below the count. Children come before their parents. -/
theorem RevTreeSort_child_before_parent
    (qsort : (RevNode → RevNode → Int) → List RevNode → List RevNode)
    (hq : QsortSpec qsort) (tree : RevTree) (hc : tree.count ≤ 65535)
    (htrans : TransOn tree.node) (hs : OrderedWhenSorted tree)
    (hchild : ∀ child ∈ tree.node, child.parentIndex ≠ kRevNodeParentIndexNone →
      ∃ parent, tree.node[child.parentIndex]? = some parent ∧
        compareNodes child parent < 0) :
    ∃ t', RevTreeSort qsort tree = some t' ∧
      ∀ (i : Nat) (n : RevNode), t'.node[i]? = some n →
        n.parentIndex ≠ kRevNodeParentIndexNone →
        i < n.parentIndex ∧ n.parentIndex < t'.count := by
  cases hsrt : tree.sorted with
  | true =>
    refine ⟨tree, RevTreeSort_sorted qsort tree hsrt, ?_⟩
    intro i n hi hpar
    have hmem : n ∈ tree.node := List.getElem?_mem hi
    obtain ⟨parent, hp, hlt⟩ := hchild n hmem hpar
    obtain ⟨hi1, hi2⟩ := List.getElem?_eq_some_iff.1 hi
    obtain ⟨hp1, hp2⟩ := List.getElem?_eq_some_iff.1 hp
    have hgt : 0 < compareNodes tree.node[n.parentIndex] tree.node[i] := by
      rw [hi2, hp2, compareNodes_neg]
      omega
    exact ⟨not_before (hs hsrt) hp1 hi1 hgt, hp1⟩
  | false =>
    have hperm := (hq (tagNodes tree.node)).1
    have hord := qsort_inOrder qsort hq tree.node htrans
    have hlen : (qsort compareNodes (tagNodes tree.node)).length = tree.node.length := by
      rw [hperm.length_eq, tagNodes_length]
    refine ⟨_, RevTreeSort_unsorted qsort tree hsrt hc, ?_⟩
    intro i n hi hpar
    simp only [fixParents, List.getElem?_map, Option.map_eq_some'] at hi
    obtain ⟨x, hx, hn⟩ := hi
    obtain ⟨hi1, hi2⟩ := List.getElem?_eq_some_iff.1 hx
    obtain ⟨k, hk, hxk⟩ := mem_tagNodes (hperm.mem_iff.1 (List.getElem?_mem hx))
    have hold : (List.map (fun node => node.parentIndex) tree.node).getD x.parentIndex 0 =
        tree.node[k].parentIndex := by
      rw [hxk]
      simp [List.getD_eq_getElem?_getD, hk]
    rw [hold] at hn
    have hpk : tree.node[k].parentIndex ≠ kRevNodeParentIndexNone := by
      intro hnone
      apply hpar
      rw [← hn]
      simp only [hnone, ne_eq, not_true_eq_false, if_false]
    obtain ⟨parent, hp, hlt⟩ := hchild _ (List.getElem_mem hk) hpk
    obtain ⟨hp1, hp2⟩ := List.getElem?_eq_some_iff.1 hp
    obtain ⟨j, hj, hsj, hjk⟩ := sort_index tree.node _ hperm _ hp1
    obtain ⟨hj1, hj2⟩ := List.getElem?_eq_some_iff.1 hsj
    have hnp : n.parentIndex = j := by
      rw [← hn]
      simp only [hpk, ne_eq, not_false_eq_true, if_true]
      exact hjk
    have e1 : compareNodes (qsort compareNodes (tagNodes tree.node))[j]
        (qsort compareNodes (tagNodes tree.node))[i] =
        compareNodes tree.node[tree.node[k].parentIndex] tree.node[k] := by
      rw [hj2, hi2, hxk]
      exact compareNodes_congr rfl rfl
    have hgt : 0 < compareNodes (qsort compareNodes (tagNodes tree.node))[j]
        (qsort compareNodes (tagNodes tree.node))[i] := by
      rw [e1, hp2, compareNodes_neg]
      omega
    have hij := not_before hord hj1 hi1 hgt
    rw [hnp]
    refine ⟨hij, ?_⟩
    simp only [RevTree.count, fixParents, List.length_map, hlen]
    exact hj

theorem RevTreeSort_child_before_parent_witness :
    ∃ t', RevTreeSort insertionQsort conflictTree = some t' ∧
      ∀ (i : Nat) (n : RevNode), t'.node[i]? = some n →
        n.parentIndex ≠ kRevNodeParentIndexNone →
        i < n.parentIndex ∧ n.parentIndex < t'.count :=
  RevTreeSort_child_before_parent insertionQsort insertionQsort_spec conflictTree (by decide)
    (AllProper.transOn (by unfold AllProper; decide)) (by intro h; cases h) (by decide)

/-! ## Capacity and count -/

theorem reserveLoop_none_iff (fuel capacity capacityNeeded : Nat) :
    reserveLoop fuel capacity capacityNeeded = none ↔
      ∀ i, 1 ≤ i → i ≤ fuel → capacity * 2 ^ i % 2 ^ 32 < capacityNeeded := by
  induction fuel generalizing capacity with
  | zero =>
    simp only [reserveLoop, true_iff]
    intro i h1 h2
    omega
  | succ f ih =>
    have hstep : ∀ i, capacity * 2 % 2 ^ 32 * 2 ^ i % 2 ^ 32 =
        capacity * 2 ^ (i + 1) % 2 ^ 32 := by
      intro i
      rw [Nat.mod_mul_mod]
      congr 1
      rw [pow_succ]
      ring
    rw [reserveLoop]
    by_cases hlt : capacity * 2 % 2 ^ 32 < capacityNeeded
    · simp only [hlt, if_true, ih]
      constructor
      · intro h i h1 h2
        rcases Nat.eq_or_lt_of_le h1 with he | hgt
        · subst he
          simpa using hlt
        · have := h (i - 1) (by omega) (by omega)
          rw [hstep] at this
          have e : i - 1 + 1 = i := by omega
          rwa [e] at this
      · intro h i h1 h2
        rw [hstep]
        exact h (i + 1) (by omega) (by omega)
    · simp only [hlt, if_false]
      constructor
      · intro h
        cases h
      · intro h
        have := h 1 (by omega) (by omega)
        simp only [pow_one] at this
        exact absurd this hlt

/-- A loop of `RevTreeReserveCapacity` that has not exited after 33 rounds
never exits. -/
theorem reserveLoop_fuel (capacity capacityNeeded : Nat)
    (h : reserveLoop 33 capacity capacityNeeded = none) (fuel : Nat) :
    reserveLoop fuel capacity capacityNeeded = none := by
  rw [reserveLoop_none_iff] at h ⊢
  intro i h1 _
  by_cases hi : i ≤ 33
  · exact h i h1 hi
  · have h32 := h 32 (by omega) (by omega)
    have e : capacity * 2 ^ i = capacity * 2 ^ (i - 32) * 2 ^ 32 := by
      rw [Nat.mul_assoc, ← pow_add]
      congr 2
      omega
    rw [e, Nat.mul_mod_left]
    have e32 : capacity * 2 ^ 32 % 2 ^ 32 = 0 := Nat.mul_mod_left _ _
    omega

theorem reserveLoop_some (fuel capacity capacityNeeded result : Nat)
    (h : reserveLoop fuel capacity capacityNeeded = some result) :
    capacityNeeded ≤ result := by
  induction fuel generalizing capacity with
  | zero => simp [reserveLoop] at h
  | succ f ih =>
    rw [reserveLoop] at h
    by_cases hlt : capacity * 2 % 2 ^ 32 < capacityNeeded
    · simp only [hlt, if_true] at h
      exact ih _ h
    · simp only [hlt, if_false, Option.some.injEq] at h
      omega

theorem RevTreeReserveCapacity_some (t t' : RevTree) (extraCapacity : Nat)
    (h : RevTreeReserveCapacity t extraCapacity = some t') :
    t'.node = t.node ∧ t'.sorted = t.sorted ∧ t.capacity ≤ t'.capacity ∧
      (t.count + extraCapacity) % 2 ^ 32 ≤ t'.capacity := by
  unfold RevTreeReserveCapacity at h
  by_cases hle : (t.count + extraCapacity) % 2 ^ 32 ≤ t.capacity
  · simp only [hle, if_true, Option.some.injEq] at h
    subst h
    exact ⟨rfl, rfl, le_refl _, hle⟩
  · simp only [hle, if_false, Option.map_eq_some'] at h
    obtain ⟨c, hc, rfl⟩ := h
    have := reserveLoop_some _ _ _ _ hc
    exact ⟨rfl, rfl, by simp only; omega, this⟩

theorem RevTreeInsert_count (t t' : RevTree) (revID data : sized_buf)
    (parentNode : Option Nat) (deleted : Bool)
    (h : RevTreeInsert t revID data parentNode deleted = some t') :
    t.count < t.capacity ∧ t'.count = t.count + 1 ∧ t'.capacity = t.capacity := by
  by_cases hcap : t.count < t.capacity
  · refine ⟨hcap, ?_⟩
    cases parentNode with
    | none =>
      rw [RevTreeInsert_none t revID data deleted hcap] at h
      simp only [Option.some.injEq] at h
      subst h
      simp [RevTree.count]
    | some p =>
      by_cases hp : p < t.count
      · rw [RevTreeInsert_some t revID data p deleted hcap hp] at h
        simp only [Option.some.injEq] at h
        subst h
        simp [RevTree.count]
      · simp [RevTreeInsert, hcap] at h
        exact absurd h.1 hp
  · simp [RevTreeInsert, hcap] at h

theorem SequenceSet.contains_of_empty (set : SequenceSet) (h : set.empty = true)
    (s : alloc_slice) : set.contains s = false := by
  unfold SequenceSet.empty at h
  unfold SequenceSet.contains
  rw [List.all_eq_true] at h
  rw [List.any_eq_false]
  intro e he
  have := h e he
  simp only [Bool.not_eq_true', Bool.not_eq_eq_eq_not, Bool.not_true] at this
  simp [this]

theorem SequenceSet.size_of_empty (set : SequenceSet) (h : set.empty = true) :
    set.size = 0 := by
  unfold SequenceSet.empty at h
  unfold SequenceSet.size
  rw [List.all_eq_true] at h
  rw [List.length_eq_zero, List.filter_eq_nil_iff]
  intro e he
  have := h e he
  simpa using this

/-- C24. `computeActivityLevel` returns busy if and only if the base level is
busy, or the puller is non-passive and not caught up, or `requestedSequences`
is not empty, or `pendingCallbacks > 0`; otherwise it returns idle if the
pull is continuous or the puller is an open server, and stopped in every
remaining case. -/
theorem computeActivityLevel_rule (p : Puller) :
    (p.computeActivityLevel = .kBusy ↔
      (p.baseLevel = .kBusy ∨ (p.nonPassive = true ∧ p.caughtUp = false) ∨
        p.requestedSequences.empty = false ∨ p.pendingCallbacks > 0)) ∧
    (p.computeActivityLevel ≠ .kBusy →
      ((p.continuous = true ∨ p.isOpenServer = true) → p.computeActivityLevel = .kIdle) ∧
      (¬ (p.continuous = true ∨ p.isOpenServer = true) →
        p.computeActivityLevel = .kStopped)) := by
  unfold Puller.computeActivityLevel
  by_cases hb : p.baseLevel = .kBusy ∨ (p.caughtUp = false ∧ p.nonPassive = true) ∨
      p.requestedSequences.empty = false ∨ p.pendingCallbacks > 0
  · rw [if_pos hb]
    refine ⟨⟨fun _ => ?_, fun _ => rfl⟩, fun h => absurd rfl h⟩
    rcases hb with h | ⟨h1, h2⟩ | h | h
    · exact Or.inl h
    · exact Or.inr (Or.inl ⟨h2, h1⟩)
    · exact Or.inr (Or.inr (Or.inl h))
    · exact Or.inr (Or.inr (Or.inr h))
  · rw [if_neg hb]
    refine ⟨⟨fun h => ?_, fun h => ?_⟩, fun _ => ⟨fun hc => ?_, fun hc => ?_⟩⟩
    · split_ifs at h
    · exfalso
      apply hb
      rcases h with h | ⟨h1, h2⟩ | h | h
      · exact Or.inl h
      · exact Or.inr (Or.inl ⟨h2, h1⟩)
      · exact Or.inr (Or.inr (Or.inl h))
      · exact Or.inr (Or.inr (Or.inr h))
    · rw [if_pos hc]
    · rw [if_neg hc]

/-- C25. In every state in which `computeActivityLevel` returns idle or
stopped, `requestedSequences` is empty (its size is 0 and it contains no
sequence) and `pendingCallbacks` is 0, and an active puller has caught up. -/
theorem quiescent_puller (p : Puller)
    (h : p.computeActivityLevel = .kIdle ∨ p.computeActivityLevel = .kStopped) :
    p.requestedSequences.empty = true ∧ p.requestedSequences.size = 0 ∧
    (∀ s, p.requestedSequences.contains s = false) ∧
    p.pendingCallbacks = 0 ∧ (p.nonPassive = true → p.caughtUp = true) ∧
    p.baseLevel ≠ .kBusy := by
  have hnb : ¬ (p.baseLevel = .kBusy ∨ (p.caughtUp = false ∧ p.nonPassive = true) ∨
      p.requestedSequences.empty = false ∨ p.pendingCallbacks > 0) := by
    intro hb
    unfold Puller.computeActivityLevel at h
    rw [if_pos hb] at h
    rcases h with h | h <;> cases h
  have hempty : p.requestedSequences.empty = true := by
    cases he : p.requestedSequences.empty with
    | true => rfl
    | false => exact absurd (Or.inr (Or.inr (Or.inl he))) hnb
  refine ⟨hempty, SequenceSet.size_of_empty _ hempty,
    SequenceSet.contains_of_empty _ hempty, ?_, ?_, ?_⟩
  · by_contra hne
    exact hnb (Or.inr (Or.inr (Or.inr (Nat.pos_of_ne_zero hne))))
  · intro hact
    cases hc : p.caughtUp with
    | true => rfl
    | false => exact absurd (Or.inr (Or.inl ⟨hc, hact⟩)) hnb
  · intro hbusy
    exact hnb (Or.inl hbusy)

theorem quiescent_puller_witness :
    donePuller.computeActivityLevel = .kStopped ∧
    donePuller.requestedSequences.empty = true ∧ donePuller.requestedSequences.size = 0 ∧
    (∀ s, donePuller.requestedSequences.contains s = false) ∧
    donePuller.pendingCallbacks = 0 ∧ (donePuller.nonPassive = true → donePuller.caughtUp = true) ∧
    donePuller.baseLevel ≠ .kBusy :=
  ⟨by decide, quiescent_puller donePuller (Or.inr (by decide))⟩

/-! ## The puller: checkpoints -/

theorem takeWhile_done_map (s : alloc_slice) (l : List (alloc_slice × Bool)) :
    (l.takeWhile (fun e => !e.2)).map (fun e => e.1) <+:
      ((l.map (fun e => if e.1 = s then (e.1, false) else e)).takeWhile
        (fun e => !e.2)).map (fun e => e.1) := by
  induction l with
  | nil => exact List.prefix_refl _
  | cons e rest ih =>
    obtain ⟨x, b⟩ := e
    cases b with
    | true =>
      simp only [List.takeWhile_cons, Bool.not_true, Bool.false_eq_true, if_false, List.map_nil]
      exact List.nil_prefix
    | false =>
      by_cases hx : x = s
      · simp only [List.takeWhile_cons, List.map_cons, hx, if_true, Bool.not_false]
        exact (List.prefix_cons_inj _).2 ih
      · simp only [List.takeWhile_cons, List.map_cons, hx, if_false, Bool.not_false, if_true]
        exact (List.prefix_cons_inj _).2 ih

theorem SequenceSet.remove_completedPrefix (set : SequenceSet) (s : alloc_slice) :
    set.completedPrefix <+: (set.remove s).2.completedPrefix :=
  takeWhile_done_map s set.requested

theorem SequenceSet.remove_first (set : SequenceSet) (s : alloc_slice) :
    (set.remove s).2.first = set.first := rfl

theorem SequenceSet.remove_contains (set : SequenceSet) (s : alloc_slice) :
    (set.remove s).2.contains s = false := by
  unfold SequenceSet.remove SequenceSet.contains
  rw [List.any_eq_false]
  intro e he
  simp only [List.mem_map] at he
  obtain ⟨e0, -, rfl⟩ := he
  by_cases h : e0.1 = s
  · simp [h]
  · simp [h]

theorem pushedCheckpoints_append (a b : List Effect) :
    pushedCheckpoints (a ++ b) = pushedCheckpoints a ++ pushedCheckpoints b := by
  induction a with
  | nil => rfl
  | cons e rest ih =>
    cases e <;> simp [pushedCheckpoints, ih]

theorem chain_prefix_head {a b : List alloc_slice} {l : List (List alloc_slice)}
    (hab : a <+: b) (h : List.Chain (fun x y => x <+: y) b l) :
    List.Chain (fun x y => x <+: y) a l := by
  cases h with
  | nil => exact List.Chain.nil
  | cons h1 h2 => exact List.Chain.cons (hab.trans h1) h2

theorem markComplete_present (p : Puller) (s : alloc_slice) (ha : p.nonPassive = true)
    (hc : p.requestedSequences.contains s = true) :
    p.markComplete s =
      { p with
        requestedSequences := (p.requestedSequences.remove s).2
        lastSequence := (p.requestedSequences.remove s).2.since
        effects := p.effects ++
          [.updatePullCheckpoint (p.requestedSequences.remove s).2.since] } := by
  have hr : (p.requestedSequences.remove s).1 = true := hc
  unfold Puller.markComplete
  rw [if_pos ha]
  dsimp only
  rw [if_pos hr]

theorem markComplete_absent (p : Puller) (s : alloc_slice) (ha : p.nonPassive = true)
    (hc : p.requestedSequences.contains s = false) :
    p.markComplete s = { p with requestedSequences := (p.requestedSequences.remove s).2 } := by
  have hr : ¬ (p.requestedSequences.remove s).1 = true := by
    show ¬ p.requestedSequences.contains s = true
    rw [hc]
    exact Bool.false_ne_true
  unfold Puller.markComplete
  rw [if_pos ha]
  dsimp only
  rw [if_neg hr]

theorem markComplete_passive (p : Puller) (s : alloc_slice) (ha : ¬ p.nonPassive = true) :
    p.markComplete s = p := by
  unfold Puller.markComplete
  rw [if_neg ha]

/-- What one call of `markComplete` does. -/
theorem markComplete_step (p : Puller) (s : alloc_slice) :
    (p.markComplete s).requestedSequences.first = p.requestedSequences.first ∧
    p.requestedSequences.completedPrefix <+:
      (p.markComplete s).requestedSequences.completedPrefix ∧
    (pushedCheckpoints (p.markComplete s).effects = pushedCheckpoints p.effects ∨
      pushedCheckpoints (p.markComplete s).effects = pushedCheckpoints p.effects ++
        [(p.markComplete s).requestedSequences.completedPrefix.getLast?.getD
          p.requestedSequences.first]) := by
  by_cases ha : p.nonPassive = true
  · cases hc : p.requestedSequences.contains s with
    | true =>
      rw [markComplete_present p s ha hc]
      refine ⟨rfl, SequenceSet.remove_completedPrefix _ _, Or.inr ?_⟩
      rw [pushedCheckpoints_append]
      rfl
    | false =>
      rw [markComplete_absent p s ha hc]
      exact ⟨rfl, SequenceSet.remove_completedPrefix _ _, Or.inl rfl⟩
  · rw [markComplete_passive p s ha]
    exact ⟨rfl, List.prefix_refl _, Or.inl rfl⟩

/-- The checkpoints pushed by successive calls of `markComplete` are the ends
of completed runs of the request order, each run extending the one before. -/
theorem markCompleteAll_chain (sequences : List alloc_slice) (p : Puller) :
    ∃ prefixes : List (List alloc_slice),
      pushedCheckpoints (p.markCompleteAll sequences).effects =
        pushedCheckpoints p.effects ++
          prefixes.map (fun run => run.getLast?.getD p.requestedSequences.first) ∧
      List.Chain (fun x y => x <+: y) p.requestedSequences.completedPrefix prefixes := by
  induction sequences generalizing p with
  | nil => exact ⟨[], by simp [Puller.markCompleteAll], List.Chain.nil⟩
  | cons s rest ih =>
    obtain ⟨hfirst, hpre, hpush⟩ := markComplete_step p s
    obtain ⟨prefixes, h1, h2⟩ := ih (p.markComplete s)
    have hall : p.markCompleteAll (s :: rest) = (p.markComplete s).markCompleteAll rest := rfl
    rw [hall, h1, hfirst]
    rcases hpush with hp | hp
    · exact ⟨prefixes, by rw [hp], chain_prefix_head hpre h2⟩
    · refine ⟨(p.markComplete s).requestedSequences.completedPrefix :: prefixes, ?_,
        List.Chain.cons hpre h2⟩
      rw [hp, List.map_cons, List.append_assoc, List.singleton_append]

/-- C26. In active mode `markComplete(s)` removes `s` from
`requestedSequences`; when `s` was present it sets `lastSequence` to
`requestedSequences.since()` and pushes that value through
`updatePullCheckpoint`; when `s` was not present `lastSequence` is unchanged
and nothing is pushed; so whenever `lastSequence` changes the new value is
pushed. The checkpoints pushed by successive calls are the ends of completed
runs of the request order, each run extending the one before: they never
decrease. -/
theorem markComplete_checkpoint (p : Puller) (hactive : p.nonPassive = true)
    (s : alloc_slice) :
    (p.markComplete s).requestedSequences = (p.requestedSequences.remove s).2 ∧
    (p.markComplete s).requestedSequences.contains s = false ∧
    (p.requestedSequences.contains s = true →
      (p.markComplete s).lastSequence = (p.markComplete s).requestedSequences.since ∧
      (p.markComplete s).effects =
        p.effects ++ [.updatePullCheckpoint (p.markComplete s).lastSequence]) ∧
    (p.requestedSequences.contains s = false →
      (p.markComplete s).lastSequence = p.lastSequence ∧
      (p.markComplete s).effects = p.effects) ∧
    ((p.markComplete s).lastSequence ≠ p.lastSequence →
      (p.markComplete s).effects =
        p.effects ++ [.updatePullCheckpoint (p.markComplete s).lastSequence]) ∧
    (∀ sequences : List alloc_slice, ∃ prefixes : List (List alloc_slice),
      pushedCheckpoints (p.markCompleteAll sequences).effects =
        pushedCheckpoints p.effects ++
          prefixes.map (fun run => run.getLast?.getD p.requestedSequences.first) ∧
      List.Chain (fun x y => x <+: y) p.requestedSequences.completedPrefix prefixes) := by
  cases hc : p.requestedSequences.contains s with
  | true =>
    rw [markComplete_present p s hactive hc]
    exact ⟨rfl, SequenceSet.remove_contains _ _, fun _ => ⟨rfl, rfl⟩, fun h => (by cases h),
      fun _ => rfl, fun sequences => markCompleteAll_chain sequences p⟩
  | false =>
    rw [markComplete_absent p s hactive hc]
    exact ⟨rfl, SequenceSet.remove_contains _ _, fun h => (by cases h), fun _ => ⟨rfl, rfl⟩,
      fun h => absurd rfl h, fun sequences => markCompleteAll_chain sequences p⟩

theorem markComplete_checkpoint_witness :
    activePuller.nonPassive = true ∧
    activePuller.requestedSequences.contains (some [115, 49]) = true ∧
    (activePuller.markComplete (some [115, 49])).lastSequence = some [115, 49] ∧
    (activePuller.markComplete (some [115, 49])).effects =
      [.updatePullCheckpoint (some [115, 49])] ∧
    pushedCheckpoints (activePuller.markCompleteAll
      [some [115, 50], some [115, 49], some [115, 51]]).effects =
      [some [], some [115, 50], some [115, 51]] ∧
    ((activePuller.markComplete (some [115, 49])).lastSequence ≠ activePuller.lastSequence →
      (activePuller.markComplete (some [115, 49])).effects =
        activePuller.effects ++
          [.updatePullCheckpoint (activePuller.markComplete (some [115, 49])).lastSequence]) :=
  ⟨by decide, by decide, by decide, by decide, by decide,
    (markComplete_checkpoint activePuller (by decide) (some [115, 49])).2.2.2.2.1⟩

/-! ## The puller: incoming messages -/

/-- C27. For every incoming rev message whose JSON body converts,
`handleRev` responds with the error "BLIP" 400, submits nothing to the
`DBActor` and changes nothing else of the puller if the docID or the revID is
empty, or if the puller is active and the message carries no sequence; in
every other case it submits the revision for insertion. -/
theorem handleRev_validation (p : Puller) (msg : MessageIn) (fleeceBody : List Nat)
    (hbody : msg.fleeceBody = some fleeceBody) :
    ((sliceSize msg.revMetadata.1 = 0 ∨ sliceSize msg.revMetadata.2.1 = 0 ∨
        (p.nonPassive = true ∧ msg.sequence = none)) →
      p.handleRev msg = { p with effects := p.effects ++ [.respondWithError "BLIP" 400] }) ∧
    (¬ (sliceSize msg.revMetadata.1 = 0 ∨ sliceSize msg.revMetadata.2.1 = 0 ∨
        (p.nonPassive = true ∧ msg.sequence = none)) →
      (p.handleRev msg).effects = p.effects ++
        [.insertRevision msg.revMetadata.1 msg.revMetadata.2.1 msg.revMetadata.2.2
          msg.history fleeceBody (!msg.noReply || p.nonPassive)] ∧
      (p.handleRev msg).requestedSequences = p.requestedSequences ∧
      (p.handleRev msg).lastSequence = p.lastSequence) := by
  unfold Puller.handleRev
  rw [hbody]
  dsimp only
  by_cases h1 : sliceSize msg.revMetadata.1 = 0 ∨ sliceSize msg.revMetadata.2.1 = 0
  · rw [if_pos h1]
    refine ⟨fun _ => rfl, fun hn => ?_⟩
    exact absurd (h1.elim Or.inl (fun h => Or.inr (Or.inl h))) hn
  · rw [if_neg h1]
    by_cases h2 : p.nonPassive = true ∧ msg.sequence = none
    · rw [if_pos h2]
      exact ⟨fun _ => rfl, fun hn => absurd (Or.inr (Or.inr h2)) hn⟩
    · rw [if_neg h2]
      refine ⟨fun h => ?_, fun _ => ?_⟩
      · rcases h with h | h | h
        · exact absurd (Or.inl h) h1
        · exact absurd (Or.inr h) h1
        · exact absurd h h2
      · by_cases h3 : ¬ msg.noReply = true ∨ p.nonPassive = true
        · rw [if_pos h3]
          have e : (!msg.noReply || p.nonPassive) = true := by
            rcases h3 with h | h
            · simp [h]
            · simp [h]
          rw [e]
          exact ⟨rfl, rfl, rfl⟩
        · rw [if_neg h3]
          have e : (!msg.noReply || p.nonPassive) = false := by
            cases hn : msg.noReply <;> cases hp : p.nonPassive <;> simp_all
          rw [e]
          exact ⟨rfl, rfl, rfl⟩

theorem handleRev_validation_witness :
    revMessage.fleeceBody = some [123, 125] ∧
    activePuller.handleRev { revMessage with sequence := none } =
      { activePuller with effects := [.respondWithError "BLIP" 400] } ∧
    (activePuller.handleRev revMessage).effects =
      [.insertRevision (some [100, 111, 99]) (some [49, 45, 97]) false none [123, 125] true] ∧
    ((sliceSize revMessage.revMetadata.1 = 0 ∨ sliceSize revMessage.revMetadata.2.1 = 0 ∨
        (activePuller.nonPassive = true ∧ revMessage.sequence = none)) →
      activePuller.handleRev revMessage =
        { activePuller with
          effects := activePuller.effects ++ [.respondWithError "BLIP" 400] }) :=
  ⟨rfl, by decide, by decide,
    (handleRev_validation activePuller revMessage [123, 125] rfl).1⟩

theorem decrement_pos (n : Nat) (h : 0 < n) : decrement n + 1 = n := by
  unfold decrement
  rw [if_neg (by omega)]
  omega

/-- C28. When the `DBActor` reports an insertion error for a rev message, the
callback does not mark the sequence complete: `requestedSequences` and
`lastSequence` are unchanged and no checkpoint is pushed; the puller replies
with the error "LiteCore" and the reported code unless the message is
noreply; and `pendingCallbacks`, which counted the callback, is decremented
by exactly one, as it is on success. -/
theorem onInserted_error (p : Puller) (msg : MessageIn) (errCode : Int)
    (herr : errCode ≠ 0) (hpending : 0 < p.pendingCallbacks) :
    (p.onInserted msg errCode).requestedSequences = p.requestedSequences ∧
    (p.onInserted msg errCode).lastSequence = p.lastSequence ∧
    pushedCheckpoints (p.onInserted msg errCode).effects = pushedCheckpoints p.effects ∧
    (p.onInserted msg errCode).effects =
      p.effects ++ (if msg.noReply then [] else [.respondWithError "LiteCore" errCode]) ∧
    (p.onInserted msg errCode).pendingCallbacks + 1 = p.pendingCallbacks ∧
    (p.onInserted msg 0).pendingCallbacks + 1 = p.pendingCallbacks := by
  have hpc : (p.markComplete msg.sequence).pendingCallbacks = p.pendingCallbacks := by
    by_cases ha : p.nonPassive = true
    · cases hc : p.requestedSequences.contains msg.sequence with
      | true => rw [markComplete_present p _ ha hc]
      | false => rw [markComplete_absent p _ ha hc]
    · rw [markComplete_passive p _ ha]
  have hok : (p.onInserted msg 0).pendingCallbacks + 1 = p.pendingCallbacks := by
    have e : (p.onInserted msg 0).pendingCallbacks =
        decrement (p.markComplete msg.sequence).pendingCallbacks := by
      unfold Puller.onInserted
      cases msg.noReply <;> simp
    rw [e, hpc]
    exact decrement_pos _ hpending
  have herrEq : p.onInserted msg errCode =
      { p with
        pendingCallbacks := decrement p.pendingCallbacks
        effects := p.effects ++
          (if msg.noReply then [] else [.respondWithError "LiteCore" errCode]) } := by
    unfold Puller.onInserted
    rw [if_pos herr]
    cases msg.noReply <;> simp
  rw [herrEq]
  refine ⟨rfl, rfl, ?_, rfl, decrement_pos _ hpending, hok⟩
  rw [pushedCheckpoints_append]
  cases msg.noReply <;> simp [pushedCheckpoints]

theorem onInserted_error_witness :
    (activePuller.onInserted revMessage 7).requestedSequences =
      activePuller.requestedSequences ∧
    (activePuller.onInserted revMessage 7).lastSequence = activePuller.lastSequence ∧
    pushedCheckpoints (activePuller.onInserted revMessage 7).effects =
      pushedCheckpoints activePuller.effects ∧
    (activePuller.onInserted revMessage 7).effects =
      activePuller.effects ++
        (if revMessage.noReply then [] else [.respondWithError "LiteCore" 7]) ∧
    (activePuller.onInserted revMessage 7).pendingCallbacks + 1 =
      activePuller.pendingCallbacks ∧
    (activePuller.onInserted revMessage 0).pendingCallbacks + 1 =
      activePuller.pendingCallbacks :=
  onInserted_error activePuller revMessage 7 (by decide) (by decide)

theorem SequenceSet.contains_add (set : SequenceSet) (s r : alloc_slice)
    (h : set.contains r = true ∨ r = s) : (set.add s).contains r = true := by
  unfold SequenceSet.add
  by_cases hc : set.contains s = true
  · rw [if_pos hc]
    rcases h with h | h
    · exact h
    · rw [h]; exact hc
  · rw [if_neg hc]
    unfold SequenceSet.contains at h ⊢
    simp only [List.any_append, List.any_cons, List.any_nil, Bool.or_false, Bool.and_true,
      Bool.or_eq_true, decide_eq_true_eq]
    rcases h with h | h
    · exact Or.inl h
    · exact Or.inr h.symm

theorem SequenceSet.contains_foldl_add (requests : List alloc_slice) (set : SequenceSet)
    (r : alloc_slice) (h : set.contains r = true ∨ r ∈ requests) :
    (requests.foldl SequenceSet.add set).contains r = true := by
  induction requests generalizing set with
  | nil =>
    rcases h with h | h
    · exact h
    · cases h
  | cons s rest ih =>
    rw [List.foldl_cons]
    apply ih
    rcases h with h | h
    · exact Or.inl (SequenceSet.contains_add set s r (Or.inl h))
    · rcases List.mem_cons.1 h with h | h
      · exact Or.inl (SequenceSet.contains_add set s r (Or.inr h))
      · exact Or.inr h

/-- C29 (as stated, refuted). In a passive puller the callback of
`handleChanges` records nothing: after it has run with the wanted sequence
"s1", `requestedSequences` is as before and does not contain "s1"; only
`pendingCallbacks` has changed. -/
theorem onRevsRequested_passive :
    (passivePuller.handleChanges changesMessage).effects = [.findOrRequestRevs [[115, 49]]] ∧
    (passivePuller.onRevsRequested [some [115, 49]]).requestedSequences =
      passivePuller.requestedSequences ∧
    (passivePuller.onRevsRequested [some [115, 49]]).requestedSequences.contains
      (some [115, 49]) = false := by
  decide

/-- C29 (amended). `handleChanges` acts on a well-formed changes message as
follows: for an empty list it sets `caughtUp` and responds with an empty
reply, changing nothing else; for a non-empty list with no reply expected it
changes nothing and forwards nothing; for a non-empty list expecting a reply
it increments `pendingCallbacks` by one and forwards the request to the
`DBActor`. The later callback decrements `pendingCallbacks` by one and, in an
active puller, adds each wanted sequence to `requestedSequences`; in a
passive puller it leaves `requestedSequences` as it is. -/
theorem handleChanges_spec (p : Puller) (req : MessageIn) (changes : List (List Nat))
    (hwf : req.changes = some changes) (hroom : p.pendingCallbacks + 1 < 2 ^ 32) :
    (changes = [] →
      p.handleChanges req = { p with caughtUp := true, effects := p.effects ++ [.respond] }) ∧
    (changes ≠ [] → req.noReply = true → p.handleChanges req = p) ∧
    (changes ≠ [] → req.noReply = false →
      p.handleChanges req =
        { p with
          pendingCallbacks := p.pendingCallbacks + 1
          effects := p.effects ++ [.findOrRequestRevs changes] }) ∧
    (∀ (q : Puller) (requests : List alloc_slice), 0 < q.pendingCallbacks →
      (q.onRevsRequested requests).pendingCallbacks + 1 = q.pendingCallbacks ∧
      (q.onRevsRequested requests).lastSequence = q.lastSequence ∧
      (q.onRevsRequested requests).effects = q.effects ∧
      (q.nonPassive = true →
        (q.onRevsRequested requests).requestedSequences =
          requests.foldl SequenceSet.add q.requestedSequences ∧
        ∀ r ∈ requests, (q.onRevsRequested requests).requestedSequences.contains r = true) ∧
      (q.nonPassive = false →
        (q.onRevsRequested requests).requestedSequences = q.requestedSequences)) := by
  unfold Puller.handleChanges
  rw [hwf]
  dsimp only
  refine ⟨?_, ?_, ?_, ?_⟩
  · intro he
    subst he
    rfl
  · intro hne hn
    have hemp : changes.isEmpty = false := by
      cases changes with
      | nil => exact absurd rfl hne
      | cons _ _ => rfl
    rw [hemp]
    simp only [Bool.false_eq_true, if_false, hn, if_true]
  · intro hne hn
    have hemp : changes.isEmpty = false := by
      cases changes with
      | nil => exact absurd rfl hne
      | cons _ _ => rfl
    have hinc : increment p.pendingCallbacks = p.pendingCallbacks + 1 := by
      unfold increment
      rw [if_neg (by omega)]
    rw [hemp, hinc]
    simp only [Bool.false_eq_true, if_false, hn]
  · intro q requests hq
    unfold Puller.onRevsRequested
    refine ⟨decrement_pos _ hq, rfl, rfl, ?_, ?_⟩
    · intro ha
      simp only [ha, if_true]
      exact ⟨trivial, fun r hr => SequenceSet.contains_foldl_add requests _ r (Or.inr hr)⟩
    · intro ha
      simp only [ha, Bool.false_eq_true, if_false]

theorem handleChanges_spec_witness :
    changesMessage.changes = some [[115, 49]] ∧
    activePuller.handleChanges changesMessage =
      { activePuller with
        pendingCallbacks := 4, effects := [.findOrRequestRevs [[115, 49]]] } ∧
    (activePuller.onRevsRequested [some [115, 52]]).requestedSequences.contains
      (some [115, 52]) = true ∧
    (([[115, 49]] : List (List Nat)) ≠ [] → changesMessage.noReply = false →
      activePuller.handleChanges changesMessage =
        { activePuller with
          pendingCallbacks := activePuller.pendingCallbacks + 1
          effects := activePuller.effects ++ [.findOrRequestRevs [[115, 49]]] }) :=
  ⟨rfl, by decide, by decide,
    (handleChanges_spec activePuller changesMessage [[115, 49]] rfl (by decide)).2.2.1⟩

/-! ## Termination of the capacity loop -/

theorem reserveLoop_terminates (fuel capacity capacityNeeded : Nat)
    (hlt : capacity < capacityNeeded) (hn : capacityNeeded ≤ 2 ^ 31)
    (hf : capacityNeeded ≤ capacity * 2 ^ fuel) :
    ∃ result, reserveLoop fuel capacity capacityNeeded = some result ∧
      capacityNeeded ≤ result := by
  induction fuel generalizing capacity with
  | zero => simp only [pow_zero, Nat.mul_one] at hf; omega
  | succ f ih =>
    have e : capacity * 2 % 2 ^ 32 = capacity * 2 := by
      apply Nat.mod_eq_of_lt
      have : (2 : Nat) ^ 32 = 2 ^ 31 * 2 := by norm_num
      omega
    rw [reserveLoop]
    simp only [e]
    by_cases h : capacity * 2 < capacityNeeded
    · rw [if_pos h]
      apply ih _ h
      rw [pow_succ] at hf
      calc capacityNeeded ≤ capacity * (2 ^ f * 2) := hf
        _ = capacity * 2 * 2 ^ f := by ring
    · rw [if_neg h]
      exact ⟨_, rfl, by omega⟩

theorem RevTreeReserveCapacity_terminates (t : RevTree) (extraCapacity : Nat)
    (hcap : 0 < t.capacity) (hn : t.count + extraCapacity ≤ 2 ^ 31) :
    ∃ t', RevTreeReserveCapacity t extraCapacity = some t' ∧
      t.count + extraCapacity ≤ t'.capacity ∧ t'.count = t.count ∧
      t'.sorted = t.sorted ∧ t'.node = t.node := by
  have hmod : (t.count + extraCapacity) % 2 ^ 32 = t.count + extraCapacity := by
    apply Nat.mod_eq_of_lt
    have : (2 : Nat) ^ 31 < 2 ^ 32 := by norm_num
    omega
  unfold RevTreeReserveCapacity
  simp only [hmod]
  by_cases hle : t.count + extraCapacity ≤ t.capacity
  · rw [if_pos hle]
    exact ⟨t, rfl, hle, rfl, rfl, rfl⟩
  · rw [if_neg hle]
    have h33 : t.count + extraCapacity ≤ t.capacity * 2 ^ 33 := by
      have : (2 : Nat) ^ 31 ≤ 2 ^ 33 := by norm_num
      calc t.count + extraCapacity ≤ 2 ^ 33 := by omega
        _ = 1 * 2 ^ 33 := by ring
        _ ≤ t.capacity * 2 ^ 33 := Nat.mul_le_mul_right _ hcap
    obtain ⟨r, hr, hge⟩ := reserveLoop_terminates 33 t.capacity _ (by omega) hn h33
    rw [hr]
    exact ⟨_, rfl, hge, rfl, rfl, rfl⟩

/-- C33, the code does not do what the claim says: `RevTreeReserveCapacity` does
not terminate on the empty tree of capacity 0 (what `RevTreeNew(0)` returns,
and what `RevTreeDecode` returns for the packed tree without records and
`extraCapacity = 0`) when one more rev is asked for: `capacity *= 2` leaves 0,
so the loop of lines 332-334 never exits, with whatever fuel. The doubling can
also wrap to 0 from `2^31`, and the sum `count + extraCapacity` can wrap,
after which the call returns with a capacity below `count + extraCapacity`.
Whenever the call returns, count, sorted flag and revs are unchanged and the
capacity is at least `(count + extraCapacity) mod 2^32`; and it does return,
with capacity at least `count + extraCapacity`, whenever the capacity is not
0 and `count + extraCapacity ≤ 2^31`. -/
theorem RevTreeReserveCapacity_loops_forever :
    RevTreeReserveCapacity (RevTreeNew 0) 1 = none ∧
    (∀ fuel, reserveLoop fuel (RevTreeNew 0).capacity
      (((RevTreeNew 0).count + 1) % 2 ^ 32) = none) ∧
    RevTreeDecode (htonl 0) 0 = .ok (RevTreeNew 0) ∧
    (∀ fuel, reserveLoop fuel (2 ^ 31) (2 ^ 31 + 1) = none) ∧
    (RevTreeReserveCapacity linearTree (2 ^ 32 - 1) = some linearTree ∧
      linearTree.capacity < linearTree.count + (2 ^ 32 - 1)) ∧
    (∀ (t t' : RevTree) (extraCapacity : Nat),
      RevTreeReserveCapacity t extraCapacity = some t' →
      t'.count = t.count ∧ t'.sorted = t.sorted ∧ t'.node = t.node ∧
      (t.count + extraCapacity) % 2 ^ 32 ≤ t'.capacity) ∧
    (∀ (t : RevTree) (extraCapacity : Nat), 0 < t.capacity →
      t.count + extraCapacity ≤ 2 ^ 31 →
      ∃ t', RevTreeReserveCapacity t extraCapacity = some t' ∧
        t.count + extraCapacity ≤ t'.capacity) := by
  refine ⟨by decide, ?_, by decide, ?_, ⟨by decide, by decide⟩, ?_, ?_⟩
  · intro fuel
    exact reserveLoop_fuel _ _ (by decide) fuel
  · intro fuel
    exact reserveLoop_fuel _ _ (by decide) fuel
  · intro t t' extraCapacity h
    obtain ⟨h1, h2, -, h4⟩ := RevTreeReserveCapacity_some t t' extraCapacity h
    exact ⟨by simp only [RevTree.count, h1], h2, h1, h4⟩
  · intro t extraCapacity hcap hn
    obtain ⟨t', h, hge, -⟩ := RevTreeReserveCapacity_terminates t extraCapacity hcap hn
    exact ⟨t', h, hge⟩

/-! ## The sorted flag and the order of the array -/

theorem ParentForest.valid {nodes : List RevNode} (h : ParentForest nodes) :
    ∀ n ∈ nodes, n.parentIndex = kRevNodeParentIndexNone ∨ n.parentIndex < nodes.length := by
  obtain ⟨depth, hd⟩ := h
  intro n hn
  obtain ⟨i, hi⟩ := List.mem_iff_getElem?.1 hn
  by_cases hp : n.parentIndex = kRevNodeParentIndexNone
  · exact Or.inl hp
  · exact Or.inr ((hd i n hi).2 hp).1

theorem ParentForest.reachesRoot {nodes : List RevNode} (h : ParentForest nodes)
    (i : Nat) (hi : i < nodes.length) :
    ∃ steps, steps < nodes.length ∧ reachesRoot nodes steps i = true := by
  obtain ⟨depth, hd⟩ := h
  have key : ∀ d i, i < nodes.length → depth i ≤ d →
      ∃ steps, steps ≤ depth i ∧ CBForest.reachesRoot nodes steps i = true := by
    intro d
    induction d with
    | zero =>
      intro i hi hdi
      have hget : nodes[i]? = some nodes[i] := List.getElem?_eq_getElem hi
      by_cases hp : nodes[i].parentIndex = kRevNodeParentIndexNone
      · exact ⟨0, Nat.zero_le _, by simp [CBForest.reachesRoot, hget, hp]⟩
      · have := ((hd i _ hget).2 hp).2
        omega
    | succ d ih =>
      intro i hi hdi
      have hget : nodes[i]? = some nodes[i] := List.getElem?_eq_getElem hi
      by_cases hp : nodes[i].parentIndex = kRevNodeParentIndexNone
      · exact ⟨0, Nat.zero_le _, by simp [CBForest.reachesRoot, hget, hp]⟩
      · obtain ⟨hlt, hdep⟩ := (hd i _ hget).2 hp
        obtain ⟨steps, hs, hr⟩ := ih nodes[i].parentIndex hlt (by omega)
        exact ⟨steps + 1, by omega, by simp [CBForest.reachesRoot, hget, hp, hr]⟩
  obtain ⟨steps, hs, hr⟩ := key (depth i) i hi (le_refl _)
  have := (hd i _ (List.getElem?_eq_getElem hi)).1
  exact ⟨steps, by omega, hr⟩

theorem ParentForest.append {nodes nodes1 : List RevNode} (h : ParentForest nodes)
    (hlen : nodes1.length = nodes.length)
    (hsame : ∀ (i : Nat) (n : RevNode), nodes1[i]? = some n →
      ∃ m, nodes[i]? = some m ∧ n.parentIndex = m.parentIndex)
    (new : RevNode)
    (hnew : new.parentIndex = kRevNodeParentIndexNone ∨ new.parentIndex < nodes.length) :
    ParentForest (nodes1 ++ [new]) := by
  obtain ⟨depth, hd⟩ := h
  refine ⟨fun i => if i < nodes.length then depth i
    else if new.parentIndex = kRevNodeParentIndexNone then 0
    else depth new.parentIndex + 1, ?_⟩
  intro i n hi
  simp only [List.length_append, List.length_cons, List.length_nil, hlen]
  by_cases hlt : i < nodes.length
  · rw [List.getElem?_append_left (by omega)] at hi
    obtain ⟨m, hm, hpar⟩ := hsame i n hi
    obtain ⟨h1, h2⟩ := hd i m hm
    rw [if_pos hlt]
    refine ⟨by omega, ?_⟩
    intro hp
    rw [hpar] at hp ⊢
    obtain ⟨h3, h4⟩ := h2 hp
    rw [if_pos h3]
    exact ⟨by omega, h4⟩
  · have hi2 : i = nodes.length := by
      have := (List.getElem?_eq_some.1 hi).1
      simp only [List.length_append, List.length_cons, List.length_nil, hlen] at this
      omega
    subst hi2
    rw [List.getElem?_append_right (by omega), hlen, Nat.sub_self] at hi
    simp only [List.getElem?_cons_zero, Option.some.injEq] at hi
    subst hi
    rw [if_neg hlt]
    by_cases hp : new.parentIndex = kRevNodeParentIndexNone
    · rw [if_pos hp]
      exact ⟨by omega, fun hne => absurd hp hne⟩
    · rw [if_neg hp]
      have hq : new.parentIndex < nodes.length := by
        rcases hnew with h | h
        · exact absurd h hp
        · exact h
      have := (hd _ _ (List.getElem?_eq_getElem hq)).1
      refine ⟨by omega, fun _ => ⟨by omega, ?_⟩⟩
      rw [if_pos hq]
      omega

theorem RevTreeInsert_parentForest (t t' : RevTree) (revID data : sized_buf)
    (parentNode : Option Nat) (deleted : Bool)
    (h : RevTreeInsert t revID data parentNode deleted = some t')
    (hf : ParentForest t.node) : ParentForest t'.node := by
  obtain ⟨hcap, -, -⟩ := RevTreeInsert_count t t' revID data parentNode deleted h
  cases parentNode with
  | none =>
    rw [RevTreeInsert_none t revID data deleted hcap] at h
    simp only [Option.some.injEq] at h
    subst h
    exact hf.append rfl (fun i n hi => ⟨n, hi, rfl⟩) _ (Or.inl rfl)
  | some p =>
    by_cases hp : p < t.count
    · rw [RevTreeInsert_some t revID data p deleted hcap hp] at h
      simp only [Option.some.injEq] at h
      subst h
      refine hf.append (List.length_modify _ _ _) ?_ _ (Or.inr ?_)
      · intro i n hi
        rw [List.getElem?_modify] at hi
        cases hl : t.node[i]? with
        | none => simp [hl] at hi
        | some m =>
          refine ⟨m, rfl, ?_⟩
          by_cases hpi : p = i
          · simp only [hl, hpi, if_true, Option.map_eq_map, Option.map_some',
              Option.some.injEq] at hi
            rw [← hi, clearLeaf_parentIndex]
          · simp only [hl, hpi, if_false, Option.map_eq_map, Option.map_some',
              Option.some.injEq] at hi
            rw [← hi]
      · have := Nat.mod_le p (2 ^ 16)
        simp only [RevTree.count] at hp
        show p % 2 ^ 16 < t.node.length
        omega
    · simp [RevTreeInsert, hcap] at h
      exact absurd h.1 hp

theorem RevTreeSort_parentForest
    (qsort : (RevNode → RevNode → Int) → List RevNode → List RevNode)
    (hq : QsortSpec qsort) (t t' : RevTree) (h : RevTreeSort qsort t = some t')
    (hf : ParentForest t.node) : ParentForest t'.node := by
  cases hsrt : t.sorted with
  | true =>
    rw [RevTreeSort_sorted qsort t hsrt] at h
    cases h
    exact hf
  | false =>
    by_cases hc : t.count ≤ 65535
    · rw [RevTreeSort_unsorted qsort t hsrt hc] at h
      simp only [Option.some.injEq] at h
      subst h
      have hperm := (hq (tagNodes t.node)).1
      have hlen : (qsort compareNodes (tagNodes t.node)).length = t.node.length := by
        rw [hperm.length_eq, tagNodes_length]
      obtain ⟨depth, hd⟩ := hf
      refine ⟨fun j => match (qsort compareNodes (tagNodes t.node))[j]? with
        | some x => depth x.parentIndex
        | none => 0, ?_⟩
      intro j n hj
      simp only [RevTree.count] at hj ⊢
      have hjlt : j < (qsort compareNodes (tagNodes t.node)).length := by
        have := (List.getElem?_eq_some.1 hj).1
        simpa [fixParents] using this
      have hsj := List.getElem?_eq_getElem hjlt
      rw [fixParents_getElem? _ _ _ j _ hsj] at hj
      simp only [Option.some.injEq] at hj
      obtain ⟨k, hk, hx⟩ := mem_tagNodes (hperm.mem_iff.1 (List.getElem_mem hjlt))
      have hxp : ((qsort compareNodes (tagNodes t.node))[j]).parentIndex = k := by rw [hx]
      have hold : (t.node.map (fun node => node.parentIndex)).getD k 0 =
          t.node[k].parentIndex := by
        simp [List.getD_eq_getElem?_getD, List.getElem?_map, List.getElem?_eq_getElem hk]
      rw [hxp, hold] at hj
      obtain ⟨h1, h2⟩ := hd k _ (List.getElem?_eq_getElem hk)
      have hlen2 : (fixParents (t.node.map (fun node => node.parentIndex))
          (fillOldToNew (qsort compareNodes (tagNodes t.node)) 0
            (List.replicate t.node.length 0))
          (qsort compareNodes (tagNodes t.node))).length = t.node.length := by
        simp only [fixParents, List.length_map, hlen]
      rw [hlen2]
      simp only [hsj, hxp]
      refine ⟨h1, ?_⟩
      intro hne
      by_cases hp : t.node[k].parentIndex = kRevNodeParentIndexNone
      · exfalso
        apply hne
        rw [← hj]
        simp only [hp, ne_eq, not_true_eq_false, if_false]
      · obtain ⟨h3, h4⟩ := h2 hp
        obtain ⟨j2, hj2, hs2, ho2⟩ := sort_index t.node _ hperm _ h3
        have hnp : n.parentIndex = j2 := by
          rw [← hj]
          simp only [ne_eq, hp, not_false_eq_true, if_true]
          exact ho2
        rw [hnp]
        refine ⟨hj2, ?_⟩
        simp only [hs2]
        exact h4
    · rw [RevTreeSort_diverges qsort t hsrt (by omega)] at h
      cases h

/-- Every tree built by insertions and sorts has parent links that form a forest. -/
theorem Built.parentForest
    {qsort : (RevNode → RevNode → Int) → List RevNode → List RevNode}
    (hq : QsortSpec qsort) {t : RevTree} (hb : Built qsort t) : ParentForest t.node := by
  induction hb with
  | new capacity =>
    exact ⟨fun _ => 0, fun i n hi => by simp [RevTreeNew] at hi⟩
  | insert revID data parentNode deleted _ h ih =>
    exact RevTreeInsert_parentForest _ _ revID data parentNode deleted h ih
  | sort _ h ih => exact RevTreeSort_parentForest qsort hq _ _ h ih

/-- C31. Every tree built from an empty tree (`RevTreeNew`) by calls of
`RevTreeInsert` and `RevTreeSort` that return has valid parent links: the
`parentIndex` of each rev is none (the sentinel 0xFFFF) or less than `count`,
and following the parent links from any rev arrives, in fewer than `count`
steps, at a rev without parent, so the links form a forest without cycles.
An insertion only adds a rev whose link goes to a rev already there (the
16-bit truncation of the index only lowers it or gives the sentinel), and a
sort renumbers the links along with the revs. The only assumption on `qsort`
is `QsortSpec`. -/
theorem Built_parents_forest
    (qsort : (RevNode → RevNode → Int) → List RevNode → List RevNode)
    (hq : QsortSpec qsort) (t : RevTree) (hb : Built qsort t) :
    (∀ n ∈ t.node, n.parentIndex = kRevNodeParentIndexNone ∨ n.parentIndex < t.count) ∧
    ∀ i, i < t.count → ∃ steps, steps < t.count ∧ reachesRoot t.node steps i = true :=
  ⟨(Built.parentForest hq hb).valid, fun i hi => (Built.parentForest hq hb).reachesRoot i hi⟩

/-- Witness for C31: "1-a" inserted into `RevTreeNew(3)`, "2-b" inserted under
it, and the tree sorted with the reference sort, which puts the child first. -/
theorem Built_parents_forest_witness :
    QsortSpec insertionQsort ∧ Built insertionQsort linearTree3Sorted ∧
    (∀ n ∈ linearTree3Sorted.node,
      n.parentIndex = kRevNodeParentIndexNone ∨ n.parentIndex < linearTree3Sorted.count) ∧
    ∀ i, i < linearTree3Sorted.count →
      ∃ steps, steps < linearTree3Sorted.count ∧
        reachesRoot linearTree3Sorted.node steps i = true :=
  have h1 : RevTreeInsert (RevTreeNew 3) [49, 45, 97] [] none false = some rootTree3 := by
    decide
  have h2 : RevTreeInsert rootTree3 [50, 45, 98] [] (some 0) false = some linearTree3 := by
    decide
  have h3 : RevTreeSort insertionQsort linearTree3 = some linearTree3Sorted := by decide
  have hb : Built insertionQsort linearTree3Sorted :=
    Built.sort (Built.insert _ _ _ _ (Built.insert _ _ _ _ (Built.new 3) h1) h2) h3
  ⟨insertionQsort_spec, hb,
    Built_parents_forest insertionQsort insertionQsort_spec linearTree3Sorted hb⟩

end CBForest
